import Mathlib

/-!
Verification of the Tempesta TLS core (bignum.c, tls_srv.c) against its
natural-language specification.  The C sources are shallowly embedded:
machine words are natural numbers reduced modulo 2^64 (resp. 2^32, 2^8)
exactly where the C code's fixed-width arithmetic wraps, byte buffers are
lists of naturals below 256, and external callbacks (RNG, ticket codec,
PK decrypt) enter as explicit inputs.
-/

/-! ## Basic word-level helpers -/

/-- Bits per limb (BIL in bignum.c, 64-bit platform). -/
def BIL : Nat := 64

/-- Bytes per limb (CIL in bignum.c). -/
def CIL : Nat := 8

/-- Wrapping unsigned subtraction on w-bit words: the value of the C
expression a - b on unsigned w-bit operands. -/
def wordSub (w a b : Nat) : Nat := (a + (2 ^ w - b % 2 ^ w)) % 2 ^ w

/-! ## TLS alerts and parse errors -/

/-- Alert descriptions sent by ttls_send_alert on the paths modelled here. -/
inductive TlsAlert where
  | decodeError
  | illegalParameter
  | protocolVersion
  | inappropriateFallback
  | handshakeFailure
  | unrecognizedName
  | noApplicationProtocol
deriving DecidableEq

/-- Outcome of a fallible parser step: a fatal alert was emitted, or the
input chunk ended before the field did (the FSM's T_POSTPONE). -/
inductive PErr where
  | alert (a : TlsAlert)
  | truncated
deriving DecidableEq

/-! ## ttls_parse_supported_point_formats (tls_srv.c) -/

/-- Point format constants from ecp.h (RFC 4492 ECPointFormat). -/
def TTLS_ECP_PF_UNCOMPRESSED : Nat := 0

/-- Compressed point format constant from ecp.h. -/
def TTLS_ECP_PF_COMPRESSED : Nat := 1

/-- Scan loop of ttls_parse_supported_point_formats: walk the offered list
and return the first entry that is the uncompressed or the compressed
format; the loop exits the handler as soon as one matches. -/
def pointFormatScan : List Nat → Option Nat
  | [] => none
  | b :: rest =>
    if b = TTLS_ECP_PF_UNCOMPRESSED ∨ b = TTLS_ECP_PF_COMPRESSED then some b
    else pointFormatScan rest

/-- Embedding of ttls_parse_supported_point_formats.  Input is the extension
body; the result carries the cli_exts flag and the point format written to
the ECDH context (none keeps the context's default). -/
def ttls_parse_supported_point_formats (buf : List Nat) :
    Except TlsAlert (Bool × Option Nat) :=
  match buf with
  | [] => .error .decodeError
  | b0 :: rest =>
    if b0 + 1 ≠ (b0 :: rest).length then .error .decodeError
    else .ok (true, pointFormatScan (rest.take b0))

/-! ## ttls_parse_session_ticket_ext (tls_srv.c) -/

/-- Session state as far as the ticket handler touches it: the session id
(length and bytes) and an abstract remainder for all other fields
(ciphersuite, master secret, timestamps, ...). -/
structure TlsSess where
  id_len : Nat
  id : List Nat
  rest : Nat
deriving DecidableEq

/-- Handshake flags read and written by the session-ticket handler. -/
structure TicketSt where
  sess : TlsSess
  resume : Bool
  new_session_ticket : Bool
deriving DecidableEq

/-- Embedding of ttls_parse_session_ticket_ext.  The external ticket codec
f_ticket_parse enters as its outcome: an error code or the decrypted
session.  Configuration without both ticket callbacks short-circuits. -/
def ttls_parse_session_ticket_ext (hasTicketCallbacks : Bool)
    (ticketOutcome : Except Int TlsSess) (len : Nat) (st : TicketSt) :
    TicketSt :=
  if ¬hasTicketCallbacks then st
  else
    let st1 := { st with new_session_ticket := true }
    if len = 0 then st1
    else
      match ticketOutcome with
      | .error _ => st1
      | .ok s =>
        { sess := { s with id_len := st.sess.id_len, id := st.sess.id },
          resume := true, new_session_ticket := false }

/-! ## ttls_parse_encrypted_pms (tls_srv.c) -/

/-- Embedding of ttls_parse_encrypted_pms.  Inputs: whether the own key can
do RSA, the RSA key byte length, the ClientKeyExchange body, the outcome of
ttls_pk_decrypt (return code, output buffer contents, output length), the
48 fresh random bytes drawn by ttls_rnd, and conf->max_minor_ver.  The
result is the premaster buffer contents and pmslen. -/
def ttls_parse_encrypted_pms (canDoRSA : Bool) (keyLen : Nat)
    (msg : List Nat) (decryptRet : Int) (peer_pms : List Nat)
    (peer_pmslen : Nat) (fake_pms : List Nat) (max_minor_ver : Nat) :
    Except Unit (List Nat × Nat) :=
  if ¬canDoRSA then .error ()
  else
    match msg with
    | b0 :: b1 :: ct =>
      if b0 ≠ (keyLen >>> 8) &&& 255 ∨ b1 ≠ keyLen &&& 255
          ∨ ct.length ≠ keyLen then
        .error ()
      else
        let ver0 : Nat := 3
        let ver1 : Nat := max_minor_ver
        let diff : Nat :=
          (((decryptRet % (2 ^ 32 : Int)).toNat ||| (peer_pmslen ^^^ 48))
            ||| (peer_pms.getD 0 0 ^^^ ver0)) ||| (peer_pms.getD 1 0 ^^^ ver1)
        let mask : Nat :=
          wordSub 8 0 ((diff ||| wordSub 32 0 diff) >>> 31)
        let pms := (List.range 48).map fun i =>
          (mask &&& fake_pms.getD i 0) ||| ((mask ^^^ 255) &&& peer_pms.getD i 0)
        .ok (pms, 48)
    | _ => .error ()

/-! ## ClientHello cipher-suite stage and SCSVs (tls_srv.c) -/

/-- Modelled from the spec: the SCSV cipher-suite values FALLBACK_SCSV and
EMPTY_RENEGOTIATION_INFO_SCSV recognised in the cipher-suite list.  Their
numeric values live in ttls.h, which is not part of the provided sources;
RFC 7507 / RFC 5746 fix them as 0x5600 and 0x00FF. -/
def TTLS_FALLBACK_SCSV_VALUE : Nat := 0x5600

/-- Modelled from the spec: the RFC 5746 signalling suite value. -/
def TTLS_EMPTY_RENEGOTIATION_INFO : Nat := 0x00ff

/-- Embedding of ttls_check_scsvs: given the negotiated minor version and
conf->max_minor_ver, inspect one cipher-suite value; a FALLBACK_SCSV with a
lowered version closes with a fatal inappropriate_fallback alert, the empty
renegotiation info SCSV turns on secure_renegotiation. -/
def ttls_check_scsvs (minor max_minor_ver : Nat) (reneg : Bool) (cs : Nat) :
    Except TlsAlert Bool :=
  if cs = TTLS_FALLBACK_SCSV_VALUE then
    if minor < max_minor_ver then .error .inappropriateFallback else .ok reneg
  else if cs = TTLS_EMPTY_RENEGOTIATION_INFO then .ok true
  else .ok reneg

/-- First k cipher-suite values of a byte list, each read as two big-endian
bytes (specification-side description of the stored entries). -/
def csEntries : List Nat → Nat → List Nat
  | _, 0 => []
  | b0 :: b1 :: rest, k + 1 => (b0 * 256 + b1) :: csEntries rest k
  | _, _ + 1 => []

/-- Embedding of the TTLS_CH_HS_CS / TTLS_CH_HS_CS_SKIP states of
ttls_parse_client_hello: consume the declared cipher-suite byte count,
storing a suite per two bytes while there is room in hs->css (capacity cap
entries, i.e. 2 * cap bytes) and running the SCSV check on each stored
suite; once storage is exhausted the remaining bytes are skipped unchecked
and cs_total_len is clamped to the storage size.  Returns the stored
suites, the final cs_total_len, the secure_renegotiation flag and the
unconsumed bytes. -/
def ttls_parse_cs (cap minor max_minor_ver : Nat) (total : Nat) :
    Nat → List Nat → List Nat → Bool →
    Except PErr (List Nat × Nat × Bool × List Nat)
  | cur, css, bytes, reneg =>
    if total ≤ cur then .ok (css, total, reneg, bytes)
    else if 2 * cap ≤ cur then
      if total - cur ≤ bytes.length then
        .ok (css, 2 * cap, reneg, bytes.drop (total - cur))
      else .error .truncated
    else
      match bytes with
      | b0 :: b1 :: rest =>
        let cs := b0 * 256 + b1
        match ttls_check_scsvs minor max_minor_ver reneg cs with
        | .error a => .error (.alert a)
        | .ok reneg2 =>
          ttls_parse_cs cap minor max_minor_ver total (cur + 2)
            (css ++ [cs]) rest reneg2
      | _ => .error .truncated

/-! ## ttls_choose_ciphersuite (tls_srv.c) -/

/-- Inner loop of ttls_choose_ciphersuite: scan the stored peer suites for
one server-preference value p; returns the updated got_common_suite flag
and whether p was accepted by ttls_ciphersuite_match (abstracted as the
usable predicate over suite ids). -/
def csScanPeer (usable : Nat → Bool) (p : Nat) :
    List Nat → Bool → Bool × Bool
  | [], got => (got, false)
  | cs :: rest, got =>
    if cs ≠ p then csScanPeer usable p rest got
    else if usable p then (true, true)
    else csScanPeer usable p rest true

/-- Outer loop of ttls_choose_ciphersuite over the server preference list;
both failure modes send a fatal handshake_failure alert. -/
def chooseLoop (usable : Nat → Bool) (stored : List Nat) :
    List Nat → Bool → Except TlsAlert Nat
  | [], _ => .error .handshakeFailure
  | p :: ps, got =>
    match csScanPeer usable p stored got with
    | (_, true) => .ok p
    | (got2, false) => chooseLoop usable stored ps got2

/-- Embedding of ttls_choose_ciphersuite: iterate the preference list of
the server against the first cs_total_len / 2 stored suites; the usable
predicate abstracts ttls_ciphersuite_match (version bracket, curves, hash
and certificate fit). -/
def ttls_choose_ciphersuite (prefs : List Nat) (usable : Nat → Bool)
    (css : List Nat) (cs_total_len : Nat) : Except TlsAlert Nat :=
  chooseLoop usable (css.take (cs_total_len / 2)) prefs false

/-! ## ttls_parse_client_hello (tls_srv.c) -/

/-- Observable outcome of the ClientHello parse as modelled here. -/
structure CHOut where
  randbytes : List Nat
  sess_id_len : Nat
  css : List Nat
  cs_total_len : Nat
  secure_renegotiation : Bool
  ext_rem_sz : Nat
deriving DecidableEq

/-- Result: the message ended with no extensions, or extensions of the
declared total size remain to be dispatched. -/
inductive CHRes where
  | done (out : CHOut)
  | exts (out : CHOut) (rest : List Nat)
deriving DecidableEq

/-- Embedding of the ClientHello field sequence of ttls_parse_client_hello
for a message delivered in one piece: protocol version, client random,
session id, cipher-suite list (with SCSV checks and clamping), compression
methods (must include null), extensions length.  hslen bookkeeping and the
checks mirror the source states TTLS_CH_HS_VER .. TTLS_CH_HS_EXTLEN. -/
def ttls_parse_client_hello (cap max_minor_ver : Nat) (bytes : List Nat) :
    Except PErr CHRes :=
  match bytes with
  | maj :: minr :: r1 =>
    let hslen1 := (maj :: minr :: r1).length - 2
    if maj ≠ 3 ∨ minr ≠ 3 then .error (.alert .protocolVersion)
    else if r1.length < 32 then .error .truncated
    else
      let rand := r1.take 32
      let r2 := r1.drop 32
      let hslen2 := hslen1 - 32
      match r2 with
      | [] => .error .truncated
      | n :: r3 =>
        if 32 < n ∨ hslen2 < n + 9 then .error (.alert .decodeError)
        else if r3.length < n then .error .truncated
        else
          let r4 := r3.drop n
          let hslen3 := hslen2 - 1 - n
          match r4 with
          | c0 :: c1 :: r5 =>
            let total := c0 * 256 + c1
            let hslen4 := hslen3 - 2
            if total < 2 ∨ hslen4 < total + 1 ∨ total % 2 = 1 then
              .error (.alert .decodeError)
            else
              match ttls_parse_cs cap 3 max_minor_ver total 0 [] r5 false with
              | .error e => .error e
              | .ok (css, total2, reneg, r6) =>
                let hslen5 := hslen4 - total
                match r6 with
                | [] => .error .truncated
                | cn :: r7 =>
                  if cn < 1 ∨ 16 < cn ∨ hslen5 < cn + 1 then
                    .error (.alert .decodeError)
                  else if r7.length < cn then .error .truncated
                  else
                    let comps := r7.take cn
                    let r8 := r7.drop cn
                    let hslen6 := hslen5 - 1 - cn
                    if ¬(0 ∈ comps) then .error (.alert .decodeError)
                    else
                      match r8 with
                      | e0 :: e1 :: r9 =>
                        let extsz := e0 * 256 + e1
                        let hslen7 := hslen6 - 2
                        if hslen7 ≠ extsz ∨ (0 < extsz ∧ extsz < 4) then
                          .error (.alert .decodeError)
                        else
                          let out : CHOut :=
                            ⟨rand, n, css, total2, reneg, extsz⟩
                          if extsz = 0 then .ok (.done out)
                          else .ok (.exts out r9)
                      | _ => .error .truncated
          | _ => .error .truncated
  | _ => .error .truncated

/-! ## MPI limb representation (bignum.c) -/

/-- Value of a little-endian digit list in base b: digit i carries b^i. -/
def lVal (b : Nat) (l : List Nat) : Nat :=
  l.foldr (fun d acc => acc * b + d) 0

/-- An MPI as stored by bignum.c: sign, used limb count and the allocated
limb array (little-endian, 64-bit limbs). -/
structure TlsMpi where
  s : Int
  used : Nat
  p : List Nat
deriving DecidableEq

/-- Value represented by an MPI's magnitude: the first used limbs. -/
def mpiVal (X : TlsMpi) : Nat := lVal (2 ^ 64) (X.p.take X.used)

/-- The normalisation invariants of the spec: at least one limb is
accounted and the most significant accounted limb is non-zero unless the
value is the canonical zero (used = 1). -/
def MpiNorm (X : TlsMpi) : Prop :=
  1 ≤ X.used ∧ (1 < X.used → X.p.getD (X.used - 1) 0 ≠ 0)

instance (X : TlsMpi) : Decidable (MpiNorm X) := by
  unfold MpiNorm; infer_instance

/-- Loop of mpi_fixup_used: from n move towards limb 0 dropping zero high
limbs but never below one limb. -/
def fixupLoop (p : List Nat) : Nat → Nat
  | 0 => 0
  | n + 1 => if 1 < n + 1 ∧ p.getD n 0 = 0 then fixupLoop p n else n + 1

/-- Embedding of mpi_fixup_used (the n argument is clamped to the number
of allocated limbs, as in the source). -/
def mpi_fixup_used (p : List Nat) (n : Nat) : Nat :=
  fixupLoop p (min n p.length)

/-- Split a little-endian byte list into n 64-bit limbs of 8 bytes each
(the memory layout of the limb array); missing bytes read as zero. -/
def leChunkN : Nat → List Nat → List Nat
  | 0, _ => []
  | n + 1, l => lVal 256 (l.take 8) :: leChunkN n (l.drop 8)

/-- Embedding of ttls_mpi_read_binary: interpret a big-endian byte buffer
as an unsigned value; the limb array is filled from the end of the buffer
(8 bytes per limb) and used is fixed up. -/
def ttls_mpi_read_binary (bs : List Nat) : TlsMpi :=
  let limbs := (bs.length + CIL - 1) / CIL
  let p := leChunkN limbs bs.reverse
  { s := 1, used := mpi_fixup_used p limbs, p := p }

/-- Embedding of ttls_mpi_fill_random: size bytes from the external RNG
are laid into the limb array in little-endian byte order, the trailing
limbs * CIL - size bytes are zero-filled, used is set to the limb count
(the source performs no fixup) and the sign is positive.  The WARN_ON size
bound against TTLS_MPI_MAX_SIZE (a header constant outside src/) is not
modelled. -/
def ttls_mpi_fill_random (rnd : List Nat) (size : Nat) : TlsMpi :=
  let limbs := (size + CIL - 1) / CIL
  let rem := limbs * CIL - size
  let p := leChunkN limbs (rnd ++ List.replicate rem 0)
  { s := 1, used := limbs, p := p }

/-- Fuel-structural bit length (fls): number of significant bits of n;
agrees with Nat.size (see natSize_eq) but reduces in the kernel. -/
def sizeFuel : Nat → Nat → Nat
  | 0, _ => 0
  | f + 1, n => if n = 0 then 0 else sizeFuel f (n / 2) + 1

def natSize (n : Nat) : Nat := sizeFuel n n

/-- Embedding of ttls_mpi_bitlen. -/
def ttls_mpi_bitlen (X : TlsMpi) : Nat :=
  if X.used = 0 ∨ X.p.getD (X.used - 1) 0 = 0 then 0
  else (X.used - 1) * BIL + natSize (X.p.getD (X.used - 1) 0)

/-- Embedding of ttls_mpi_size: total size in bytes. -/
def ttls_mpi_size (X : TlsMpi) : Nat := (ttls_mpi_bitlen X + 7) >>> 3

/-- Embedding of ttls_mpi_write_binary: fail when the buffer is shorter
than the byte size of X; otherwise emit the n significant bytes in
big-endian order preceded by zero padding. -/
def ttls_mpi_write_binary (X : TlsMpi) (buflen : Nat) : Option (List Nat) :=
  let n := ttls_mpi_size X
  if buflen < n then none
  else some (List.replicate (buflen - n) 0
    ++ ((List.range n).reverse.map fun j =>
          (X.p.getD (j / CIL) 0 >>> ((j % CIL) * 8)) % 256))

/-- Big-endian byte value (specification side). -/
def beVal (bs : List Nat) : Nat := lVal 256 bs.reverse

/-- The n-byte big-endian encoding of v (specification side). -/
def beBytes (n v : Nat) : List Nat :=
  (List.range n).reverse.map fun j => v / 2 ^ (8 * j) % 256

/-! ## ttls_mpi_div_mpi / ttls_mpi_mod_mpi (bignum.c), value level -/

/-- Value-level embedding of ttls_mpi_div_mpi (A = Q*B + R, HAC 14.20).
The limb-level Knuth algorithm D core computes the magnitude quotient and
remainder |A| / |B| and |A| mod |B|; the embedding keeps the source's
special cases and sign bookkeeping (Q->s = A->s * B->s, R->s = A->s,
canonical zero remainder is non-negative) over the represented values.
Division by zero is an input error. -/
def ttls_mpi_div_mpi (A B : Int) : Except Unit (Int × Int) :=
  if B = 0 then .error ()
  else if B = 1 then .ok (A, 0)
  else if A.natAbs < B.natAbs then .ok (0, A)
  else
    .ok (A.sign * B.sign * (A.natAbs / B.natAbs : Nat),
         A.sign * (A.natAbs % B.natAbs : Nat))

/-- The while-loop of ttls_mpi_mod_mpi that adds B while the remainder is
negative, with explicit fuel (the C loop is unbounded; the proofs show one
unit of fuel beyond the first test is enough).  Returns the final value and
the number of corrective additions executed. -/
def mpiModFixNeg (B : Int) : Nat → Int → Option (Int × Nat)
  | 0, r => if r < 0 then none else some (r, 0)
  | fuel + 1, r =>
    if r < 0 then
      match mpiModFixNeg B fuel (r + B) with
      | none => none
      | some (x, k) => some (x, k + 1)
    else some (r, 0)

/-- The while-loop of ttls_mpi_mod_mpi that subtracts B while the remainder
is at least B, with explicit fuel; returns the final value and the number
of corrective subtractions executed. -/
def mpiModFixGe (B : Int) : Nat → Int → Option (Int × Nat)
  | 0, r => if B ≤ r then none else some (r, 0)
  | fuel + 1, r =>
    if B ≤ r then
      match mpiModFixGe B fuel (r - B) with
      | none => none
      | some (x, k) => some (x, k + 1)
    else some (r, 0)

/-- Embedding of ttls_mpi_mod_mpi: reject a negative modulus, divide, then
normalise the remainder with the two corrective loops.  The result carries
the remainder and the total number of corrective additions/subtractions. -/
def ttls_mpi_mod_mpi (A B : Int) : Except Unit (Int × Nat) :=
  if B < 0 then .error ()
  else
    match ttls_mpi_div_mpi A B with
    | .error _ => .error ()
    | .ok (_, r) =>
      match mpiModFixNeg B (r.natAbs + 1) r with
      | none => .error ()
      | some (r1, k1) =>
        match mpiModFixGe B (r1.natAbs + 1) r1 with
        | none => .error ()
        | some (r2, k2) => .ok (r2, k1 + k2)

/-- Cipher-suite bytes of a ClientHello that declares 33 suites: 32 copies
of an ordinary suite id followed by FALLBACK_SCSV as the last (lowest
priority) entry. -/
def overflowSuiteBytes : List Nat :=
  (List.replicate 32 [0, 4]).flatten ++ [0x56, 0x00]

/-- A complete well-formed ClientHello carrying overflowSuiteBytes: version
3.3, a zero client random, empty session id, 66 bytes of cipher suites,
null compression only, no extensions. -/
def overflowClientHello : List Nat :=
  3 :: 3 :: (List.replicate 32 0
    ++ (0 :: (0 :: 66 :: (overflowSuiteBytes ++ [1, 0, 0, 0]))))

/-! # Theorems -/

/-! ## ttls_mpi_exp_mod (bignum.c), value level

The Montgomery machinery of bignum.c is embedded at the level of the
values represented by the limb arrays: a normalised MPI is represented by
its value, whose base 2^64 digits are exactly the limb array entries
X->p[0..used).  __mpi_mul propagates its final carry, so each outer
iteration of __mpi_montmul computes T = (T + A->p[i]*B + u1*N) / 2^BIL
exactly on values (montLimb below). -/

/-- The base 2^64 digits a / 2^(64*i) % 2^64 (i < n) of a value: the limb
array of a normalised MPI holding a with used = n. -/
def limbsOf (n a : Nat) : List Nat :=
  (List.range n).map fun i => a / 2 ^ (64 * i) % 2 ^ 64

/-- One Newton iteration x *= 2 - m0 * x of __mpi_montg_init over the
64-bit machine words (2 - m0 * x wraps modulo 2^64). -/
def montInitStep (m0 x : Nat) : Nat :=
  (x * (2 + 2 ^ 64 - m0 * x % 2 ^ 64)) % 2 ^ 64

/-- Embedding of __mpi_montg_init: from m0 = N->p[0] compute
mm = -N^-1 mod 2^64; the loop for (i = BIL; i >= 8; i /= 2) performs
exactly four iterations (i = 64, 32, 16, 8), and *mm = ~x + 1 is the
two's complement negation. -/
def mpi_montg_init (m0 : Nat) : Nat :=
  let x0 := (m0 + ((m0 + 2) &&& 4) <<< 1) % 2 ^ 64
  let x := montInitStep m0 (montInitStep m0 (montInitStep m0 (montInitStep m0 x0)))
  (2 ^ 64 - x) % 2 ^ 64

/-- One iteration of the __mpi_montmul loop on the running value t of T:
u0 = A->p[i], u1 = (d[0] + u0 * B->p[0]) * mm mod 2^64 (d[0] = t mod
2^64, B->p[0] = b mod 2^64), then T = (T + u0*B + u1*N) / 2^BIL. -/
def montLimb (N mm b t ai : Nat) : Nat :=
  (t + ai * b + (t % 2 ^ 64 + ai * (b % 2 ^ 64)) * mm % 2 ^ 64 * N) / 2 ^ 64

/-- Embedding of __mpi_montmul on values: the loop over the n = N->used
limbs of A, followed by the single conditional subtraction of N. -/
def mpi_montmul (N mm n a b : Nat) : Nat :=
  let t := (limbsOf n a).foldl (fun t ai => montLimb N mm b t ai) 0
  if N ≤ t then t - N else t

/-- Embedding of __mpi_montred: __mpi_montmul against the one-limb MPI
holding 1. -/
def mpi_montred (N mm n a : Nat) : Nat := mpi_montmul N mm n a 1

/-- Window size selection from the exponent bit length. -/
def wsizeOf (ebits : Nat) : Nat :=
  if 671 < ebits then 6
  else if 239 < ebits then 5
  else if 79 < ebits then 4
  else if 23 < ebits then 3
  else 1

/-- k successive Montgomery squarings (the for loops squaring W[j] and
X). -/
def sqIter (N mm n : Nat) : Nat → Nat → Nat
  | 0, x => x
  | k + 1, x => sqIter N mm n k (mpi_montmul N mm n x x)

/-- k successive Montgomery multiplications by w1 (the loop
W[i] = W[i - 1] * W[1]). -/
def wChain (N mm n w1 : Nat) (base : Nat) : Nat → Nat
  | 0 => base
  | k + 1 => mpi_montmul N mm n (wChain N mm n w1 base k) w1

/-- The window table entry W[i], accessed for 2^(wsize-1) <= i < 2^wsize:
W[2^(wsize-1)] is W[1] squared wsize - 1 times, then successive
Montgomery multiplications by W[1].  (For wsize = 1 only W[1] itself is
accessed and no table is built; the formula then yields W[1].) -/
def wEntry (N mm n wsize w1 i : Nat) : Nat :=
  wChain N mm n w1 (sqIter N mm n (wsize - 1) w1) (i - 2 ^ (wsize - 1))

/-- MSB-first bits of one 64-bit limb, as scanned by the main loop
(bufsize runs from 63 down to 0, ei = (E->p[nblimbs] >> bufsize) & 1). -/
def limbBitsMSB (w : Nat) : List Nat :=
  (List.range 64).reverse.map fun b => w >>> b &&& 1

/-- MSB-first bit stream of the exponent: limbs from E->used - 1 down to
0, each limb MSB first. -/
def mpiBitsMSB (limbs : List Nat) : List Nat :=
  (limbs.reverse.map limbBitsMSB).flatten

/-- The sliding-window scanner state of ttls_mpi_exp_mod. -/
structure ExpSt where
  state : Nat
  nbits : Nat
  wbits : Nat
  x : Nat

/-- One step of the main loop of ttls_mpi_exp_mod for the next exponent
bit ei. -/
def expStep (N mm n wsize w1 : Nat) (st : ExpSt) (ei : Nat) : ExpSt :=
  if ei = 0 ∧ st.state = 0 then st
  else if ei = 0 ∧ st.state = 1 then
    { st with x := mpi_montmul N mm n st.x st.x }
  else if st.nbits + 1 = wsize then
    { state := 1, nbits := 0, wbits := 0,
      x := mpi_montmul N mm n (sqIter N mm n wsize st.x)
        (wEntry N mm n wsize w1
          (st.wbits ||| ei <<< (wsize - (st.nbits + 1)))) }
  else { state := 2, nbits := st.nbits + 1,
         wbits := st.wbits ||| ei <<< (wsize - (st.nbits + 1)), x := st.x }

/-- The loop processing the nbits remaining window bits after the bit
stream is exhausted: square X, shift the window left, and multiply by
W[1] when the shifted-out bit crosses position wsize. -/
def expFin (N mm n wsize w1 : Nat) : Nat → Nat × Nat → Nat × Nat
  | 0, p => p
  | k + 1, (x, wb) =>
    let x1 := mpi_montmul N mm n x x
    let wb1 := wb <<< 1
    let x2 := if wb1 &&& 2 ^ wsize ≠ 0 then mpi_montmul N mm n x1 w1 else x1
    expFin N mm n wsize w1 k (x2, wb1)

/-- Limb count of a normalised MPI holding v (at least one limb). -/
def usedOf (v : Nat) : Nat := max 1 ((natSize v + 63) / 64)

/-- Embedding of ttls_mpi_exp_mod at value level.  A is the signed value
of the source MPI A; E and N are the values of E and N (the E < 0 guard
cannot fire for a Nat exponent); N <= 0 and even N map to .error
(-EINVAL).  RR is the first-call precomputation 1 << (N->used * 2 * BIL)
mod N; W[1] is A mod N brought into the Montgomery domain, X starts as
RR reduced once (R mod N); the bit stream is E->used limbs MSB first
(for a normalised E the limb array is limbsOf (usedOf E) E), and the
final sign correction replaces X by N + (-X) when A was negative and
E->p[0] is odd. -/
def ttls_mpi_exp_mod (A : Int) (E N : Nat) : Except Unit Nat :=
  if N = 0 ∨ N % 2 = 0 then .error () else
  let n := usedOf N
  let mm := mpi_montg_init (N % 2 ^ 64)
  let wsize := wsizeOf (natSize E)
  let RR := 2 ^ (usedOf N * 2 * 64) % N
  let a0 := A.natAbs % N
  let w1 := mpi_montmul N mm n a0 RR
  let x0 := mpi_montred N mm n RR
  let bits := mpiBitsMSB (limbsOf (usedOf E) E)
  let stEnd := bits.foldl (expStep N mm n wsize w1) ⟨0, 0, 0, x0⟩
  let xw := expFin N mm n wsize w1 stEnd.nbits (stEnd.x, stEnd.wbits)
  let xf := mpi_montred N mm n xw.1
  if A < 0 ∧ E % 2 = 1 then .ok (N - xf) else .ok xf

/-! ## Remaining MPI writers (bignum.c): add_abs, sub_abs, shifts -/

/-- The trailing carry loop of ttls_mpi_add_abs (`for ( ; c; ...)` plus the
final memcpy of the untouched limbs of A): propagate a carry c <= 1 through
the remaining limbs, appending a new top limb when the carry survives past
the end. -/
def carryProp : List Nat → Nat → List Nat
  | [], c => if c = 0 then [] else [c]
  | a :: as, c =>
      if c = 0 then a :: as
      else (a + c) % 2 ^ 64 :: carryProp as ((a + c) / 2 ^ 64)

/-- The main loop of ttls_mpi_add_abs (`for (i = 0; i < B->used; ...)`):
limb i of the result is a_i + b_i + carry mod 2^64, where a_i reads as 0
once A's limbs are exhausted (the `i == X->used` branch); the carry then
runs through carryProp. -/
def addLoop : List Nat → List Nat → Nat → List Nat
  | la, [], c => carryProp la c
  | la, b :: bs, c =>
      (la.headD 0 + b + c) % 2 ^ 64
        :: addLoop la.tail bs ((la.headD 0 + b + c) / 2 ^ 64)

/-- Embedding of ttls_mpi_add_abs: X = |A| + |B| with positive sign; used
is whatever limb count the ripple loops produce (the source grows X->used
limb by limb; it performs no fixup).  The realloc heuristic only sizes the
allocation and is not modelled. -/
def ttls_mpi_add_abs (A B : TlsMpi) : TlsMpi :=
  { s := 1,
    used := (addLoop (A.p.take A.used) (B.p.take B.used) 0).length,
    p := addLoop (A.p.take A.used) (B.p.take B.used) 0 }

/-- Embedding of ttls_mpi_sub_abs: -EINVAL when |A| < |B| (the
ttls_mpi_cmp_abs guard); otherwise the __mpi_sub borrow ripple is
value-modelled over A->used limbs (like the division core) and used is
fixed up from A->used, as in the source's final mpi_fixup_used(X, A->used). -/
def ttls_mpi_sub_abs (A B : TlsMpi) : Except Unit TlsMpi :=
  if mpiVal A < mpiVal B then .error ()
  else .ok
    { s := 1,
      used := mpi_fixup_used (limbsOf A.used (mpiVal A - mpiVal B)) A.used,
      p := limbsOf A.used (mpiVal A - mpiVal B) }

/-- Embedding of ttls_mpi_shift_l: no-op when the bit length is 0;
otherwise used becomes BITS_TO_LIMBS(bitlen + count) and the two shift
loops (by count / 64 limbs then count % 64 bits) are value-modelled: the
limb array holds the limbs of value * 2^count. -/
def ttls_mpi_shift_l (X : TlsMpi) (count : Nat) : TlsMpi :=
  if ttls_mpi_bitlen X = 0 then X
  else
    { s := X.s,
      used := (ttls_mpi_bitlen X + count + 63) >>> 6,
      p := limbsOf ((ttls_mpi_bitlen X + count + 63) >>> 6)
             (mpiVal X * 2 ^ count) }

/-- Embedding of ttls_mpi_shift_r with the source's exact used
bookkeeping: early return when used = 0 or the top limb is 0; lset(X, 0)
when v0 = count >> 6 exceeds used (or equals it with v1 = count & 63
non-zero); otherwise used -= v0, the limb loops are value-modelled
(limbs of value >> count over used - v0 limbs), and if v1 > 0 and the
shifted top limb p[used-1] >> v1 comes out zero, used is decremented once
more -- with no floor at 1. -/
def ttls_mpi_shift_r (X : TlsMpi) (count : Nat) : TlsMpi :=
  if X.used = 0 ∨ X.p.getD (X.used - 1) 0 = 0 then X
  else if X.used < count >>> 6 ∨ (count >>> 6 = X.used ∧ 0 < count &&& 63)
  then { s := 1, used := 1, p := [0] }
  else
    { s := X.s,
      used := X.used - count >>> 6
        - (if 0 < count &&& 63
              ∧ X.p.getD (X.used - 1) 0 >>> (count &&& 63) = 0
           then 1 else 0),
      p := limbsOf (X.used - count >>> 6) (mpiVal X >>> count) }

/-! ## Generic bit lemmas -/

theorem size_succ_half (n : Nat) (h : 0 < n) :
    Nat.size n = Nat.size (n / 2) + 1 := by
  have hup : n / 2 < 2 ^ Nat.size (n / 2) := Nat.lt_size_self _
  have hp : (2:ℕ) ^ (Nat.size (n / 2) + 1) = 2 ^ Nat.size (n / 2) * 2 :=
    pow_succ 2 _
  apply Nat.le_antisymm
  · rw [Nat.size_le, hp]
    omega
  · have hlt : Nat.size (n / 2) < Nat.size n := by
      rw [Nat.lt_size]
      by_cases h2 : n / 2 = 0
      · rw [h2, Nat.size_zero, pow_zero]
        omega
      · have hszp : 1 ≤ Nat.size (n / 2) := Nat.size_pos.mpr (by omega)
        have hlo : 2 ^ (Nat.size (n / 2) - 1) ≤ n / 2 :=
          Nat.lt_size.mp (by omega)
        have hq : (2:ℕ) ^ Nat.size (n / 2)
            = 2 ^ (Nat.size (n / 2) - 1) * 2 := by
          rw [← pow_succ]
          congr 1
          omega
        omega
    omega

theorem sizeFuel_eq : ∀ (f n : Nat), n ≤ f → sizeFuel f n = Nat.size n := by
  intro f
  induction f with
  | zero =>
    intro n hn
    have h0 : n = 0 := by omega
    subst h0
    rw [sizeFuel, Nat.size_zero]
  | succ f ih =>
    intro n hn
    rw [sizeFuel]
    by_cases h0 : n = 0
    · subst h0
      rw [if_pos rfl, Nat.size_zero]
    · rw [if_neg h0, ih (n / 2) (by omega), ← size_succ_half n (by omega)]

theorem natSize_eq (n : Nat) : natSize n = Nat.size n :=
  sizeFuel_eq n n (le_refl n)

theorem nat_or_eq_zero {a b : Nat} : a ||| b = 0 ↔ a = 0 ∧ b = 0 := by
  constructor
  · intro h
    constructor <;>
      (apply Nat.eq_of_testBit_eq; intro i;
       have hbit := congrArg (fun t => Nat.testBit t i) h;
       simp only [Nat.testBit_or, Nat.zero_testBit, Bool.or_eq_false_iff]
         at hbit;
       simp [hbit])
  · rintro ⟨rfl, rfl⟩; rfl

theorem nat_le_or_left (a b : Nat) : a ≤ a ||| b := by
  apply Nat.le_of_testBit
  intro i hi
  simp [Nat.testBit_or, hi]

theorem shiftRight31_eq_one {x : Nat} (h1 : 2 ^ 31 ≤ x) (h2 : x < 2 ^ 32) :
    x >>> 31 = 1 := by
  rw [Nat.shiftRight_eq_div_pow]
  omega

/-- The branch-free mask in ttls_parse_encrypted_pms: for a 32-bit diff,
(diff | -diff) >> 31 is 0 exactly when diff is 0 and 1 otherwise. -/
theorem diff_mask_bit {diff : Nat} (h : diff < 2 ^ 32) :
    (diff ||| wordSub 32 0 diff) >>> 31 = if diff = 0 then 0 else 1 := by
  by_cases h0 : diff = 0
  · subst h0; decide
  · rw [if_neg h0]
    have hneg : wordSub 32 0 diff = 2 ^ 32 - diff := by
      unfold wordSub
      rw [Nat.mod_eq_of_lt h]
      omega
    apply shiftRight31_eq_one
    · by_cases hh : 2 ^ 31 ≤ diff
      · exact le_trans hh (nat_le_or_left _ _)
      · refine le_trans ?_ (le_trans (nat_le_or_left (wordSub 32 0 diff) diff)
          (le_of_eq (Nat.or_comm _ _)))
        rw [hneg]; omega
    · apply Nat.or_lt_two_pow h
      rw [hneg]; omega

theorem and255_eq {x : Nat} (h : x < 256) : 255 &&& x = x := by
  rw [Nat.and_comm]
  have : (255 : Nat) = 2 ^ 8 - 1 := by norm_num
  rw [this, Nat.and_pow_two_sub_one_eq_mod]
  exact Nat.mod_eq_of_lt h

/-! ## C5: supported point formats -/

/-- Helper: the scan loop returns the first list element equal to the
uncompressed (0) or compressed (1) format code. -/
theorem pointFormatScan_eq_find (l : List Nat) :
    pointFormatScan l = l.find? (fun b => b == 0 || b == 1) := by
  induction l with
  | nil => rfl
  | cons b rest ih =>
    by_cases hb : b = TTLS_ECP_PF_UNCOMPRESSED ∨ b = TTLS_ECP_PF_COMPRESSED
    · unfold pointFormatScan
      rw [if_pos hb, List.find?_cons]
      have : (b == 0 || b == 1) = true := by
        rcases hb with h | h <;> simp [h, TTLS_ECP_PF_UNCOMPRESSED,
          TTLS_ECP_PF_COMPRESSED]
      rw [this]
    · unfold pointFormatScan
      rw [if_neg hb, List.find?_cons]
      have : (b == 0 || b == 1) = false := by
        simp only [TTLS_ECP_PF_UNCOMPRESSED, TTLS_ECP_PF_COMPRESSED] at hb
        push_neg at hb
        simp [hb.1, hb.2]
      rw [this, ih]

/-- C5 counterexample: the client offers compressed first and uncompressed
second; although the uncompressed format is offered, the handler selects
the compressed format, refuting the claim that the uncompressed format is
selected whenever it appears anywhere in the list. -/
theorem c5_point_formats_counterexample :
    ttls_parse_supported_point_formats [2, 1, 0]
        = .ok (true, some TTLS_ECP_PF_COMPRESSED)
      ∧ TTLS_ECP_PF_UNCOMPRESSED ∈ [(1 : Nat), 0]
      ∧ some TTLS_ECP_PF_COMPRESSED ≠ some TTLS_ECP_PF_UNCOMPRESSED := by
  refine ⟨rfl, by decide, by decide⟩

/-- C5 (amended): for a well-formed supported-point-formats extension the
handler never fails, sets cli_exts, and selects the FIRST offered format
among uncompressed/compressed, leaving the default in place only when
neither appears in the list. -/
theorem c5_point_formats_first_match (b0 : Nat) (rest : List Nat)
    (hlen : rest.length = b0) :
    ttls_parse_supported_point_formats (b0 :: rest)
      = .ok (true, rest.find? (fun b => b == 0 || b == 1)) := by
  have htake : rest.take b0 = rest := by
    apply List.take_of_length_le; omega
  simp only [ttls_parse_supported_point_formats, List.length_cons, hlen]
  rw [if_neg (by omega), htake, pointFormatScan_eq_find]

/-- C5 witness. -/
theorem c5_point_formats_witness :
    ttls_parse_supported_point_formats [2, 7, 0]
      = .ok (true, some 0) := by
  have h := c5_point_formats_first_match 2 [7, 0] (by decide)
  simpa using h

/-! ## C7: session ticket extension -/

/-- C7: with the ticket callbacks configured and a non-empty ticket body,
a failed f_ticket_parse leaves the session and the resume flag untouched
and keeps new_session_ticket set, while a successful parse restores the
decrypted session but keeps the client-supplied session id, sets resume
and clears new_session_ticket.  The handler itself never fails. -/
theorem c7_session_ticket (ticketOutcome : Except Int TlsSess) (len : Nat)
    (st : TicketSt) (hlen : 0 < len) (hres : st.resume = false) :
    (∀ e, ticketOutcome = .error e →
      ttls_parse_session_ticket_ext true ticketOutcome len st
        = { sess := st.sess, resume := false, new_session_ticket := true })
    ∧ (∀ s, ticketOutcome = .ok s →
      ttls_parse_session_ticket_ext true ticketOutcome len st
        = { sess := { id_len := st.sess.id_len, id := st.sess.id,
                      rest := s.rest },
            resume := true, new_session_ticket := false }) := by
  constructor
  · intro e he
    subst he
    unfold ttls_parse_session_ticket_ext
    simp [Nat.pos_iff_ne_zero.mp hlen, ← hres]
  · intro s hs
    subst hs
    unfold ttls_parse_session_ticket_ext
    simp [Nat.pos_iff_ne_zero.mp hlen]

/-- C7 witness. -/
theorem c7_session_ticket_witness :
    ttls_parse_session_ticket_ext true (.error 5) 1
        ⟨⟨4, [9, 9, 9, 9], 0⟩, false, false⟩
      = { sess := ⟨4, [9, 9, 9, 9], 0⟩, resume := false,
          new_session_ticket := true } :=
  (c7_session_ticket (.error 5) 1 ⟨⟨4, [9, 9, 9, 9], 0⟩, false, false⟩
    (by decide) (by decide)).1 5 rfl

/-! ## C1: encrypted premaster and Bleichenbacher masking -/

/-- C1: for any well-formed length prefix the RSA premaster parser always
succeeds with pmslen 48; when decryption failed, or the decrypted length
is not 48, or the two version bytes mismatch, the premaster is exactly the
48 fresh random bytes, and otherwise it is the decrypted buffer.  The
decryption error code is never surfaced. -/
theorem c1_parse_encrypted_pms_masks_failure (keyLen : Nat) (ct : List Nat)
    (decryptRet : Int) (peer_pms fake_pms : List Nat)
    (peer_pmslen max_minor_ver : Nat)
    (hct : ct.length = keyLen)
    (hr1 : -(2 ^ 32) < decryptRet) (hr2 : decryptRet ≤ 0)
    (hpl : peer_pms.length = 48) (hpb : ∀ b ∈ peer_pms, b < 256)
    (hfl : fake_pms.length = 48) (hfb : ∀ b ∈ fake_pms, b < 256)
    (hv : max_minor_ver < 256) (hplen : peer_pmslen ≤ 48) :
    ttls_parse_encrypted_pms true keyLen
        (((keyLen >>> 8) &&& 255) :: (keyLen &&& 255) :: ct)
        decryptRet peer_pms peer_pmslen fake_pms max_minor_ver
      = .ok
        ((if decryptRet ≠ 0 ∨ peer_pmslen ≠ 48 ∨ peer_pms.getD 0 0 ≠ 3
              ∨ peer_pms.getD 1 0 ≠ max_minor_ver
          then fake_pms else peer_pms), 48) := by
  have hb0 : peer_pms.getD 0 0 < 256 := by
    have h : peer_pms.getD 0 0 ∈ peer_pms ∨ peer_pms.getD 0 0 = 0 := by
      rcases peer_pms with _ | ⟨a, l⟩
      · right; rfl
      · left; simp [List.getD]
    rcases h with h | h
    · exact hpb _ h
    · omega
  have hb1 : peer_pms.getD 1 0 < 256 := by
    have h : peer_pms.getD 1 0 ∈ peer_pms ∨ peer_pms.getD 1 0 = 0 := by
      rcases peer_pms with _ | ⟨a, _ | ⟨b, l⟩⟩
      · right; rfl
      · right; simp [List.getD]
      · left; simp [List.getD]
    rcases h with h | h
    · exact hpb _ h
    · omega
  have hr1n : (-4294967296 : Int) < decryptRet := by
    have h := hr1; norm_num at h; exact h
  have hdRlt : (decryptRet % (2 ^ 32 : Int)).toNat < 2 ^ 32 := by
    have h32 : ((2 : Int) ^ 32) = 4294967296 := by norm_num
    rw [h32]
    norm_num
    omega
  have hdReq : ((decryptRet % (2 ^ 32 : Int)).toNat = 0) ↔ decryptRet = 0 := by
    have h32 : ((2 : Int) ^ 32) = 4294967296 := by norm_num
    rw [h32]
    omega
  have hdiff : (((decryptRet % (2 ^ 32 : Int)).toNat ||| (peer_pmslen ^^^ 48))
        ||| (peer_pms.getD 0 0 ^^^ 3)) ||| (peer_pms.getD 1 0 ^^^ max_minor_ver)
      < 2 ^ 32 := by
    apply Nat.or_lt_two_pow
    apply Nat.or_lt_two_pow
    apply Nat.or_lt_two_pow hdRlt
    · exact lt_of_lt_of_le (Nat.xor_lt_two_pow (show peer_pmslen < 2 ^ 6 by
        omega) (by norm_num)) (by norm_num)
    · exact lt_of_lt_of_le (Nat.xor_lt_two_pow (show peer_pms.getD 0 0 < 2 ^ 8
        from hb0) (by norm_num)) (by norm_num)
    · exact lt_of_lt_of_le (Nat.xor_lt_two_pow (show peer_pms.getD 1 0 < 2 ^ 8
        from hb1) (show max_minor_ver < 2 ^ 8 by omega)) (by norm_num)
  have hzero : ((((decryptRet % (2 ^ 32 : Int)).toNat ||| (peer_pmslen ^^^ 48))
        ||| (peer_pms.getD 0 0 ^^^ 3))
        ||| (peer_pms.getD 1 0 ^^^ max_minor_ver) = 0)
      ↔ (decryptRet = 0 ∧ peer_pmslen = 48 ∧ peer_pms.getD 0 0 = 3
          ∧ peer_pms.getD 1 0 = max_minor_ver) := by
    rw [nat_or_eq_zero, nat_or_eq_zero, nat_or_eq_zero,
      Nat.xor_eq_zero, Nat.xor_eq_zero, Nat.xor_eq_zero, hdReq]
    tauto
  simp only [ttls_parse_encrypted_pms]
  rw [if_neg (by decide)]
  rw [if_neg (by simp [hct])]
  rw [diff_mask_bit hdiff]
  by_cases hc : decryptRet ≠ 0 ∨ peer_pmslen ≠ 48 ∨ peer_pms.getD 0 0 ≠ 3
      ∨ peer_pms.getD 1 0 ≠ max_minor_ver
  · have hD : ¬((((decryptRet % (2 ^ 32 : Int)).toNat ||| (peer_pmslen ^^^ 48))
        ||| (peer_pms.getD 0 0 ^^^ 3))
        ||| (peer_pms.getD 1 0 ^^^ max_minor_ver) = 0) := by
      rw [hzero]; tauto
    rw [if_neg hD, if_pos hc]
    have hmask : wordSub 8 0 1 = 255 := by decide
    rw [hmask]
    refine congrArg _ (congrArg (fun l => (l, 48)) ?_)
    apply List.ext_getElem
    · simp [hfl]
    · intro i hi hi2
      simp only [List.getElem_map, List.getElem_range]
      have hil : i < fake_pms.length := by simp [hfl]; simpa using hi
      have hfi : fake_pms.getD i 0 = fake_pms[i] :=
        List.getD_eq_getElem fake_pms 0 hil
      have hfik : fake_pms[i] < 256 := hfb _ (List.getElem_mem hil)
      have h255 : (255 : Nat) ^^^ 255 = 0 := by decide
      rw [h255, hfi, and255_eq hfik]
      simp
  · have hD : ((((decryptRet % (2 ^ 32 : Int)).toNat ||| (peer_pmslen ^^^ 48))
        ||| (peer_pms.getD 0 0 ^^^ 3))
        ||| (peer_pms.getD 1 0 ^^^ max_minor_ver) = 0) := by
      rw [hzero]; tauto
    rw [if_pos hD, if_neg hc]
    have hmask : wordSub 8 0 0 = 0 := by decide
    rw [hmask]
    refine congrArg _ (congrArg (fun l => (l, 48)) ?_)
    apply List.ext_getElem
    · simp [hpl]
    · intro i hi hi2
      simp only [List.getElem_map, List.getElem_range]
      have hil : i < peer_pms.length := by simp [hpl]; simpa using hi
      have hpi : peer_pms.getD i 0 = peer_pms[i] :=
        List.getD_eq_getElem peer_pms 0 hil
      have hpik : peer_pms[i] < 256 := hpb _ (List.getElem_mem hil)
      have h0x : (0 : Nat) ^^^ 255 = 255 := by decide
      rw [h0x, hpi, and255_eq hpik]
      simp

/-- C1 witness: a failed decryption (return code -1) yields the fresh
random premaster. -/
theorem c1_parse_encrypted_pms_witness :
    ttls_parse_encrypted_pms true 1 [0, 1, 77] (-1)
        (List.replicate 48 0) 48 (List.replicate 48 9) 3
      = .ok (List.replicate 48 9, 48) := by
  have h := c1_parse_encrypted_pms_masks_failure 1 [77] (-1)
    (List.replicate 48 0) (List.replicate 48 9) 48 3
    (by decide) (by norm_num) (by norm_num) (by decide)
    (by intro b hb; simp at hb; omega)
    (by decide) (by intro b hb; simp at hb; omega)
    (by norm_num) (by norm_num)
  simpa using h

/-! ## Cipher-suite stage: characterization lemmas -/

theorem csEntries_zero (bytes : List Nat) : csEntries bytes 0 = [] := by
  unfold csEntries
  split <;> first | rfl | omega

theorem csEntries_cons (b0 b1 : Nat) (rest : List Nat) (k : Nat) :
    csEntries (b0 :: b1 :: rest) (k + 1) = (b0 * 256 + b1) :: csEntries rest k :=
  rfl

theorem csEntries_length (k : Nat) : ∀ bytes : List Nat,
    2 * k ≤ bytes.length → (csEntries bytes k).length = k := by
  induction k with
  | zero => intro bytes h; rw [csEntries_zero]; rfl
  | succ k ih =>
    intro bytes h
    rcases bytes with _ | ⟨b0, _ | ⟨b1, rest⟩⟩
    · simp at h
    · simp at h; omega
    · rw [csEntries_cons, List.length_cons, ih rest (by simp at h; omega)]

theorem ttls_parse_cs_done (cap minor maxm total cur : Nat) (css bytes : List Nat)
    (reneg : Bool) (h : total ≤ cur) :
    ttls_parse_cs cap minor maxm total cur css bytes reneg
      = .ok (css, total, reneg, bytes) := by
  conv_lhs => rw [ttls_parse_cs.eq_def]
  simp only [if_pos h]

theorem ttls_parse_cs_skip (cap minor maxm total cur : Nat) (css bytes : List Nat)
    (reneg : Bool) (h1 : ¬ total ≤ cur) (h2 : 2 * cap ≤ cur) :
    ttls_parse_cs cap minor maxm total cur css bytes reneg
      = if total - cur ≤ bytes.length then
          .ok (css, 2 * cap, reneg, bytes.drop (total - cur))
        else .error .truncated := by
  conv_lhs => rw [ttls_parse_cs.eq_def]
  simp only [if_neg h1, if_pos h2]

theorem ttls_parse_cs_store (cap minor maxm total cur : Nat) (css : List Nat)
    (reneg : Bool) (b0 b1 : Nat) (rest : List Nat)
    (h1 : ¬ total ≤ cur) (h2 : ¬ 2 * cap ≤ cur) :
    ttls_parse_cs cap minor maxm total cur css (b0 :: b1 :: rest) reneg
      = match ttls_check_scsvs minor maxm reneg (b0 * 256 + b1) with
        | .error a => .error (.alert a)
        | .ok reneg2 =>
          ttls_parse_cs cap minor maxm total (cur + 2)
            (css ++ [b0 * 256 + b1]) rest reneg2 := by
  conv_lhs => rw [ttls_parse_cs.eq_def]
  simp only [if_neg h1, if_neg h2]

theorem ttls_parse_cs_store_ok (cap minor maxm total cur : Nat)
    (css : List Nat) (reneg reneg2 : Bool) (b0 b1 : Nat) (rest : List Nat)
    (h1 : ¬ total ≤ cur) (h2 : ¬ 2 * cap ≤ cur)
    (hc : ttls_check_scsvs minor maxm reneg (b0 * 256 + b1) = .ok reneg2) :
    ttls_parse_cs cap minor maxm total cur css (b0 :: b1 :: rest) reneg
      = ttls_parse_cs cap minor maxm total (cur + 2)
          (css ++ [b0 * 256 + b1]) rest reneg2 := by
  rw [ttls_parse_cs_store _ _ _ _ _ _ _ _ _ _ h1 h2, hc]

theorem ttls_parse_cs_store_err (cap minor maxm total cur : Nat)
    (css : List Nat) (reneg : Bool) (a : TlsAlert) (b0 b1 : Nat)
    (rest : List Nat) (h1 : ¬ total ≤ cur) (h2 : ¬ 2 * cap ≤ cur)
    (hc : ttls_check_scsvs minor maxm reneg (b0 * 256 + b1) = .error a) :
    ttls_parse_cs cap minor maxm total cur css (b0 :: b1 :: rest) reneg
      = .error (.alert a) := by
  rw [ttls_parse_cs_store _ _ _ _ _ _ _ _ _ _ h1 h2, hc]

theorem ttls_parse_cs_nil (cap minor maxm total cur : Nat) (css : List Nat)
    (reneg : Bool) (h1 : ¬ total ≤ cur) (h2 : ¬ 2 * cap ≤ cur) :
    ttls_parse_cs cap minor maxm total cur css [] reneg = .error .truncated := by
  conv_lhs => rw [ttls_parse_cs.eq_def]
  simp only [if_neg h1, if_neg h2]

theorem ttls_parse_cs_one (cap minor maxm total cur : Nat) (css : List Nat)
    (reneg : Bool) (b : Nat) (h1 : ¬ total ≤ cur) (h2 : ¬ 2 * cap ≤ cur) :
    ttls_parse_cs cap minor maxm total cur css [b] reneg = .error .truncated := by
  conv_lhs => rw [ttls_parse_cs.eq_def]
  simp only [if_neg h1, if_neg h2]

/-- Core invariant of the TTLS_CH_HS_CS / TTLS_CH_HS_CS_SKIP loop, success
path: unless a stored FALLBACK_SCSV aborts under a lowered version, the
loop consumes the remaining declared byte count exactly, stores entries up
to the free capacity (dropping the tail), clamps cs_total_len when storage
ran out, and ors secure_renegotiation with the presence of the empty
renegotiation info SCSV among the stored entries. -/
theorem ttls_parse_cs_go_ok (cap minor maxm total : Nat) (k : Nat) :
    ∀ (cur : Nat) (css bytes : List Nat) (reneg : Bool),
    total - cur = 2 * k → css.length ≤ cap → cur = 2 * css.length →
    2 * k ≤ bytes.length →
    ¬(minor < maxm ∧ TTLS_FALLBACK_SCSV_VALUE
        ∈ csEntries bytes (min (cap - css.length) k)) →
    ttls_parse_cs cap minor maxm total cur css bytes reneg =
      .ok (css ++ csEntries bytes (min (cap - css.length) k),
           (if css.length + k ≤ cap then total else 2 * cap),
           reneg || (csEntries bytes (min (cap - css.length) k)).contains
             TTLS_EMPTY_RENEGOTIATION_INFO,
           bytes.drop (2 * k)) := by
  induction k with
  | zero =>
    intro cur css bytes reneg h1 h2 h3 h4 hno
    rw [ttls_parse_cs_done _ _ _ _ _ _ _ _ (by omega)]
    rw [Nat.min_zero, csEntries_zero]
    rw [if_pos (by omega)]
    norm_num
  | succ k ih =>
    intro cur css bytes reneg h1 h2 h3 h4 hno
    by_cases hcap : cap ≤ css.length
    · rw [ttls_parse_cs_skip _ _ _ _ _ _ _ _ (by omega) (by omega)]
      rw [if_pos (by omega)]
      have hmin : min (cap - css.length) (k + 1) = 0 := by omega
      rw [hmin, csEntries_zero]
      rw [if_neg (show ¬ css.length + (k + 1) ≤ cap by omega), h1]
      norm_num
    · push_neg at hcap
      rcases bytes with _ | ⟨b0, _ | ⟨b1, rest⟩⟩
      · simp at h4
      · simp at h4; omega
      · have h4r : 2 * k ≤ rest.length := by simp at h4; omega
        have hmin : min (cap - css.length) (k + 1)
            = min (cap - (css.length + 1)) k + 1 := by omega
        have hlen2 : (css ++ [b0 * 256 + b1]).length = css.length + 1 := by
          simp
        rw [hmin, csEntries_cons] at hno ⊢
        have hdrop : (b0 :: b1 :: rest).drop (2 * (k + 1))
            = rest.drop (2 * k) := by
          have he : 2 * (k + 1) = 2 * k + 1 + 1 := by omega
          rw [he]
          rfl
        rw [hdrop]
        have happ : css ++ (b0 * 256 + b1)
              :: csEntries rest (min (cap - (css.length + 1)) k)
            = (css ++ [b0 * 256 + b1])
              ++ csEntries rest (min (cap - (css.length + 1)) k) := by
          simp
        have hif : (css.length + (k + 1) ≤ cap)
            ↔ ((css ++ [b0 * 256 + b1]).length + k ≤ cap) := by
          rw [hlen2]; omega
        by_cases hfb : b0 * 256 + b1 = TTLS_FALLBACK_SCSV_VALUE
        · by_cases hver : minor < maxm
          · exfalso
            apply hno
            refine ⟨hver, ?_⟩
            rw [hfb]
            exact List.mem_cons_self _ _
          · have hc : ttls_check_scsvs minor maxm reneg (b0 * 256 + b1)
                = .ok reneg := by
              unfold ttls_check_scsvs
              rw [if_pos hfb, if_neg hver]
            rw [ttls_parse_cs_store_ok _ _ _ _ _ _ _ _ _ _ _
              (by omega) (by omega) hc]
            have hno2 : ¬(minor < maxm ∧ TTLS_FALLBACK_SCSV_VALUE
                ∈ csEntries rest
                  (min (cap - (css ++ [b0 * 256 + b1]).length) k)) :=
              fun hcon => hver hcon.1
            rw [ih (cur + 2) (css ++ [b0 * 256 + b1]) rest reneg (by omega)
              (by rw [hlen2]; omega) (by rw [hlen2]; omega) h4r hno2]
            have hern : ¬(TTLS_EMPTY_RENEGOTIATION_INFO = b0 * 256 + b1) := by
              rw [hfb]; decide
            have hcond : (css.length + 1 + k ≤ cap)
                ↔ (css.length + (k + 1) ≤ cap) := by omega
            simp [hern, hcond]
        · have hno2 : ¬(minor < maxm ∧ TTLS_FALLBACK_SCSV_VALUE
              ∈ csEntries rest
                (min (cap - (css ++ [b0 * 256 + b1]).length) k)) := by
            intro hcon
            apply hno
            rw [hlen2] at hcon
            exact ⟨hcon.1, List.mem_cons_of_mem _ hcon.2⟩
          by_cases her : b0 * 256 + b1 = TTLS_EMPTY_RENEGOTIATION_INFO
          · have hc : ttls_check_scsvs minor maxm reneg (b0 * 256 + b1)
                = .ok true := by
              unfold ttls_check_scsvs
              rw [if_neg hfb, if_pos her]
            rw [ttls_parse_cs_store_ok _ _ _ _ _ _ _ _ _ _ _
              (by omega) (by omega) hc]
            rw [ih (cur + 2) (css ++ [b0 * 256 + b1]) rest true (by omega)
              (by rw [hlen2]; omega) (by rw [hlen2]; omega) h4r hno2]
            have hcond : (css.length + 1 + k ≤ cap)
                ↔ (css.length + (k + 1) ≤ cap) := by omega
            simp [her, hcond]
          · have hc : ttls_check_scsvs minor maxm reneg (b0 * 256 + b1)
                = .ok reneg := by
              unfold ttls_check_scsvs
              rw [if_neg hfb, if_neg her]
            rw [ttls_parse_cs_store_ok _ _ _ _ _ _ _ _ _ _ _
              (by omega) (by omega) hc]
            rw [ih (cur + 2) (css ++ [b0 * 256 + b1]) rest reneg (by omega)
              (by rw [hlen2]; omega) (by rw [hlen2]; omega) h4r hno2]
            have hern : ¬(TTLS_EMPTY_RENEGOTIATION_INFO = b0 * 256 + b1) :=
              fun hc2 => her hc2.symm
            have hcond : (css.length + 1 + k ≤ cap)
                ↔ (css.length + (k + 1) ≤ cap) := by omega
            simp [hern, hcond]

/-- Core invariant of the cipher-suite loop, abort path: a FALLBACK_SCSV
among the entries that are still stored aborts the handshake with a fatal
inappropriate_fallback alert whenever the negotiated minor version is below
the configured maximum. -/
theorem ttls_parse_cs_go_abort (cap minor maxm total : Nat) (k : Nat) :
    ∀ (cur : Nat) (css bytes : List Nat) (reneg : Bool),
    total - cur = 2 * k → css.length ≤ cap → cur = 2 * css.length →
    2 * k ≤ bytes.length →
    minor < maxm →
    TTLS_FALLBACK_SCSV_VALUE ∈ csEntries bytes (min (cap - css.length) k) →
    ttls_parse_cs cap minor maxm total cur css bytes reneg
      = .error (.alert .inappropriateFallback) := by
  induction k with
  | zero =>
    intro cur css bytes reneg h1 h2 h3 h4 hver hmem
    rw [Nat.min_zero, csEntries_zero] at hmem
    simp at hmem
  | succ k ih =>
    intro cur css bytes reneg h1 h2 h3 h4 hver hmem
    by_cases hcap : cap ≤ css.length
    · rw [show min (cap - css.length) (k + 1) = 0 by omega, csEntries_zero]
        at hmem
      simp at hmem
    · push_neg at hcap
      rcases bytes with _ | ⟨b0, _ | ⟨b1, rest⟩⟩
      · simp at h4
      · simp at h4; omega
      · have h4r : 2 * k ≤ rest.length := by simp at h4; omega
        have hmin : min (cap - css.length) (k + 1)
            = min (cap - (css.length + 1)) k + 1 := by omega
        have hlen2 : (css ++ [b0 * 256 + b1]).length = css.length + 1 := by
          simp
        rw [hmin, csEntries_cons] at hmem
        by_cases hfb : b0 * 256 + b1 = TTLS_FALLBACK_SCSV_VALUE
        · have hc : ttls_check_scsvs minor maxm reneg (b0 * 256 + b1)
              = .error .inappropriateFallback := by
            unfold ttls_check_scsvs
            rw [if_pos hfb, if_pos hver]
          rw [ttls_parse_cs_store_err _ _ _ _ _ _ _ _ _ _ _
            (by omega) (by omega) hc]
        · have hmem2 : TTLS_FALLBACK_SCSV_VALUE ∈ csEntries rest
              (min (cap - (css ++ [b0 * 256 + b1]).length) k) := by
            rw [hlen2]
            rcases List.mem_cons.mp hmem with h | h
            · exact absurd h.symm hfb
            · exact h
          by_cases her : b0 * 256 + b1 = TTLS_EMPTY_RENEGOTIATION_INFO
          · have hc : ttls_check_scsvs minor maxm reneg (b0 * 256 + b1)
                = .ok true := by
              unfold ttls_check_scsvs
              rw [if_neg hfb, if_pos her]
            rw [ttls_parse_cs_store_ok _ _ _ _ _ _ _ _ _ _ _
              (by omega) (by omega) hc]
            exact ih (cur + 2) (css ++ [b0 * 256 + b1]) rest true (by omega)
              (by rw [hlen2]; omega) (by rw [hlen2]; omega) h4r hver hmem2
          · have hc : ttls_check_scsvs minor maxm reneg (b0 * 256 + b1)
                = .ok reneg := by
              unfold ttls_check_scsvs
              rw [if_neg hfb, if_neg her]
            rw [ttls_parse_cs_store_ok _ _ _ _ _ _ _ _ _ _ _
              (by omega) (by omega) hc]
            exact ih (cur + 2) (css ++ [b0 * 256 + b1]) rest reneg (by omega)
              (by rw [hlen2]; omega) (by rw [hlen2]; omega) h4r hver hmem2

/-! ## ttls_choose_ciphersuite: characterization -/

theorem csScanPeer_spec (usable : Nat → Bool) (p : Nat) :
    ∀ (l : List Nat) (got : Bool),
    csScanPeer usable p l got = (got || l.contains p, l.contains p && usable p) := by
  intro l
  induction l with
  | nil => intro got; simp [csScanPeer]
  | cons cs rest ih =>
    intro got
    by_cases hcs : cs ≠ p
    · rw [csScanPeer, if_pos hcs, ih]
      have hpc : (p == cs) = false := by
        rw [beq_eq_false_iff_ne]
        exact fun hc => hcs hc.symm
      rw [List.contains_cons, hpc, Bool.false_or]
    · push_neg at hcs
      subst hcs
      by_cases hu : usable cs = true
      · rw [csScanPeer, if_neg (by simp), if_pos hu]
        rw [List.contains_cons]
        simp [hu]
      · have huf : usable cs = false := Bool.eq_false_iff.mpr hu
        rw [csScanPeer, if_neg (by simp), if_neg hu, ih]
        rw [List.contains_cons]
        simp [huf]

theorem chooseLoop_spec (usable : Nat → Bool) (stored : List Nat) :
    ∀ (prefs : List Nat) (got : Bool),
    chooseLoop usable stored prefs got =
      (match prefs.find? (fun p => stored.contains p && usable p) with
       | some p => .ok p
       | none => .error .handshakeFailure) := by
  intro prefs
  induction prefs with
  | nil => intro got; rfl
  | cons p ps ih =>
    intro got
    rw [chooseLoop, csScanPeer_spec, List.find?_cons]
    by_cases hf : (stored.contains p && usable p) = true
    · rw [hf]
    · have hff : (stored.contains p && usable p) = false :=
        Bool.eq_false_iff.mpr hf
      rw [hff]
      exact ih (got || stored.contains p)

/-! ## C8: cipher-suite clamping and selection over stored entries -/

/-- C8: with a well-formed declared cipher-suite length that contains no
aborting FALLBACK_SCSV among the stored prefix, the parser consumes exactly
the declared byte count, stores only the first min(CSS_MAX, L/2) entries
(dropping the later, lower-priority ones), clamps cs_total_len accordingly,
and the subsequent suite selection scans the server preference list against
exactly the cs_total_len/2 stored entries. -/
theorem c8_ciphersuite_clamping (cap minor maxm total : Nat)
    (bytes : List Nat) (reneg : Bool) (prefs : List Nat)
    (usable : Nat → Bool)
    (hdvd : 2 ∣ total) (hlen : total ≤ bytes.length)
    (hnofb : TTLS_FALLBACK_SCSV_VALUE ∉ csEntries bytes (min cap (total / 2))) :
    ttls_parse_cs cap minor maxm total 0 [] bytes reneg
      = .ok (csEntries bytes (min cap (total / 2)), 2 * min cap (total / 2),
             reneg || (csEntries bytes (min cap (total / 2))).contains
               TTLS_EMPTY_RENEGOTIATION_INFO,
             bytes.drop total)
    ∧ (csEntries bytes (min cap (total / 2))).length = min cap (total / 2)
    ∧ (∀ stored cnt, ttls_choose_ciphersuite prefs usable stored cnt
        = (match prefs.find?
              (fun p => (stored.take (cnt / 2)).contains p && usable p) with
           | some p => .ok p
           | none => .error .handshakeFailure)) := by
  have hk : total - 0 = 2 * (total / 2) := by omega
  have h2k : 2 * (total / 2) ≤ bytes.length := by omega
  have hmin0 : min (cap - ([] : List Nat).length) (total / 2)
      = min cap (total / 2) := by simp
  refine ⟨?_, ?_, ?_⟩
  · have h := ttls_parse_cs_go_ok cap minor maxm total (total / 2) 0 [] bytes
      reneg hk (by simp) (by simp) h2k
      (by rw [hmin0]; exact fun hcon => hnofb hcon.2)
    rw [hmin0] at h
    rw [h]
    have hT : (if ([] : List Nat).length + total / 2 ≤ cap
        then total else 2 * cap) = 2 * min cap (total / 2) := by
      simp only [List.length_nil, Nat.zero_add]
      split <;> omega
    rw [hT]
    have hdrop : bytes.drop (2 * (total / 2)) = bytes.drop total := by
      congr 1; omega
    rw [hdrop]
    simp
  · exact csEntries_length _ _ (by omega)
  · intro stored cnt
    unfold ttls_choose_ciphersuite
    exact chooseLoop_spec usable _ prefs false

/-- C8 witness: four declared suites with capacity two; only the first two
are stored, the byte count is consumed in full and selection sees only the
stored entries. -/
theorem c8_ciphersuite_clamping_witness :
    ttls_parse_cs 2 3 3 8 0 [] [0, 4, 0, 5, 0, 6, 0, 7, 9, 9] false
      = .ok ([4, 5], 4, false, [9, 9]) := by
  have h := c8_ciphersuite_clamping 2 3 3 8 [0, 4, 0, 5, 0, 6, 0, 7, 9, 9]
    false [] (fun _ => true) (by decide) (by decide) (by decide)
  have h1 := h.1
  simpa using h1

/-! ## C6: SCSV handling -/

/-- C6 (amended): a FALLBACK_SCSV among the STORED (first CSS_MAX) entries
of the cipher-suite list aborts the handshake with a fatal
inappropriate_fallback alert whenever the negotiated minor version is below
conf->max_minor_ver; when the version is not lowered the list parses
successfully whatever SCSVs it contains, and EMPTY_RENEGOTIATION_INFO_SCSV
among the stored entries sets secure_renegotiation.  SCSVs dropped by the
cipher-suite clamping have no effect. -/
theorem c6_scsv_amended (cap minor maxm total : Nat) (bytes : List Nat)
    (reneg : Bool) (hdvd : 2 ∣ total) (hlen : total ≤ bytes.length) :
    (minor < maxm →
      TTLS_FALLBACK_SCSV_VALUE ∈ csEntries bytes (min cap (total / 2)) →
      ttls_parse_cs cap minor maxm total 0 [] bytes reneg
        = .error (.alert .inappropriateFallback))
    ∧ (maxm ≤ minor →
      ttls_parse_cs cap minor maxm total 0 [] bytes reneg
        = .ok (csEntries bytes (min cap (total / 2)),
               2 * min cap (total / 2),
               reneg || (csEntries bytes (min cap (total / 2))).contains
                 TTLS_EMPTY_RENEGOTIATION_INFO,
               bytes.drop total)) := by
  have hk : total - 0 = 2 * (total / 2) := by omega
  have h2k : 2 * (total / 2) ≤ bytes.length := by omega
  have hmin0 : min (cap - ([] : List Nat).length) (total / 2)
      = min cap (total / 2) := by simp
  constructor
  · intro hver hmem
    exact ttls_parse_cs_go_abort cap minor maxm total (total / 2) 0 [] bytes
      reneg hk (by simp) (by simp) h2k hver (by rw [hmin0]; exact hmem)
  · intro hver
    have h := ttls_parse_cs_go_ok cap minor maxm total (total / 2) 0 [] bytes
      reneg hk (by simp) (by simp) h2k
      (by intro hcon; omega)
    rw [hmin0] at h
    rw [h]
    have hT : (if ([] : List Nat).length + total / 2 ≤ cap
        then total else 2 * cap) = 2 * min cap (total / 2) := by
      simp only [List.length_nil, Nat.zero_add]
      split <;> omega
    rw [hT]
    have hdrop : bytes.drop (2 * (total / 2)) = bytes.drop total := by
      congr 1; omega
    rw [hdrop]
    simp

/-- C6 witness: one stored FALLBACK_SCSV with a lowered version aborts. -/
theorem c6_scsv_witness :
    ttls_parse_cs 32 3 4 2 0 [] [0x56, 0x00] false
      = .error (.alert .inappropriateFallback) :=
  (c6_scsv_amended 32 3 4 2 [0x56, 0x00] false (by decide) (by decide)).1
    (by decide) (by decide)

/-- C6 counterexample: a ClientHello whose cipher-suite list contains
FALLBACK_SCSV (as its 33rd, last entry) while the negotiated minor version
3 is below max_minor_ver 4, yet with CSS_MAX = 32 stored entries the parse
completes successfully: the SCSV fell into the skipped tail and no
inappropriate_fallback alert is raised, refuting the claim for every
ClientHello containing FALLBACK_SCSV. -/
theorem c6_fallback_scsv_counterexample :
    TTLS_FALLBACK_SCSV_VALUE ∈ csEntries overflowSuiteBytes 33
      ∧ (3 : Nat) < 4
      ∧ (ttls_parse_client_hello 32 4 overflowClientHello).isOk = true := by
  refine ⟨by decide, by decide, by decide⟩

/-! ## C10: protocol version check -/

theorem ttls_check_scsvs_error_elim (minor maxm : Nat) (reneg : Bool)
    (cs : Nat) (a : TlsAlert)
    (h : ttls_check_scsvs minor maxm reneg cs = .error a) :
    a = .inappropriateFallback := by
  unfold ttls_check_scsvs at h
  split at h
  · split at h
    · exact (Except.error.injEq _ _).mp h |>.symm
    · exact absurd h (by simp)
  · split at h
    · exact absurd h (by simp)
    · exact absurd h (by simp)

/-- The cipher-suite loop never raises a protocol_version alert. -/
theorem ttls_parse_cs_no_version (cap minor maxm total : Nat) :
    ∀ (n : Nat) (cur : Nat) (css bytes : List Nat) (reneg : Bool),
    bytes.length ≤ n →
    ttls_parse_cs cap minor maxm total cur css bytes reneg
      ≠ .error (.alert .protocolVersion) := by
  intro n
  induction n with
  | zero =>
    intro cur css bytes reneg hn
    by_cases h1 : total ≤ cur
    · rw [ttls_parse_cs_done _ _ _ _ _ _ _ _ h1]; simp
    · by_cases h2 : 2 * cap ≤ cur
      · rw [ttls_parse_cs_skip _ _ _ _ _ _ _ _ h1 h2]
        split <;> simp
      · have hb : bytes = [] := List.length_eq_zero.mp (by omega)
        subst hb
        rw [ttls_parse_cs_nil _ _ _ _ _ _ _ h1 h2]
        simp
  | succ n ih =>
    intro cur css bytes reneg hn
    by_cases h1 : total ≤ cur
    · rw [ttls_parse_cs_done _ _ _ _ _ _ _ _ h1]; simp
    · by_cases h2 : 2 * cap ≤ cur
      · rw [ttls_parse_cs_skip _ _ _ _ _ _ _ _ h1 h2]
        split <;> simp
      · rcases bytes with _ | ⟨b0, _ | ⟨b1, rest⟩⟩
        · rw [ttls_parse_cs_nil _ _ _ _ _ _ _ h1 h2]; simp
        · rw [ttls_parse_cs_one _ _ _ _ _ _ _ _ h1 h2]; simp
        · cases hsc : ttls_check_scsvs minor maxm reneg (b0 * 256 + b1) with
          | error a =>
            rw [ttls_parse_cs_store_err _ _ _ _ _ _ _ _ _ _ _ h1 h2 hsc]
            rw [ttls_check_scsvs_error_elim _ _ _ _ _ hsc]
            simp
          | ok reneg2 =>
            rw [ttls_parse_cs_store_ok _ _ _ _ _ _ _ _ _ _ _ h1 h2 hsc]
            exact ih (cur + 2) (css ++ [b0 * 256 + b1]) rest reneg2
              (by simp at hn ⊢; omega)

/-- C10: the ClientHello parser accepts only protocol version 3.3: any
other version pair, once both bytes are present, aborts immediately with a
fatal protocol_version alert whatever follows (so no later field is
processed), and a 3.3 ClientHello can never produce that alert. -/
theorem c10_version_check (cap maxm maj minr : Nat) (rest : List Nat)
    (hbad : ¬(maj = 3 ∧ minr = 3)) :
    ttls_parse_client_hello cap maxm (maj :: minr :: rest)
      = .error (.alert .protocolVersion)
    ∧ ∀ bs : List Nat, ttls_parse_client_hello cap maxm (3 :: 3 :: bs)
        ≠ .error (.alert .protocolVersion) := by
  constructor
  · simp only [ttls_parse_client_hello]
    rw [if_pos (by tauto)]
  · intro bs hcon
    simp only [ttls_parse_client_hello] at hcon
    rw [if_neg (by simp)] at hcon
    split at hcon
    · simp at hcon
    · split at hcon
      · simp at hcon
      · split at hcon
        · simp at hcon
        · split at hcon
          · simp at hcon
          · split at hcon
            · split at hcon
              · simp at hcon
              · split at hcon
                · rename_i e heq
                  have he : e = .alert .protocolVersion := by
                    simpa using hcon
                  rw [he] at heq
                  exact ttls_parse_cs_no_version cap 3 maxm _
                    (List.length _) 0 [] _ false (le_refl _) heq
                · split at hcon
                  · simp at hcon
                  · split at hcon
                    · simp at hcon
                    · split at hcon
                      · simp at hcon
                      · split at hcon
                        · simp at hcon
                        · split at hcon
                          · split at hcon
                            · simp at hcon
                            · split at hcon <;> simp at hcon
                          · simp at hcon
            · simp at hcon

/-- C10 witness: version 3.2 is rejected with protocol_version. -/
theorem c10_version_check_witness :
    ttls_parse_client_hello 32 3 (3 :: 2 :: List.replicate 105 0)
      = .error (.alert .protocolVersion) :=
  (c10_version_check 32 3 3 2 (List.replicate 105 0) (by decide)).1

/-! ## C3: modulo normalisation -/

theorem mpiModFixNeg_nonneg (B : Int) :
    ∀ (fuel : Nat) (x : Int), 0 ≤ x → mpiModFixNeg B fuel x = some (x, 0) := by
  intro fuel x hx
  cases fuel with
  | zero => rw [mpiModFixNeg, if_neg (by omega)]
  | succ f => rw [mpiModFixNeg, if_neg (by omega)]

theorem mpiModFixGe_lt (B : Int) :
    ∀ (fuel : Nat) (x : Int), x < B → mpiModFixGe B fuel x = some (x, 0) := by
  intro fuel x hx
  cases fuel with
  | zero => rw [mpiModFixGe, if_neg (by omega)]
  | succ f => rw [mpiModFixGe, if_neg (by omega)]

theorem mpiModFixNeg_once (B : Int) (fuel : Nat) (r : Int) (hr : r < 0)
    (hnn : 0 ≤ r + B) : mpiModFixNeg B (fuel + 1) r = some (r + B, 1) := by
  simp only [mpiModFixNeg, if_pos hr,
    mpiModFixNeg_nonneg B fuel (r + B) hnn]

theorem ttls_mpi_mod_mpi_eval (A B q r r1 r2 : Int) (k1 k2 : Nat)
    (hB : ¬ B < 0) (hdeq : ttls_mpi_div_mpi A B = .ok (q, r))
    (h1 : mpiModFixNeg B (r.natAbs + 1) r = some (r1, k1))
    (h2 : mpiModFixGe B (r1.natAbs + 1) r1 = some (r2, k2)) :
    ttls_mpi_mod_mpi A B = .ok (r2, k1 + k2) := by
  simp only [ttls_mpi_mod_mpi, if_neg hB, hdeq, h1, h2]

theorem int_emod_char (B x A : Int) (hB : 0 < B) (h0 : 0 ≤ x) (h1 : x < B)
    (hd : B ∣ (A - x)) : A % B = x := by
  obtain ⟨t, ht⟩ := hd
  have hA : A = x + B * t := by linarith
  rw [hA, Int.add_mul_emod_self_left, Int.emod_eq_of_lt h0 h1]

/-- C3: for every positive modulus B, ttls_mpi_mod_mpi succeeds and returns
the canonical representative of A modulo B in [0, B), reached with at most
two corrective steps after the division; a negative modulus is rejected
with an input error. -/
theorem c3_mod_mpi_range (A B : Int) :
    (0 < B → ∃ k : Nat,
      ttls_mpi_mod_mpi A B = .ok (A % B, k) ∧ k ≤ 2
        ∧ 0 ≤ A % B ∧ A % B < B ∧ A % B ≡ A [ZMOD B])
    ∧ (B < 0 → ttls_mpi_mod_mpi A B = .error ()) := by
  constructor
  · intro hB
    have hBne : B ≠ 0 := by omega
    have hdiv : ∃ q r : Int, ttls_mpi_div_mpi A B = .ok (q, r)
        ∧ -B < r ∧ r < B ∧ B ∣ (A - r) := by
      unfold ttls_mpi_div_mpi
      rw [if_neg hBne]
      by_cases hB1 : B = 1
      · exact ⟨A, 0, by rw [if_pos hB1], by omega, by omega, by simp [hB1]⟩
      · rw [if_neg hB1]
        by_cases hAB : A.natAbs < B.natAbs
        · refine ⟨0, A, by rw [if_pos hAB], by omega, by omega, by simp⟩
        · rw [if_neg hAB]
          set m : Nat := A.natAbs % B.natAbs with hm
          set q : Nat := A.natAbs / B.natAbs with hq
          have hBn : ((B.natAbs : Int)) = B := by
            rw [Int.natAbs_of_nonneg (by omega)]
          have hmlt : (m : Int) < B := by
            rw [← hBn]
            exact_mod_cast Nat.mod_lt _ (by omega)
          have hqm : (A.natAbs : Int) = B * q + m := by
            rw [← hBn]
            exact_mod_cast (Nat.div_add_mod A.natAbs B.natAbs).symm
          have hsgn : A.sign * (A.natAbs : Int) = A := Int.sign_mul_natAbs A
          refine ⟨A.sign * B.sign * q, A.sign * m, rfl, ?_, ?_, ?_⟩
          · rcases Int.lt_trichotomy A 0 with hA | hA | hA
            · rw [Int.sign_eq_neg_one_of_neg hA]
              have hm0 : (0 : Int) ≤ m := by positivity
              omega
            · subst hA; simp; omega
            · rw [Int.sign_eq_one_of_pos hA]
              omega
          · rcases Int.lt_trichotomy A 0 with hA | hA | hA
            · rw [Int.sign_eq_neg_one_of_neg hA]
              have hm0 : (0 : Int) ≤ m := by positivity
              omega
            · subst hA; simp; omega
            · rw [Int.sign_eq_one_of_pos hA]
              omega
          · refine ⟨A.sign * q, ?_⟩
            calc A - A.sign * m = A.sign * (A.natAbs : Int) - A.sign * m := by
                  rw [hsgn]
              _ = A.sign * ((A.natAbs : Int) - m) := by ring
              _ = A.sign * (B * q) := by rw [hqm]; ring
              _ = B * (A.sign * q) := by ring
    obtain ⟨q, r, hdeq, hrlo, hrhi, hrdvd⟩ := hdiv
    by_cases hr : r < 0
    · have hmod : A % B = r + B := by
        apply int_emod_char B _ A hB (by omega) (by omega)
        obtain ⟨t, ht⟩ := hrdvd
        exact ⟨t - 1, by linarith⟩
      have hfuel : r.natAbs + 1 = r.natAbs + 1 := rfl
      have h1 : mpiModFixNeg B (r.natAbs + 1) r = some (r + B, 1) :=
        mpiModFixNeg_once B r.natAbs r hr (by omega)
      have h2 : mpiModFixGe B ((r + B).natAbs + 1) (r + B) = some (r + B, 0) :=
        mpiModFixGe_lt B _ _ (by omega)
      refine ⟨1, ?_, by omega, by omega, by omega, ?_⟩
      · rw [ttls_mpi_mod_mpi_eval A B q r (r + B) (r + B) 1 0 (by omega)
          hdeq h1 h2, hmod]
      · exact Int.emod_emod_of_dvd A (dvd_refl B)
    · have hmod : A % B = r :=
        int_emod_char B _ A hB (by omega) (by omega) hrdvd
      have h1 : mpiModFixNeg B (r.natAbs + 1) r = some (r, 0) :=
        mpiModFixNeg_nonneg B _ _ (by omega)
      have h2 : mpiModFixGe B (r.natAbs + 1) r = some (r, 0) :=
        mpiModFixGe_lt B _ _ (by omega)
      refine ⟨0, ?_, by omega, by omega, by omega, ?_⟩
      · rw [ttls_mpi_mod_mpi_eval A B q r r r 0 0 (by omega) hdeq h1 h2,
          hmod]
      · exact Int.emod_emod_of_dvd A (dvd_refl B)
  · intro hB
    unfold ttls_mpi_mod_mpi
    rw [if_pos hB]

/-- C3 witness: A = -7, B = 3 yields 2 with one corrective addition. -/
theorem c3_mod_mpi_range_witness :
    ∃ k : Nat, ttls_mpi_mod_mpi (-7) 3 = .ok ((-7) % 3, k) ∧ k ≤ 2
      ∧ 0 ≤ (-7 : Int) % 3 ∧ (-7 : Int) % 3 < 3
      ∧ (-7 : Int) % 3 ≡ -7 [ZMOD 3] :=
  (c3_mod_mpi_range (-7) 3).1 (by decide)

/-! ## Little-endian digit lemmas -/

theorem lVal_nil (b : Nat) : lVal b [] = 0 := rfl

theorem lVal_cons (b d : Nat) (l : List Nat) :
    lVal b (d :: l) = lVal b l * b + d := rfl

theorem lVal_append (b : Nat) (l1 l2 : List Nat) :
    lVal b (l1 ++ l2) = lVal b l1 + b ^ l1.length * lVal b l2 := by
  induction l1 with
  | nil => simp [lVal_nil]
  | cons d t ih =>
    rw [List.cons_append, lVal_cons, lVal_cons, ih, List.length_cons]
    ring

theorem lVal_replicate_zero (b k : Nat) :
    lVal b (List.replicate k 0) = 0 := by
  induction k with
  | zero => rfl
  | succ k ih => rw [List.replicate_succ, lVal_cons, ih]; ring

theorem lVal_lt (b : Nat) (hb : 1 ≤ b) (l : List Nat)
    (hl : ∀ d ∈ l, d < b) : lVal b l < b ^ l.length := by
  induction l with
  | nil => simpa [lVal_nil] using hb
  | cons d t ih =>
    rw [lVal_cons, List.length_cons, pow_succ]
    have h1 : lVal b t < b ^ t.length := ih (fun x hx => hl x (by simp [hx]))
    have h2 : d < b := hl d (by simp)
    calc lVal b t * b + d < lVal b t * b + b := by omega
      _ = (lVal b t + 1) * b := by ring
      _ ≤ b ^ t.length * b := by
          exact Nat.mul_le_mul_right b (by omega)

theorem lVal_getD (b : Nat) (hb : 1 ≤ b) (l : List Nat)
    (hl : ∀ d ∈ l, d < b) : ∀ i, lVal b l / b ^ i % b = l.getD i 0 := by
  induction l with
  | nil =>
    intro i
    simp [lVal_nil, Nat.zero_div, List.getD]
  | cons d t ih =>
    intro i
    cases i with
    | zero =>
      have h2 : d < b := hl d (by simp)
      simp only [lVal_cons, pow_zero, Nat.div_one, List.getD_cons_zero]
      rw [Nat.mul_comm, Nat.mul_add_mod, Nat.mod_eq_of_lt h2]
    | succ i =>
      have h2 : d < b := hl d (by simp)
      rw [lVal_cons, List.getD_cons_succ]
      rw [pow_succ, Nat.mul_comm (b ^ i) b, ← Nat.div_div_eq_div_mul]
      have hdd : (lVal b t * b + d) / b = lVal b t := by
        rw [Nat.mul_comm, Nat.mul_add_div (by omega), Nat.div_eq_of_lt h2]
        omega
      rw [hdd]
      exact ih (fun x hx => hl x (by simp [hx])) i

theorem lVal_range_map (b : Nat) (hb : 1 ≤ b) (v : Nat) : ∀ n : Nat,
    lVal b ((List.range n).map fun j => v / b ^ j % b) = v % b ^ n := by
  intro n
  induction n with
  | zero => simp [lVal_nil, Nat.mod_one]
  | succ n ih =>
    rw [List.range_succ, List.map_append, lVal_append, ih]
    simp only [List.map_cons, List.map_nil, List.length_map,
      List.length_range]
    rw [pow_succ]
    rw [Nat.mod_mul]
    have : lVal b [v / b ^ n % b] = v / b ^ n % b := by
      rw [lVal_cons, lVal_nil]; ring
    rw [this]

theorem leChunkN_length : ∀ (n : Nat) (l : List Nat),
    (leChunkN n l).length = n := by
  intro n
  induction n with
  | zero => intro l; rfl
  | succ n ih => intro l; rw [leChunkN, List.length_cons, ih]

theorem leChunkN_val : ∀ (n : Nat) (l : List Nat),
    lVal (2 ^ 64) (leChunkN n l) = lVal 256 (l.take (8 * n)) := by
  intro n
  induction n with
  | zero => intro l; simp [leChunkN, lVal_nil]
  | succ n ih =>
    intro l
    rw [leChunkN, lVal_cons, ih]
    have hsplit : l.take (8 * (n + 1)) = l.take 8 ++ (l.drop 8).take (8 * n) := by
      rw [← List.take_add]
      congr 1
      omega
    rw [hsplit, lVal_append]
    by_cases hlen : 8 ≤ l.length
    · have h8 : (l.take 8).length = 8 := by
        rw [List.length_take]; omega
      rw [h8]
      have hpow : (256 : Nat) ^ 8 = 2 ^ 64 := by norm_num
      rw [hpow]
      ring
    · push_neg at hlen
      have hdrop : l.drop 8 = [] := by
        apply List.drop_eq_nil_of_le; omega
      rw [hdrop]
      simp [lVal_nil]

theorem leChunkN_bounds (n : Nat) (l : List Nat) (hl : ∀ d ∈ l, d < 256) :
    ∀ x ∈ leChunkN n l, x < 2 ^ 64 := by
  induction n generalizing l with
  | zero => intro x hx; simp [leChunkN] at hx
  | succ n ih =>
    intro x hx
    rw [leChunkN] at hx
    rcases List.mem_cons.mp hx with h | h
    · subst h
      have hb : ∀ d ∈ l.take 8, d < 256 :=
        fun d hd => hl d (List.mem_of_mem_take hd)
      have := lVal_lt 256 (by norm_num) (l.take 8) hb
      have hlen : (l.take 8).length ≤ 8 := by
        rw [List.length_take]; omega
      calc lVal 256 (l.take 8) < 256 ^ (l.take 8).length := this
        _ ≤ 256 ^ 8 := Nat.pow_le_pow_right (by norm_num) hlen
        _ = 2 ^ 64 := by norm_num
    · exact ih (l.drop 8) (fun d hd => hl d (List.mem_of_mem_drop hd)) x h

/-! ## fixup lemmas -/

theorem fixupLoop_norm (p : List Nat) : ∀ n : Nat, 1 ≤ n →
    1 ≤ fixupLoop p n ∧ fixupLoop p n ≤ n
      ∧ (1 < fixupLoop p n → p.getD (fixupLoop p n - 1) 0 ≠ 0) := by
  intro n
  induction n with
  | zero => omega
  | succ n ih =>
    intro _
    by_cases hn : 1 < n + 1 ∧ p.getD n 0 = 0
    · rw [fixupLoop, if_pos hn]
      have h1 : 1 ≤ n := by omega
      obtain ⟨a, b, c⟩ := ih h1
      exact ⟨a, by omega, c⟩
    · rw [fixupLoop, if_neg hn]
      refine ⟨by omega, by omega, ?_⟩
      intro h2
      have : ¬ p.getD n 0 = 0 := by tauto
      simpa using this

theorem fixupLoop_val (p : List Nat) : ∀ n : Nat,
    lVal (2 ^ 64) (p.take (fixupLoop p n)) = lVal (2 ^ 64) (p.take n) := by
  intro n
  induction n with
  | zero => rfl
  | succ n ih =>
    by_cases hn : 1 < n + 1 ∧ p.getD n 0 = 0
    · rw [fixupLoop, if_pos hn, ih]
      by_cases hlen : n < p.length
      · have : p.take (n + 1) = p.take n ++ [p.getD n 0] := by
          rw [List.getD_eq_getElem p 0 hlen]
          rw [← List.take_concat_get p n hlen, List.concat_eq_append]
        rw [this, lVal_append, hn.2]
        simp [lVal_cons, lVal_nil]
      · push_neg at hlen
        rw [List.take_of_length_le hlen,
          List.take_of_length_le (le_trans hlen (by omega))]
    · rw [fixupLoop, if_neg hn]

/-! ## C9: write_binary / read_binary roundtrip -/

theorem take_succ_getD (p : List Nat) (n : Nat) (h : n < p.length) :
    p.take (n + 1) = p.take n ++ [p.getD n 0] := by
  rw [List.getD_eq_getElem p 0 h]
  rw [← List.take_concat_get p n h, List.concat_eq_append]

theorem getD_take_of_lt (l : List Nat) (n i d : Nat) (h : i < n) :
    (l.take n).getD i d = l.getD i d := by
  rcases Nat.lt_or_ge i l.length with hl | hl
  · rw [List.getD_eq_getElem l d hl, List.getD_eq_getElem (l.take n) d
      (by simp [List.length_take]; omega)]
    simp [List.getElem_take]
  · rw [List.getD_eq_default l d hl, List.getD_eq_default _ d
      (by simp [List.length_take]; omega)]

theorem lVal_take_split (p : List Nat) (k : Nat) (hlen : k < p.length) :
    lVal (2 ^ 64) (p.take (k + 1))
      = lVal (2 ^ 64) (p.take k) + 2 ^ (64 * k) * p.getD k 0 := by
  rw [take_succ_getD p k hlen, lVal_append]
  have hlt : (p.take k).length = k := by rw [List.length_take]; omega
  rw [hlt, lVal_cons, lVal_nil, pow_mul]
  ring

theorem byte_mod_insert (x r : Nat) (hr : r < 8) :
    x / 2 ^ (8 * r) % 256 = x % 2 ^ 64 / 2 ^ (8 * r) % 256 := by
  rw [← Nat.mod_mul_right_div_self x (2 ^ (8 * r)) 256,
    ← Nat.mod_mul_right_div_self (x % 2 ^ 64) (2 ^ (8 * r)) 256,
    Nat.mod_mod_of_dvd]
  rw [show (256:Nat) = 2 ^ 8 from by norm_num, ← pow_add]
  exact pow_dvd_pow 2 (by omega)

theorem norm_used_unique (v u1 u2 : Nat)
    (h1a : v < 2 ^ (64 * u1)) (h1b : u1 = 1 ∨ 2 ^ (64 * (u1 - 1)) ≤ v)
    (h2a : v < 2 ^ (64 * u2)) (h2b : u2 = 1 ∨ 2 ^ (64 * (u2 - 1)) ≤ v)
    (hu1 : 1 ≤ u1) (hu2 : 1 ≤ u2) : u1 = u2 := by
  rcases Nat.lt_trichotomy u1 u2 with h | h | h
  · exfalso
    rcases h2b with h2b | h2b
    · omega
    · have hp : (2:Nat) ^ (64 * u1) ≤ 2 ^ (64 * (u2 - 1)) :=
        Nat.pow_le_pow_right (by norm_num) (by omega)
      omega
  · exact h
  · exfalso
    rcases h1b with h1b | h1b
    · omega
    · have hp : (2:Nat) ^ (64 * u2) ≤ 2 ^ (64 * (u1 - 1)) :=
        Nat.pow_le_pow_right (by norm_num) (by omega)
      omega

theorem mpi_size_le (X : TlsMpi) (hu : 1 ≤ X.used)
    (hlen : X.used ≤ X.p.length) (hb : ∀ d ∈ X.p, d < 2 ^ 64) :
    ttls_mpi_size X ≤ 8 * X.used := by
  unfold ttls_mpi_size ttls_mpi_bitlen BIL
  simp only [natSize_eq]
  have htb : X.p.getD (X.used - 1) 0 < 2 ^ 64 := by
    rw [List.getD_eq_getElem X.p 0 (by omega)]
    exact hb _ (List.getElem_mem (by omega))
  have hsz : Nat.size (X.p.getD (X.used - 1) 0) ≤ 64 := Nat.size_le.mpr htb
  rw [Nat.shiftRight_eq_div_pow, show (2:Nat) ^ 3 = 8 from rfl]
  split
  · omega
  · omega

theorem mpi_val_lt_used (X : TlsMpi) (hlen : X.used ≤ X.p.length)
    (hb : ∀ d ∈ X.p, d < 2 ^ 64) : mpiVal X < 2 ^ (64 * X.used) := by
  unfold mpiVal
  have h := lVal_lt (2 ^ 64) (by norm_num) (X.p.take X.used)
    (fun d hd => hb d (List.mem_of_mem_take hd))
  rwa [List.length_take, Nat.min_eq_left hlen, ← pow_mul] at h

theorem mpi_val_lower (X : TlsMpi) (hu : 1 ≤ X.used)
    (hlen : X.used ≤ X.p.length)
    (htop : 1 < X.used → X.p.getD (X.used - 1) 0 ≠ 0) :
    X.used = 1 ∨ 2 ^ (64 * (X.used - 1)) ≤ mpiVal X := by
  rcases Nat.lt_or_ge 1 X.used with hgt | hle
  · right
    have hsp := lVal_take_split X.p (X.used - 1) (by omega)
    rw [show X.used - 1 + 1 = X.used from by omega] at hsp
    unfold mpiVal
    rw [hsp]
    have ht := htop hgt
    calc (2:Nat) ^ (64 * (X.used - 1))
        ≤ 2 ^ (64 * (X.used - 1)) * X.p.getD (X.used - 1) 0 :=
          Nat.le_mul_of_pos_right _ (by omega)
      _ ≤ _ := Nat.le_add_left _ _
  · left; omega

theorem mpi_val_lt_size (X : TlsMpi) (hu : 1 ≤ X.used)
    (hlen : X.used ≤ X.p.length) (hb : ∀ d ∈ X.p, d < 2 ^ 64)
    (htop : 1 < X.used → X.p.getD (X.used - 1) 0 ≠ 0) :
    mpiVal X < 256 ^ ttls_mpi_size X := by
  have h1 : X.used - 1 < X.p.length := by omega
  by_cases ht : X.p.getD (X.used - 1) 0 = 0
  · have hu1 : X.used = 1 := by
      rcases Nat.lt_or_ge 1 X.used with h | h
      · exact absurd ht (htop h)
      · omega
    have ht0 : X.p.getD 0 0 = 0 := by
      rw [hu1] at ht
      simpa using ht
    have hval : mpiVal X = 0 := by
      unfold mpiVal
      rw [hu1, take_succ_getD X.p 0 (by omega), ht0]
      simp [lVal_append, lVal_cons, lVal_nil]
    have hsize : ttls_mpi_size X = 0 := by
      unfold ttls_mpi_size ttls_mpi_bitlen
      rw [if_pos (Or.inr ht)]
      decide
    rw [hval, hsize]
    norm_num
  · have htpb : X.p.getD (X.used - 1) 0 < 2 ^ 64 := by
      rw [List.getD_eq_getElem X.p 0 h1]
      exact hb _ (List.getElem_mem h1)
    have hlow : lVal (2 ^ 64) (X.p.take (X.used - 1)) < 2 ^ (64 * (X.used - 1)) := by
      have h := lVal_lt (2 ^ 64) (by norm_num) (X.p.take (X.used - 1))
        (fun d hd => hb d (List.mem_of_mem_take hd))
      rwa [List.length_take, Nat.min_eq_left (by omega), ← pow_mul] at h
    have hsp := lVal_take_split X.p (X.used - 1) h1
    rw [show X.used - 1 + 1 = X.used from by omega] at hsp
    have hbl : ttls_mpi_bitlen X
        = (X.used - 1) * BIL + Nat.size (X.p.getD (X.used - 1) 0) := by
      unfold ttls_mpi_bitlen
      simp only [natSize_eq]
      rw [if_neg]
      push_neg
      exact ⟨by omega, ht⟩
    have h2 : X.p.getD (X.used - 1) 0 < 2 ^ Nat.size (X.p.getD (X.used - 1) 0) :=
      Nat.lt_size_self _
    have hvb : mpiVal X < 2 ^ ttls_mpi_bitlen X := by
      unfold mpiVal
      rw [hsp, hbl]
      unfold BIL
      calc lVal (2 ^ 64) (X.p.take (X.used - 1))
            + 2 ^ (64 * (X.used - 1)) * X.p.getD (X.used - 1) 0
          < 2 ^ (64 * (X.used - 1))
            + 2 ^ (64 * (X.used - 1)) * X.p.getD (X.used - 1) 0 :=
            Nat.add_lt_add_right hlow _
        _ = 2 ^ (64 * (X.used - 1)) * (X.p.getD (X.used - 1) 0 + 1) := by ring
        _ ≤ 2 ^ (64 * (X.used - 1))
              * 2 ^ Nat.size (X.p.getD (X.used - 1) 0) :=
            Nat.mul_le_mul (Nat.le_refl _) (by omega)
        _ = 2 ^ ((X.used - 1) * 64 + Nat.size (X.p.getD (X.used - 1) 0)) := by
            rw [← pow_add]
            congr 1
            ring
    have hfin : (2:Nat) ^ ttls_mpi_bitlen X ≤ 256 ^ ttls_mpi_size X := by
      rw [show (256:Nat) = 2 ^ 8 from by norm_num, ← pow_mul]
      apply Nat.pow_le_pow_right (by norm_num)
      unfold ttls_mpi_size
      rw [Nat.shiftRight_eq_div_pow, show (2:Nat) ^ 3 = 8 from rfl]
      omega
    omega

theorem read_binary_val (bs : List Nat) :
    mpiVal (ttls_mpi_read_binary bs) = beVal bs := by
  simp only [mpiVal, ttls_mpi_read_binary, mpi_fixup_used, beVal]
  rw [leChunkN_length, Nat.min_self, fixupLoop_val,
    List.take_of_length_le (le_of_eq (leChunkN_length _ _)), leChunkN_val,
    List.take_of_length_le
      (by rw [List.length_reverse]; unfold CIL; omega)]

theorem beVal_pad_beBytes (n v : Nat) (hv : v < 256 ^ n) (k : Nat) :
    beVal (List.replicate k 0 ++ beBytes n v) = v := by
  unfold beVal
  rw [List.reverse_append, List.reverse_replicate, lVal_append,
    lVal_replicate_zero]
  have hrev : (beBytes n v).reverse
      = (List.range n).map fun j => v / 256 ^ j % 256 := by
    unfold beBytes
    rw [← List.map_reverse, List.reverse_reverse]
    exact List.map_congr_left (fun j hj => by
      rw [show (256:Nat) = 2 ^ 8 from by norm_num, ← pow_mul])
  rw [hrev, lVal_range_map 256 (by norm_num) v n, Nat.mod_eq_of_lt hv]
  ring

theorem read_binary_used_eq (bs : List Nat) (u : Nat) (hbs : bs.length ≠ 0)
    (hu : 1 ≤ u) (hva : beVal bs < 2 ^ (64 * u))
    (hvb : u = 1 ∨ 2 ^ (64 * (u - 1)) ≤ beVal bs)
    (hd : ∀ d ∈ bs, d < 256) :
    (ttls_mpi_read_binary bs).used = u := by
  have hLpos : 1 ≤ (bs.length + CIL - 1) / CIL := by unfold CIL; omega
  obtain ⟨h1, h2, h3⟩ := fixupLoop_norm
    (leChunkN ((bs.length + CIL - 1) / CIL) bs.reverse)
    ((bs.length + CIL - 1) / CIL) hLpos
  have hplen : (leChunkN ((bs.length + CIL - 1) / CIL) bs.reverse).length
      = (bs.length + CIL - 1) / CIL := leChunkN_length _ _
  have hused : (ttls_mpi_read_binary bs).used
      = fixupLoop (leChunkN ((bs.length + CIL - 1) / CIL) bs.reverse)
          ((bs.length + CIL - 1) / CIL) := by
    simp only [ttls_mpi_read_binary, mpi_fixup_used]
    rw [hplen, Nat.min_self]
  have hbound : ∀ x ∈ leChunkN ((bs.length + CIL - 1) / CIL) bs.reverse,
      x < 2 ^ 64 :=
    leChunkN_bounds _ _ (fun d hdm => hd d (List.mem_reverse.mp hdm))
  have hv : lVal (2 ^ 64)
      ((leChunkN ((bs.length + CIL - 1) / CIL) bs.reverse).take
        (fixupLoop (leChunkN ((bs.length + CIL - 1) / CIL) bs.reverse)
          ((bs.length + CIL - 1) / CIL))) = beVal bs := by
    have hrv := read_binary_val bs
    rw [← hrv]
    simp only [mpiVal, ttls_mpi_read_binary, mpi_fixup_used]
    rw [hplen, Nat.min_self]
  set p := leChunkN ((bs.length + CIL - 1) / CIL) bs.reverse with hp
  set u2 := fixupLoop p ((bs.length + CIL - 1) / CIL) with hu2
  have hupper : beVal bs < 2 ^ (64 * u2) := by
    rw [← hv]
    have h := lVal_lt (2 ^ 64) (by norm_num) (p.take u2)
      (fun d hdm => hbound d (List.mem_of_mem_take hdm))
    rwa [List.length_take, Nat.min_eq_left (by omega), ← pow_mul] at h
  have hlower : u2 = 1 ∨ 2 ^ (64 * (u2 - 1)) ≤ beVal bs := by
    rcases Nat.lt_or_ge 1 u2 with hgt | hle
    · right
      have hsp := lVal_take_split p (u2 - 1) (by omega)
      rw [show u2 - 1 + 1 = u2 from by omega] at hsp
      rw [← hv, hsp]
      have ht := h3 hgt
      calc (2:Nat) ^ (64 * (u2 - 1))
          ≤ 2 ^ (64 * (u2 - 1)) * p.getD (u2 - 1) 0 :=
            Nat.le_mul_of_pos_right _ (by omega)
        _ ≤ _ := Nat.le_add_left _ _
    · left; omega
  rw [hused]
  exact norm_used_unique (beVal bs) u2 u hupper hlower hva hvb h1 hu

/-- C9 counterexample: the canonical zero MPI (used = 1) written into a
zero-length buffer succeeds (its byte size is 0), but re-reading the empty
output yields an MPI with used = 0, so the original is not reproduced
exactly and the result even violates the normalisation invariant
used >= 1. -/
theorem c9_roundtrip_counterexample :
    MpiNorm (⟨1, 1, [0]⟩ : TlsMpi)
      ∧ ttls_mpi_write_binary ⟨1, 1, [0]⟩ 0 = some []
      ∧ (ttls_mpi_read_binary []).used ≠ (⟨1, 1, [0]⟩ : TlsMpi).used
      ∧ ¬ MpiNorm (ttls_mpi_read_binary []) := by
  refine ⟨by decide, rfl, by decide, by decide⟩

/-- C9 (amended): for every normalised non-negative MPI X (with used
within the allocated limbs, which hold 64-bit values), write_binary fails
exactly when the buffer is shorter than the byte size of X; on success the
output is the big-endian encoding of the value, zero-padded on the left to
the buffer length, and read_binary on that output reproduces the value and
the sign of X, and reproduces X exactly (value, sign and used count)
whenever the buffer is non-empty.  (For the canonical zero written into an
empty buffer the reread MPI has used = 0 instead of 1.) -/
theorem c9_write_read_roundtrip (X : TlsMpi) (buflen : Nat)
    (hnorm : MpiNorm X) (hs : X.s = 1) (hlen : X.used ≤ X.p.length)
    (hb : ∀ d ∈ X.p, d < 2 ^ 64) :
    (ttls_mpi_write_binary X buflen = none ↔ buflen < ttls_mpi_size X)
      ∧ ∀ out, ttls_mpi_write_binary X buflen = some out →
          out.length = buflen
          ∧ out = List.replicate (buflen - ttls_mpi_size X) 0
              ++ beBytes (ttls_mpi_size X) (mpiVal X)
          ∧ mpiVal (ttls_mpi_read_binary out) = mpiVal X
          ∧ (ttls_mpi_read_binary out).s = X.s
          ∧ (0 < buflen → (ttls_mpi_read_binary out).used = X.used) := by
  obtain ⟨hu, htop⟩ := hnorm
  have hvlt : mpiVal X < 256 ^ ttls_mpi_size X :=
    mpi_val_lt_size X hu hlen hb htop
  constructor
  · by_cases hc : buflen < ttls_mpi_size X
    · simp [ttls_mpi_write_binary, hc]
    · simp [ttls_mpi_write_binary, hc]
  · intro out hout
    by_cases hc : buflen < ttls_mpi_size X
    · exact absurd hout (by simp [ttls_mpi_write_binary, hc])
    · push_neg at hc
      simp only [ttls_mpi_write_binary, if_neg (by omega : ¬ buflen < ttls_mpi_size X),
        Option.some.injEq] at hout
      have hbytemap : ((List.range (ttls_mpi_size X)).reverse.map fun j =>
            (X.p.getD (j / CIL) 0 >>> ((j % CIL) * 8)) % 256)
          = beBytes (ttls_mpi_size X) (mpiVal X) := by
        unfold beBytes
        apply List.map_congr_left
        intro j hj
        have hjn : j < ttls_mpi_size X := List.mem_range.mp (List.mem_reverse.mp hj)
        have h8u : ttls_mpi_size X ≤ 8 * X.used := mpi_size_le X hu hlen hb
        have hju : j / 8 < X.used := by omega
        show (X.p.getD (j / CIL) 0 >>> ((j % CIL) * 8)) % 256
            = mpiVal X / 2 ^ (8 * j) % 256
        unfold CIL
        rw [Nat.shiftRight_eq_div_pow, Nat.mul_comm (j % 8) 8]
        have hlimb : mpiVal X / 2 ^ (64 * (j / 8)) % 2 ^ 64
            = X.p.getD (j / 8) 0 := by
          unfold mpiVal
          rw [pow_mul]
          rw [lVal_getD (2 ^ 64) (by norm_num) (X.p.take X.used)
            (fun d hd => hb d (List.mem_of_mem_take hd)) (j / 8)]
          exact getD_take_of_lt X.p X.used (j / 8) 0 hju
        have he : 8 * j = 64 * (j / 8) + 8 * (j % 8) := by omega
        conv_rhs => rw [he, pow_add, ← Nat.div_div_eq_div_mul,
          byte_mod_insert _ _ (Nat.mod_lt j (by norm_num)), hlimb]
      rw [hbytemap] at hout
      have houtform : out = List.replicate (buflen - ttls_mpi_size X) 0
          ++ beBytes (ttls_mpi_size X) (mpiVal X) := hout.symm
      have houtlen : out.length = buflen := by
        rw [houtform]
        simp [beBytes, List.length_append, List.length_replicate]
        omega
      refine ⟨houtlen, houtform, ?_, ?_, ?_⟩
      · rw [houtform, read_binary_val]
        exact beVal_pad_beBytes (ttls_mpi_size X) (mpiVal X) hvlt _
      · rw [hs]
        rfl
      · intro hbl
        have hXupper : mpiVal X < 2 ^ (64 * X.used) := mpi_val_lt_used X hlen hb
        have hXlower := mpi_val_lower X hu hlen htop
        have hd : ∀ d ∈ out, d < 256 := by
          rw [houtform]
          intro d hdm
          rcases List.mem_append.mp hdm with h | h
          · rw [List.eq_of_mem_replicate h]; norm_num
          · unfold beBytes at h
            obtain ⟨j, hj, hje⟩ := List.mem_map.mp h
            rw [← hje]
            exact Nat.mod_lt _ (by norm_num)
        apply read_binary_used_eq out X.used (by omega) hu
        · rw [houtform, beVal_pad_beBytes _ _ hvlt]
          exact hXupper
        · rcases hXlower with h | h
          · exact Or.inl h
          · right
            rw [houtform, beVal_pad_beBytes _ _ hvlt]
            exact h
        · exact hd

/-- C9 witness. -/
theorem c9_write_read_roundtrip_witness :
    MpiNorm (⟨1, 2, [5, 3]⟩ : TlsMpi)
      ∧ (⟨1, 2, [5, 3]⟩ : TlsMpi).s = 1
      ∧ (⟨1, 2, [5, 3]⟩ : TlsMpi).used ≤ (⟨1, 2, [5, 3]⟩ : TlsMpi).p.length
      ∧ (∀ d ∈ (⟨1, 2, [5, 3]⟩ : TlsMpi).p, d < 2 ^ 64)
      ∧ ((ttls_mpi_write_binary ⟨1, 2, [5, 3]⟩ 17 = none
            ↔ 17 < ttls_mpi_size ⟨1, 2, [5, 3]⟩)
          ∧ ∀ out, ttls_mpi_write_binary ⟨1, 2, [5, 3]⟩ 17 = some out →
              out.length = 17
              ∧ out = List.replicate (17 - ttls_mpi_size ⟨1, 2, [5, 3]⟩) 0
                  ++ beBytes (ttls_mpi_size ⟨1, 2, [5, 3]⟩)
                      (mpiVal ⟨1, 2, [5, 3]⟩)
              ∧ mpiVal (ttls_mpi_read_binary out) = mpiVal ⟨1, 2, [5, 3]⟩
              ∧ (ttls_mpi_read_binary out).s = (⟨1, 2, [5, 3]⟩ : TlsMpi).s
              ∧ (0 < 17 → (ttls_mpi_read_binary out).used
                  = (⟨1, 2, [5, 3]⟩ : TlsMpi).used)) :=
  ⟨by decide, rfl, by decide, by decide,
   c9_write_read_roundtrip ⟨1, 2, [5, 3]⟩ 17 (by decide) rfl (by decide)
     (by decide)⟩

/-! ## C2: Montgomery machinery of ttls_mpi_exp_mod -/

theorem natCast_mod_cast_of_dvd (a b n : Nat) [NeZero n] (h : n ∣ b) :
    ((a % b : ℕ) : ZMod n) = (a : ZMod n) := by
  have h0 : ((b : ℕ) : ZMod n) = 0 := (ZMod.natCast_zmod_eq_zero_iff_dvd b n).mpr h
  conv_rhs => rw [← Nat.mod_add_div a b]
  push_cast
  rw [h0]
  ring

theorem and4_eq (m : Nat) : m &&& 4 = m / 4 % 2 * 4 := by
  rw [show (4:Nat) = 2 ^ 2 from rfl, Nat.and_two_pow, Nat.testBit_to_div_mod]
  rcases Nat.mod_two_eq_zero_or_one (m / 2 ^ 2) with h | h
  · simp only [h]
    norm_num
  · simp only [h]
    norm_num

theorem montg_base (m0 : Nat) (hm : m0 % 2 = 1) :
    m0 * ((m0 + ((m0 + 2) &&& 4) <<< 1) % 2 ^ 64) ≡ 1 [MOD 2 ^ 4] := by
  show _ % _ = _ % _
  rw [and4_eq, Nat.shiftLeft_eq]
  have h16 : (16:ℕ) ∣ 2 ^ 64 := by norm_num
  rw [show (2:ℕ)^4 = 16 from rfl, show (2:ℕ)^1 = 2 from rfl]
  rw [Nat.mul_mod, Nat.mod_mod_of_dvd _ h16]
  have hc : (m0 + 2) / 4 % 2 = (m0 % 16 + 2) / 4 % 2 := by omega
  rw [hc, Nat.add_mod m0]
  have hr : m0 % 16 < 16 := Nat.mod_lt _ (by norm_num)
  have ho : m0 % 16 % 2 = 1 := by omega
  generalize hg : m0 % 16 = r
  rw [hg] at hr ho
  interval_cases r <;> omega

theorem montInitStep_lift (m0 x k : Nat) (h2k : 2 * k ≤ 64)
    (h : m0 * x ≡ 1 [MOD 2 ^ k]) :
    m0 * montInitStep m0 x ≡ 1 [MOD 2 ^ (2 * k)] := by
  haveI : NeZero ((2:ℕ) ^ (2 * k)) := ⟨by positivity⟩
  obtain ⟨t, ht⟩ := (Nat.modEq_iff_dvd).mp h
  rw [← ZMod.natCast_eq_natCast_iff]
  have hdvd : (2:ℕ) ^ (2 * k) ∣ 2 ^ 64 := pow_dvd_pow 2 h2k
  have hz64 : ((2 ^ 64 : ℕ) : ZMod (2 ^ (2 * k))) = 0 :=
    (ZMod.natCast_zmod_eq_zero_iff_dvd _ _).mpr hdvd
  have hmlt : m0 * x % 2 ^ 64 ≤ 2 + 2 ^ 64 :=
    le_trans (Nat.le_of_lt (Nat.mod_lt _ (by positivity))) (by omega)
  unfold montInitStep
  rw [Nat.cast_mul, natCast_mod_cast_of_dvd _ _ _ hdvd, Nat.cast_mul,
    Nat.cast_sub hmlt, natCast_mod_cast_of_dvd _ _ _ hdvd]
  have ht2 := congrArg (fun z : ℤ => (z : ZMod (2 ^ (2 * k)))) ht
  push_cast at ht2
  push_cast at hz64
  push_cast
  have hc2 : ((2:ZMod (2 ^ (2 * k))) ^ k) ^ 2 = 0 := by
    rw [← pow_mul]
    have hcast : (2:ZMod (2 ^ (2 * k))) ^ (k * 2) = ((2 ^ (k * 2) : ℕ) : ZMod (2 ^ (2 * k))) := by
      push_cast
      ring
    rw [hcast, show k * 2 = 2 * k from by ring, ZMod.natCast_self]
  linear_combination (-(1 - (m0 : ZMod (2 ^ (2 * k))) * x) - (2 : ZMod (2 ^ (2 * k))) ^ k * t) * ht2 - t ^ 2 * hc2 + ((m0 : ZMod (2 ^ (2 * k))) * x) * hz64

theorem mpi_montg_init_spec (m0 : Nat) (hm : m0 % 2 = 1) :
    ((mpi_montg_init m0 * m0 : ℕ) : ZMod (2 ^ 64)) = -1 := by
  haveI : NeZero ((2:ℕ) ^ 64) := ⟨by positivity⟩
  have h0 := montg_base m0 hm
  have h1 := montInitStep_lift _ _ 4 (by omega) h0
  have h2 := montInitStep_lift _ _ 8 (by omega) h1
  have h3 := montInitStep_lift _ _ 16 (by omega) h2
  have h4 := montInitStep_lift _ _ 32 (by omega) h3
  have hxlt : montInitStep m0 (montInitStep m0 (montInitStep m0 (montInitStep m0
      ((m0 + ((m0 + 2) &&& 4) <<< 1) % 2 ^ 64)))) < 2 ^ 64 := by
    unfold montInitStep
    exact Nat.mod_lt _ (by positivity)
  have hcast := (ZMod.natCast_eq_natCast_iff _ _ (2 ^ 64)).mpr h4
  have hz : (2 : ZMod (2 ^ 64)) ^ 64 = 0 := by
    have hn : ((2 ^ 64 : ℕ) : ZMod (2 ^ 64)) = 0 := ZMod.natCast_self _
    push_cast at hn
    exact_mod_cast hn
  unfold mpi_montg_init
  rw [Nat.cast_mul, natCast_mod_cast_of_dvd _ _ _ dvd_rfl,
    Nat.cast_sub (le_of_lt hxlt)]
  push_cast at hcast
  push_cast
  linear_combination (m0 : ZMod (2 ^ 64)) * hz - hcast

theorem limbsOf_length (n a : Nat) : (limbsOf n a).length = n := by
  unfold limbsOf
  simp

theorem limbsOf_mem_lt (n a : Nat) : ∀ d ∈ limbsOf n a, d < 2 ^ 64 := by
  unfold limbsOf
  intro d hd
  obtain ⟨i, hi, rfl⟩ := List.mem_map.mp hd
  exact Nat.mod_lt _ (by positivity)

theorem limbsOf_val (n a : Nat) :
    lVal (2 ^ 64) (limbsOf n a) = a % 2 ^ (64 * n) := by
  unfold limbsOf
  have hcongr : ((List.range n).map fun i => a / 2 ^ (64 * i) % 2 ^ 64)
      = (List.range n).map fun i => a / (2 ^ 64) ^ i % 2 ^ 64 :=
    List.map_congr_left (fun i hi => by rw [← pow_mul])
  rw [hcongr, lVal_range_map (2 ^ 64) (by norm_num) a n, ← pow_mul]

theorem cast_mod64 (a : Nat) : ((a % 2 ^ 64 : ℕ) : ZMod (2 ^ 64)) = a := by
  haveI : NeZero ((2:ℕ) ^ 64) := ⟨by positivity⟩
  exact natCast_mod_cast_of_dvd a _ _ dvd_rfl

theorem cast_mod64n (a : Nat) :
    ((a % 18446744073709551616 : ℕ) : ZMod (2 ^ 64)) = a := by
  rw [show (18446744073709551616:ℕ) = 2 ^ 64 from by norm_num]
  exact cast_mod64 a

theorem montLimb_mul (N mm b t ai : Nat)
    (hmm : ((mm * N : ℕ) : ZMod (2 ^ 64)) = -1) :
    montLimb N mm b t ai * 2 ^ 64
      = t + ai * b + (t % 2 ^ 64 + ai * (b % 2 ^ 64)) * mm % 2 ^ 64 * N := by
  haveI : NeZero ((2:ℕ) ^ 64) := ⟨by positivity⟩
  unfold montLimb
  apply Nat.div_mul_cancel
  apply (ZMod.natCast_zmod_eq_zero_iff_dvd _ _).mp
  simp only [Nat.cast_add, Nat.cast_mul, cast_mod64]
  simp only [Nat.cast_mul] at hmm
  linear_combination ((t : ZMod (2 ^ 64)) + (ai : ZMod (2 ^ 64)) * b) * hmm

theorem montLimb_lt (N mm b t ai : Nat) (hN : 0 < N) (hai : ai < 2 ^ 64)
    (ht : t < b + N) : montLimb N mm b t ai < b + N := by
  unfold montLimb
  rw [Nat.div_lt_iff_lt_mul (by positivity : 0 < (2:ℕ) ^ 64)]
  have h1 : ai * b ≤ (2 ^ 64 - 1) * b :=
    Nat.mul_le_mul_right _ (by omega)
  have h2 : (t % 2 ^ 64 + ai * (b % 2 ^ 64)) * mm % 2 ^ 64 * N
      ≤ (2 ^ 64 - 1) * N :=
    Nat.mul_le_mul_right _ (by
      have hmod := Nat.mod_lt ((t % 2 ^ 64 + ai * (b % 2 ^ 64)) * mm)
        (show 0 < (2:ℕ) ^ 64 by positivity)
      omega)
  omega

theorem montFold_spec (N mm b : Nat)
    (hmm : ((mm * N : ℕ) : ZMod (2 ^ 64)) = -1) :
    ∀ (as : List Nat) (t : Nat),
      ∃ c : Nat,
        (as.foldl (fun t ai => montLimb N mm b t ai) t) * 2 ^ (64 * as.length)
          = t + lVal (2 ^ 64) as * b + c * N := by
  intro as
  induction as with
  | nil =>
    intro t
    exact ⟨0, by simp [lVal_nil]⟩
  | cons d rest ih =>
    intro t
    obtain ⟨c, hc⟩ := ih (montLimb N mm b t d)
    refine ⟨(t % 2 ^ 64 + d * (b % 2 ^ 64)) * mm % 2 ^ 64 + c * 2 ^ 64, ?_⟩
    have hml := montLimb_mul N mm b t d hmm
    rw [List.foldl_cons, List.length_cons, lVal_cons]
    rw [show 64 * (rest.length + 1) = 64 * rest.length + 64 from by ring,
      pow_add, ← mul_assoc, hc]
    rw [Nat.add_mul, Nat.add_mul, hml]
    ring

theorem montFold_lt (N mm b : Nat) (hN : 0 < N) :
    ∀ (as : List Nat), (∀ d ∈ as, d < 2 ^ 64) → ∀ t, t < b + N →
      as.foldl (fun t ai => montLimb N mm b t ai) t < b + N := by
  intro as
  induction as with
  | nil =>
    intro _ t ht
    simpa using ht
  | cons d rest ih =>
    intro hmem t ht
    rw [List.foldl_cons]
    exact ih (fun x hx => hmem x (by simp [hx])) _
      (montLimb_lt N mm b t d hN (hmem d (by simp)) ht)

theorem mpi_montmul_lt (N mm n a b : Nat) (hN : 0 < N) (hb : b ≤ N) :
    mpi_montmul N mm n a b < N := by
  simp only [mpi_montmul]
  have hf := montFold_lt N mm b hN (limbsOf n a) (limbsOf_mem_lt n a) 0
    (by omega)
  split <;> omega

theorem mpi_montmul_congr (N mm n a b : Nat) (hN : 0 < N)
    (hmm : ((mm * N : ℕ) : ZMod (2 ^ 64)) = -1) (ha : a < 2 ^ (64 * n)) :
    ((mpi_montmul N mm n a b : ℕ) : ZMod N) * ((2 ^ (64 * n) : ℕ) : ZMod N)
      = (a : ZMod N) * (b : ZMod N) := by
  simp only [mpi_montmul]
  obtain ⟨c, hc⟩ := montFold_spec N mm b hmm (limbsOf n a) 0
  rw [limbsOf_length, limbsOf_val, Nat.mod_eq_of_lt ha] at hc
  have hfc := congrArg (fun z : ℕ => (z : ZMod N)) hc
  push_cast at hfc
  have hNz : ((N : ℕ) : ZMod N) = 0 := ZMod.natCast_self N
  split
  · rename_i hge
    rw [Nat.cast_sub hge, hNz, sub_zero]
    push_cast
    linear_combination hfc + (c : ZMod N) * hNz
  · push_cast
    linear_combination hfc + (c : ZMod N) * hNz

theorem lor_window (w b k : Nat) (hb : b ≤ 1) :
    w * 2 ^ (k + 1) ||| b <<< k = (2 * w + b) * 2 ^ k := by
  rcases Nat.le_one_iff_eq_zero_or_eq_one.mp hb with rfl | rfl
  · rw [Nat.shiftLeft_eq, zero_mul, Nat.or_zero]
    ring
  · rw [Nat.shiftLeft_eq, one_mul]
    apply Nat.eq_of_testBit_eq
    intro i
    rw [Nat.testBit_lor]
    rw [mul_comm w, mul_comm _ (2 ^ k), Nat.testBit_mul_pow_two,
      Nat.testBit_mul_pow_two, Nat.testBit_two_pow]
    rcases Nat.lt_trichotomy i k with h | h | h
    · simp [show ¬ (k + 1 ≤ i) from by omega, show k ≠ i from by omega,
        show ¬ (k ≤ i) from by omega]
    · subst h
      simp [Nat.testBit_to_div_mod, show ¬ (i + 1 ≤ i) from by omega]
      omega
    · have harith : (2 * w + 1) / 2 ^ (i - k) = w / 2 ^ (i - (k + 1)) := by
        rw [show i - k = (i - k - 1) + 1 from by omega, pow_succ',
          ← Nat.div_div_eq_div_mul, show (2 * w + 1) / 2 = w from by omega,
          show i - (k + 1) = i - k - 1 from by omega]
      simp [Nat.testBit_to_div_mod, show k + 1 ≤ i from by omega,
        show k ≠ i from by omega, show k ≤ i from by omega, harith]

theorem R_isUnit (N n : Nat) (hodd : N % 2 = 1) :
    IsUnit ((2 ^ (64 * n) : ℕ) : ZMod N) := by
  have h2 : IsUnit ((2 : ℕ) : ZMod N) := by
    rw [ZMod.isUnit_iff_coprime]
    exact Nat.coprime_two_left.mpr (Nat.odd_iff.mpr hodd)
  have hc : (((2 ^ (64 * n) : ℕ)) : ZMod N) = ((2 : ℕ) : ZMod N) ^ (64 * n) := by
    push_cast
    ring
  rw [hc]
  exact h2.pow _

theorem N_lt_R (N : Nat) : N < 2 ^ (64 * usedOf N) := by
  unfold usedOf
  simp only [natSize_eq]
  have hs := Nat.lt_size_self N
  exact lt_of_lt_of_le hs (Nat.pow_le_pow_right (by norm_num) (by omega))

theorem mont_mul_rep (N mm n x y : Nat) (u v : ZMod N) (hN : 0 < N)
    (hmm : ((mm * N : ℕ) : ZMod (2 ^ 64)) = -1)
    (hR : IsUnit ((2 ^ (64 * n) : ℕ) : ZMod N))
    (hx : (x : ZMod N) = u * ((2 ^ (64 * n) : ℕ) : ZMod N))
    (hy : (y : ZMod N) = v * ((2 ^ (64 * n) : ℕ) : ZMod N))
    (hxlt : x < 2 ^ (64 * n)) :
    ((mpi_montmul N mm n x y : ℕ) : ZMod N)
      = (u * v) * ((2 ^ (64 * n) : ℕ) : ZMod N) := by
  have hc := mpi_montmul_congr N mm n x y hN hmm hxlt
  rw [hx, hy] at hc
  apply hR.mul_right_cancel
  rw [hc]
  ring

theorem sqIter_rep (N mm n : Nat) (hN : 0 < N)
    (hmm : ((mm * N : ℕ) : ZMod (2 ^ 64)) = -1)
    (hR : IsUnit ((2 ^ (64 * n) : ℕ) : ZMod N))
    (hNR : N ≤ 2 ^ (64 * n)) :
    ∀ (k x : Nat) (u : ZMod N),
      x < N → (x : ZMod N) = u * ((2 ^ (64 * n) : ℕ) : ZMod N) →
      sqIter N mm n k x < N
        ∧ ((sqIter N mm n k x : ℕ) : ZMod N)
            = u ^ 2 ^ k * ((2 ^ (64 * n) : ℕ) : ZMod N) := by
  intro k
  induction k with
  | zero =>
    intro x u hxN hx
    refine ⟨hxN, ?_⟩
    rw [sqIter, pow_zero, pow_one]
    exact hx
  | succ k ih =>
    intro x u hxN hx
    rw [sqIter]
    have hm := mont_mul_rep N mm n x x u u hN hmm hR hx hx
      (lt_of_lt_of_le hxN hNR)
    have hlt := mpi_montmul_lt N mm n x x hN (le_of_lt hxN)
    obtain ⟨h1, h2⟩ := ih (mpi_montmul N mm n x x) (u * u) hlt hm
    refine ⟨h1, ?_⟩
    rw [h2]
    congr 1
    rw [← sq, ← pow_mul]
    congr 1
    rw [pow_succ]
    ring

theorem wChain_rep (N mm n w1 : Nat) (a1 : ZMod N) (hN : 0 < N)
    (hmm : ((mm * N : ℕ) : ZMod (2 ^ 64)) = -1)
    (hR : IsUnit ((2 ^ (64 * n) : ℕ) : ZMod N))
    (hNR : N ≤ 2 ^ (64 * n))
    (hw1N : w1 ≤ N)
    (hw1 : (w1 : ZMod N) = a1 * ((2 ^ (64 * n) : ℕ) : ZMod N)) :
    ∀ (k base : Nat) (ub : ZMod N), base < N →
      (base : ZMod N) = ub * ((2 ^ (64 * n) : ℕ) : ZMod N) →
      wChain N mm n w1 base k < N
        ∧ ((wChain N mm n w1 base k : ℕ) : ZMod N)
            = ub * a1 ^ k * ((2 ^ (64 * n) : ℕ) : ZMod N) := by
  intro k
  induction k with
  | zero =>
    intro base ub hbN hb
    refine ⟨hbN, ?_⟩
    rw [wChain, pow_zero, mul_one]
    exact hb
  | succ k ih =>
    intro base ub hbN hb
    rw [wChain]
    obtain ⟨h1, h2⟩ := ih base ub hbN hb
    have hm := mont_mul_rep N mm n (wChain N mm n w1 base k) w1
      (ub * a1 ^ k) a1 hN hmm hR h2 hw1 (lt_of_lt_of_le h1 hNR)
    refine ⟨mpi_montmul_lt N mm n _ _ hN hw1N, ?_⟩
    rw [hm, pow_succ]
    ring

theorem wEntry_rep (N mm n wsize w1 : Nat) (a1 : ZMod N) (hN : 0 < N)
    (hmm : ((mm * N : ℕ) : ZMod (2 ^ 64)) = -1)
    (hR : IsUnit ((2 ^ (64 * n) : ℕ) : ZMod N))
    (hNR : N ≤ 2 ^ (64 * n))
    (hw1N : w1 < N)
    (hw1 : (w1 : ZMod N) = a1 * ((2 ^ (64 * n) : ℕ) : ZMod N))
    (i : Nat) (hi : 2 ^ (wsize - 1) ≤ i) :
    wEntry N mm n wsize w1 i < N
      ∧ ((wEntry N mm n wsize w1 i : ℕ) : ZMod N)
          = a1 ^ i * ((2 ^ (64 * n) : ℕ) : ZMod N) := by
  unfold wEntry
  obtain ⟨hb1, hb2⟩ := sqIter_rep N mm n hN hmm hR hNR (wsize - 1) w1 a1 hw1N hw1
  obtain ⟨hc1, hc2⟩ := wChain_rep N mm n w1 a1 hN hmm hR hNR (le_of_lt hw1N) hw1
    (i - 2 ^ (wsize - 1)) (sqIter N mm n (wsize - 1) w1) (a1 ^ 2 ^ (wsize - 1))
    hb1 hb2
  refine ⟨hc1, ?_⟩
  rw [hc2, ← pow_add, Nat.add_sub_cancel' hi]

theorem bitsFold_aux (w : Nat) : ∀ (k v : Nat),
    (((List.range k).reverse.map fun b => w >>> b &&& 1).foldl
      (fun v b => 2 * v + b) v) = v * 2 ^ k + w % 2 ^ k := by
  intro k
  induction k with
  | zero =>
    intro v
    simp [Nat.mod_one]
  | succ k ih =>
    intro v
    rw [List.range_succ, List.reverse_append]
    simp only [List.reverse_cons, List.reverse_nil, List.nil_append,
      List.singleton_append, List.map_cons, List.foldl_cons]
    rw [ih, Nat.and_one_is_mod, Nat.shiftRight_eq_div_pow, pow_succ,
      Nat.mod_mul]
    ring

theorem limbBitsMSB_foldl (w v : Nat) (hw : w < 2 ^ 64) :
    (limbBitsMSB w).foldl (fun v b => 2 * v + b) v = v * 2 ^ 64 + w := by
  unfold limbBitsMSB
  rw [bitsFold_aux, Nat.mod_eq_of_lt hw]

theorem bitsFlat_aux : ∀ (hs : List Nat) (v : Nat), (∀ x ∈ hs, x < 2 ^ 64) →
    ((hs.map limbBitsMSB).flatten).foldl (fun v b => 2 * v + b) v
      = v * 2 ^ (64 * hs.length) + lVal (2 ^ 64) hs.reverse := by
  intro hs
  induction hs with
  | nil =>
    intro v _
    simp [lVal_nil]
  | cons h t ih =>
    intro v hmem
    rw [List.map_cons, List.flatten_cons, List.foldl_append]
    rw [limbBitsMSB_foldl h v (hmem h (by simp))]
    rw [ih _ (fun x hx => hmem x (by simp [hx]))]
    rw [List.reverse_cons, lVal_append, List.length_cons, List.length_reverse]
    rw [lVal_cons, lVal_nil,
      show 64 * (t.length + 1) = 64 * t.length + 64 from by ring, pow_add,
      ← pow_mul]
    ring

theorem mpiBitsMSB_val (ls : List Nat) (hmem : ∀ x ∈ ls, x < 2 ^ 64) :
    (mpiBitsMSB ls).foldl (fun v b => 2 * v + b) 0 = lVal (2 ^ 64) ls := by
  unfold mpiBitsMSB
  rw [bitsFlat_aux ls.reverse 0 (fun x hx => hmem x (List.mem_reverse.mp hx))]
  rw [List.reverse_reverse, zero_mul, zero_add]

theorem mpiBitsMSB_le_one (ls : List Nat) : ∀ b ∈ mpiBitsMSB ls, b ≤ 1 := by
  unfold mpiBitsMSB limbBitsMSB
  intro b hb
  obtain ⟨l, hl, hbl⟩ := List.mem_flatten.mp hb
  obtain ⟨w, hw, rfl⟩ := List.mem_map.mp hl
  obtain ⟨i, hi, rfl⟩ := List.mem_map.mp hbl
  rw [Nat.and_one_is_mod]
  omega

theorem expFin_succ (N mm n wsize w1 k x wb : Nat) :
    expFin N mm n wsize w1 (k + 1) (x, wb)
      = expFin N mm n wsize w1 k
          (if wb <<< 1 &&& 2 ^ wsize ≠ 0
           then mpi_montmul N mm n (mpi_montmul N mm n x x) w1
           else mpi_montmul N mm n x x, wb <<< 1) := rfl

theorem expFin_rep (N mm n wsize w1 : Nat) (a1 : ZMod N)
    (hN : 0 < N)
    (hmm : ((mm * N : ℕ) : ZMod (2 ^ 64)) = -1)
    (hR : IsUnit ((2 ^ (64 * n) : ℕ) : ZMod N))
    (hNR : N ≤ 2 ^ (64 * n))
    (hw1N : w1 < N)
    (hw1 : (w1 : ZMod N) = a1 * ((2 ^ (64 * n) : ℕ) : ZMod N)) :
    ∀ (k x wb u ω m : Nat), k ≤ wsize → ω < 2 ^ k →
      wb = ω * 2 ^ (wsize - k) + m * 2 ^ wsize →
      x < N → (x : ZMod N) = a1 ^ u * ((2 ^ (64 * n) : ℕ) : ZMod N) →
      (expFin N mm n wsize w1 k (x, wb)).1 < N
        ∧ (((expFin N mm n wsize w1 k (x, wb)).1 : ℕ) : ZMod N)
            = a1 ^ (u * 2 ^ k + ω) * ((2 ^ (64 * n) : ℕ) : ZMod N) := by
  intro k
  induction k with
  | zero =>
    intro x wb u ω m _ hω hwb hxN hx
    have hω0 : ω = 0 := by omega
    subst hω0
    rw [expFin]
    refine ⟨hxN, ?_⟩
    rw [pow_zero, mul_one, Nat.add_zero]
    exact hx
  | succ k ih =>
    intro x wb u ω m hk hω hwb hxN hx
    have hdm := Nat.div_add_mod ω (2 ^ k)
    have hhile : ω / 2 ^ k ≤ 1 := by
      have hp : (2:ℕ) ^ (k + 1) = 2 ^ k * 2 := pow_succ 2 k
      have h2 : ω < 2 * 2 ^ k := by
        rw [hp] at hω
        omega
      have := (Nat.div_lt_iff_lt_mul (show 0 < (2:ℕ) ^ k by positivity)).mpr
        (by omega : ω < 2 * 2 ^ k)
      omega
    have he2 : (2:ℕ) ^ k * 2 ^ (wsize - k) = 2 ^ wsize := by
      rw [← pow_add]
      congr 1
      omega
    have hwb2 : wb <<< 1
        = ω % 2 ^ k * 2 ^ (wsize - k) + (ω / 2 ^ k + 2 * m) * 2 ^ wsize := by
      rw [Nat.shiftLeft_eq, pow_one, hwb]
      have he1 : (2:ℕ) ^ (wsize - (k + 1)) * 2 = 2 ^ (wsize - k) := by
        rw [← pow_succ]
        congr 1
        omega
      calc (ω * 2 ^ (wsize - (k + 1)) + m * 2 ^ wsize) * 2
          = ω * (2 ^ (wsize - (k + 1)) * 2) + 2 * m * 2 ^ wsize := by ring
        _ = ω * 2 ^ (wsize - k) + 2 * m * 2 ^ wsize := by rw [he1]
        _ = (2 ^ k * (ω / 2 ^ k) + ω % 2 ^ k) * 2 ^ (wsize - k)
              + 2 * m * 2 ^ wsize := by rw [hdm]
        _ = ω % 2 ^ k * 2 ^ (wsize - k)
              + (ω / 2 ^ k + 2 * m) * 2 ^ wsize := by
            rw [← he2]
            ring
    have hdivlt : ω % 2 ^ k * 2 ^ (wsize - k) < 2 ^ wsize := by
      rw [← he2]
      exact (Nat.mul_lt_mul_right (by positivity)).mpr
        (Nat.mod_lt _ (by positivity))
    have htest : wb <<< 1 &&& 2 ^ wsize = ω / 2 ^ k * 2 ^ wsize := by
      rw [Nat.and_two_pow, Nat.testBit_to_div_mod]
      have hq : wb <<< 1 / 2 ^ wsize = ω / 2 ^ k + 2 * m := by
        rw [hwb2, Nat.add_mul_div_right _ _ (show 0 < (2:ℕ) ^ wsize by positivity),
          Nat.div_eq_of_lt hdivlt]
        omega
      rw [hq]
      rcases Nat.le_one_iff_eq_zero_or_eq_one.mp hhile with h | h
      · rw [h]
        have hmod : (0 + 2 * m) % 2 = 0 := by omega
        simp [hmod]
      · rw [h]
        have hmod : (1 + 2 * m) % 2 = 1 := by omega
        simp [hmod]
    have hx1N : mpi_montmul N mm n x x < N :=
      mpi_montmul_lt N mm n x x hN (le_of_lt hxN)
    have hx1 : ((mpi_montmul N mm n x x : ℕ) : ZMod N)
        = a1 ^ (2 * u) * ((2 ^ (64 * n) : ℕ) : ZMod N) := by
      have := mont_mul_rep N mm n x x (a1 ^ u) (a1 ^ u) hN hmm hR hx hx
        (lt_of_lt_of_le hxN hNR)
      rw [this, ← pow_add]
      congr 2
      ring
    rw [expFin_succ]
    rcases Nat.le_one_iff_eq_zero_or_eq_one.mp hhile with h | h
    · rw [if_neg (by rw [htest, h]; simp)]
      obtain ⟨f1, f2⟩ := ih (mpi_montmul N mm n x x) (wb <<< 1) (2 * u)
        (ω % 2 ^ k) (ω / 2 ^ k + 2 * m) (by omega)
        (Nat.mod_lt _ (by positivity)) hwb2 hx1N hx1
      refine ⟨f1, ?_⟩
      rw [f2]
      congr 2
      obtain ⟨r, hr⟩ : ∃ r, ω % 2 ^ k = r := ⟨_, rfl⟩
      rw [hr] at hdm ⊢
      rw [h, mul_zero, zero_add] at hdm
      rw [← hdm, pow_succ]
      ring
    · rw [if_pos (by rw [htest, h]; positivity)]
      have hx2N : mpi_montmul N mm n (mpi_montmul N mm n x x) w1 < N :=
        mpi_montmul_lt N mm n _ w1 hN (le_of_lt hw1N)
      have hx2 : ((mpi_montmul N mm n (mpi_montmul N mm n x x) w1 : ℕ) : ZMod N)
          = a1 ^ (2 * u + 1) * ((2 ^ (64 * n) : ℕ) : ZMod N) := by
        have := mont_mul_rep N mm n (mpi_montmul N mm n x x) w1
          (a1 ^ (2 * u)) a1 hN hmm hR hx1 hw1 (lt_of_lt_of_le hx1N hNR)
        rw [this, ← pow_succ]
      obtain ⟨f1, f2⟩ := ih (mpi_montmul N mm n (mpi_montmul N mm n x x) w1)
        (wb <<< 1) (2 * u + 1) (ω % 2 ^ k) (ω / 2 ^ k + 2 * m) (by omega)
        (Nat.mod_lt _ (by positivity)) hwb2 hx2N hx2
      refine ⟨f1, ?_⟩
      rw [f2]
      congr 2
      obtain ⟨r, hr⟩ : ∃ r, ω % 2 ^ k = r := ⟨_, rfl⟩
      rw [hr] at hdm ⊢
      rw [h, mul_one] at hdm
      rw [← hdm, pow_succ]
      ring

theorem expStep_inv (N mm n wsize w1 x0 : Nat) (a1 : ZMod N)
    (hN : 0 < N)
    (hmm : ((mm * N : ℕ) : ZMod (2 ^ 64)) = -1)
    (hR : IsUnit ((2 ^ (64 * n) : ℕ) : ZMod N))
    (hNR : N ≤ 2 ^ (64 * n))
    (hws : 1 ≤ wsize)
    (hw1N : w1 < N)
    (hw1 : (w1 : ZMod N) = a1 * ((2 ^ (64 * n) : ℕ) : ZMod N))
    (hx0N : x0 < N)
    (hx0 : (x0 : ZMod N) = 1 * ((2 ^ (64 * n) : ℕ) : ZMod N))
    (st : ExpSt) (v ei : Nat) (hei : ei ≤ 1)
    (hInv : (st.state = 0 ∧ st.nbits = 0 ∧ st.wbits = 0 ∧ st.x = x0 ∧ v = 0)
      ∨ (st.state = 1 ∧ st.nbits = 0 ∧ st.wbits = 0 ∧ st.x < N
          ∧ (st.x : ZMod N) = a1 ^ v * ((2 ^ (64 * n) : ℕ) : ZMod N))
      ∨ (st.state = 2 ∧ 1 ≤ st.nbits ∧ st.nbits < wsize
          ∧ ∃ vp w, v = vp * 2 ^ st.nbits + w ∧ 2 ^ (st.nbits - 1) ≤ w
              ∧ w < 2 ^ st.nbits
              ∧ st.wbits = w * 2 ^ (wsize - st.nbits)
              ∧ st.x < N
              ∧ (st.x : ZMod N) = a1 ^ vp * ((2 ^ (64 * n) : ℕ) : ZMod N))) :
    ((expStep N mm n wsize w1 st ei).state = 0
        ∧ (expStep N mm n wsize w1 st ei).nbits = 0
        ∧ (expStep N mm n wsize w1 st ei).wbits = 0
        ∧ (expStep N mm n wsize w1 st ei).x = x0 ∧ 2 * v + ei = 0)
      ∨ ((expStep N mm n wsize w1 st ei).state = 1
        ∧ (expStep N mm n wsize w1 st ei).nbits = 0
        ∧ (expStep N mm n wsize w1 st ei).wbits = 0
        ∧ (expStep N mm n wsize w1 st ei).x < N
        ∧ ((expStep N mm n wsize w1 st ei).x : ZMod N)
            = a1 ^ (2 * v + ei) * ((2 ^ (64 * n) : ℕ) : ZMod N))
      ∨ ((expStep N mm n wsize w1 st ei).state = 2
        ∧ 1 ≤ (expStep N mm n wsize w1 st ei).nbits
        ∧ (expStep N mm n wsize w1 st ei).nbits < wsize
        ∧ ∃ vp w,
            2 * v + ei = vp * 2 ^ (expStep N mm n wsize w1 st ei).nbits + w
            ∧ 2 ^ ((expStep N mm n wsize w1 st ei).nbits - 1) ≤ w
            ∧ w < 2 ^ (expStep N mm n wsize w1 st ei).nbits
            ∧ (expStep N mm n wsize w1 st ei).wbits
                = w * 2 ^ (wsize - (expStep N mm n wsize w1 st ei).nbits)
            ∧ (expStep N mm n wsize w1 st ei).x < N
            ∧ ((expStep N mm n wsize w1 st ei).x : ZMod N)
                = a1 ^ vp * ((2 ^ (64 * n) : ℕ) : ZMod N)) := by
  rcases hInv with ⟨hs, hn, hw, hx, hv⟩ | ⟨hs, hn, hw, hxN, hxr⟩ |
    ⟨hs, hn1, hnw, vp, w, hveq, hwlo, hwhi, hwb, hxN, hxr⟩
  · -- state 0
    rcases Nat.le_one_iff_eq_zero_or_eq_one.mp hei with rfl | rfl
    · have hstep : expStep N mm n wsize w1 st 0 = st := by
        unfold expStep
        rw [if_pos ⟨rfl, hs⟩]
      rw [hstep]
      exact Or.inl ⟨hs, hn, hw, hx, by omega⟩
    · have hne1 : ¬ ((1:Nat) = 0 ∧ st.state = 0) := by simp
      have hne2 : ¬ ((1:Nat) = 0 ∧ st.state = 1) := by simp
      have hxr0 : (st.x : ZMod N) = a1 ^ 0 * ((2 ^ (64 * n) : ℕ) : ZMod N) := by
        rw [hx, pow_zero]
        exact hx0
      have hxN0 : st.x < N := hx ▸ hx0N
      by_cases hfl : st.nbits + 1 = wsize
      · have hwarg : st.wbits ||| 1 <<< (wsize - (st.nbits + 1))
            = 2 ^ (wsize - 1) := by
          rw [hw, hn, Nat.zero_or, Nat.shiftLeft_eq, one_mul]
        have hstep : expStep N mm n wsize w1 st 1
            = { state := 1, nbits := 0, wbits := 0,
                x := mpi_montmul N mm n (sqIter N mm n wsize st.x)
                  (wEntry N mm n wsize w1 (2 ^ (wsize - 1))) } := by
          unfold expStep
          rw [if_neg hne1, if_neg hne2, if_pos hfl, hwarg]
        rw [hstep]
        obtain ⟨hsq1, hsq2⟩ := sqIter_rep N mm n hN hmm hR hNR wsize st.x
          (a1 ^ 0) hxN0 hxr0
        obtain ⟨hwe1, hwe2⟩ := wEntry_rep N mm n wsize w1 a1 hN hmm hR hNR
          hw1N hw1 (2 ^ (wsize - 1)) (le_refl _)
        have hmul := mont_mul_rep N mm n (sqIter N mm n wsize st.x)
          (wEntry N mm n wsize w1 (2 ^ (wsize - 1)))
          ((a1 ^ 0) ^ 2 ^ wsize) (a1 ^ 2 ^ (wsize - 1)) hN hmm hR hsq2 hwe2
          (lt_of_lt_of_le hsq1 hNR)
        right; left
        refine ⟨rfl, rfl, rfl,
          mpi_montmul_lt N mm n _ _ hN (le_of_lt hwe1), ?_⟩
        show ((mpi_montmul N mm n (sqIter N mm n wsize st.x)
            (wEntry N mm n wsize w1 (2 ^ (wsize - 1))) : ℕ) : ZMod N) = _
        rw [hmul, ← pow_mul, ← pow_add]
        have hexp : 0 * 2 ^ wsize + 2 ^ (wsize - 1) = 2 * v + 1 := by
          have hws1 : wsize = 1 := by omega
          rw [hws1, hv]
          norm_num
        rw [hexp]
      · have hstep : expStep N mm n wsize w1 st 1
            = { state := 2, nbits := st.nbits + 1,
                wbits := st.wbits ||| 1 <<< (wsize - (st.nbits + 1)),
                x := st.x } := by
          unfold expStep
          rw [if_neg hne1, if_neg hne2, if_neg hfl]
        rw [hstep]
        right; right
        refine ⟨rfl, ?_, ?_, 0, 1, ?_, ?_, ?_, ?_, hxN0, hxr0⟩
        · show 1 ≤ st.nbits + 1
          omega
        · show st.nbits + 1 < wsize
          omega
        · show 2 * v + 1 = 0 * 2 ^ (st.nbits + 1) + 1
          omega
        · show 2 ^ (st.nbits + 1 - 1) ≤ 1
          rw [hn]
          norm_num
        · show 1 < 2 ^ (st.nbits + 1)
          rw [hn]
          norm_num
        · show st.wbits ||| 1 <<< (wsize - (st.nbits + 1))
            = 1 * 2 ^ (wsize - (st.nbits + 1))
          rw [hw, Nat.zero_or, Nat.shiftLeft_eq]
  · -- state 1
    rcases Nat.le_one_iff_eq_zero_or_eq_one.mp hei with rfl | rfl
    · have hne1 : ¬ ((0:Nat) = 0 ∧ st.state = 0) := by simp [hs]
      have hstep : expStep N mm n wsize w1 st 0
          = { st with x := mpi_montmul N mm n st.x st.x } := by
        unfold expStep
        rw [if_neg hne1, if_pos ⟨rfl, hs⟩]
      rw [hstep]
      have hmul := mont_mul_rep N mm n st.x st.x (a1 ^ v) (a1 ^ v) hN hmm hR
        hxr hxr (lt_of_lt_of_le hxN hNR)
      right; left
      refine ⟨hs, hn, hw, mpi_montmul_lt N mm n _ _ hN (le_of_lt hxN), ?_⟩
      show ((mpi_montmul N mm n st.x st.x : ℕ) : ZMod N) = _
      rw [hmul, ← pow_add, show v + v = 2 * v + 0 from by omega]
    · have hne1 : ¬ ((1:Nat) = 0 ∧ st.state = 0) := by simp
      have hne2 : ¬ ((1:Nat) = 0 ∧ st.state = 1) := by simp
      by_cases hfl : st.nbits + 1 = wsize
      · have hwarg : st.wbits ||| 1 <<< (wsize - (st.nbits + 1))
            = 2 ^ (wsize - 1) := by
          rw [hw, hn, Nat.zero_or, Nat.shiftLeft_eq, one_mul]
        have hstep : expStep N mm n wsize w1 st 1
            = { state := 1, nbits := 0, wbits := 0,
                x := mpi_montmul N mm n (sqIter N mm n wsize st.x)
                  (wEntry N mm n wsize w1 (2 ^ (wsize - 1))) } := by
          unfold expStep
          rw [if_neg hne1, if_neg hne2, if_pos hfl, hwarg]
        rw [hstep]
        obtain ⟨hsq1, hsq2⟩ := sqIter_rep N mm n hN hmm hR hNR wsize st.x
          (a1 ^ v) hxN hxr
        obtain ⟨hwe1, hwe2⟩ := wEntry_rep N mm n wsize w1 a1 hN hmm hR hNR
          hw1N hw1 (2 ^ (wsize - 1)) (le_refl _)
        have hmul := mont_mul_rep N mm n (sqIter N mm n wsize st.x)
          (wEntry N mm n wsize w1 (2 ^ (wsize - 1)))
          ((a1 ^ v) ^ 2 ^ wsize) (a1 ^ 2 ^ (wsize - 1)) hN hmm hR hsq2 hwe2
          (lt_of_lt_of_le hsq1 hNR)
        right; left
        refine ⟨rfl, rfl, rfl,
          mpi_montmul_lt N mm n _ _ hN (le_of_lt hwe1), ?_⟩
        show ((mpi_montmul N mm n (sqIter N mm n wsize st.x)
            (wEntry N mm n wsize w1 (2 ^ (wsize - 1))) : ℕ) : ZMod N) = _
        rw [hmul, ← pow_mul, ← pow_add]
        have hexp : v * 2 ^ wsize + 2 ^ (wsize - 1) = 2 * v + 1 := by
          have hws1 : wsize = 1 := by omega
          rw [hws1]
          ring_nf
        rw [hexp]
      · have hstep : expStep N mm n wsize w1 st 1
            = { state := 2, nbits := st.nbits + 1,
                wbits := st.wbits ||| 1 <<< (wsize - (st.nbits + 1)),
                x := st.x } := by
          unfold expStep
          rw [if_neg hne1, if_neg hne2, if_neg hfl]
        rw [hstep]
        right; right
        refine ⟨rfl, ?_, ?_, v, 1, ?_, ?_, ?_, ?_, hxN, hxr⟩
        · show 1 ≤ st.nbits + 1
          omega
        · show st.nbits + 1 < wsize
          omega
        · show 2 * v + 1 = v * 2 ^ (st.nbits + 1) + 1
          rw [hn]
          ring_nf
        · show 2 ^ (st.nbits + 1 - 1) ≤ 1
          rw [hn]
          norm_num
        · show 1 < 2 ^ (st.nbits + 1)
          rw [hn]
          norm_num
        · show st.wbits ||| 1 <<< (wsize - (st.nbits + 1))
            = 1 * 2 ^ (wsize - (st.nbits + 1))
          rw [hw, Nat.zero_or, Nat.shiftLeft_eq]
  · -- state 2
    have hne1 : ¬ (ei = 0 ∧ st.state = 0) := by
      rintro ⟨_, h⟩
      omega
    have hne2 : ¬ (ei = 0 ∧ st.state = 1) := by
      rintro ⟨_, h⟩
      omega
    have hwarg : st.wbits ||| ei <<< (wsize - (st.nbits + 1))
        = (2 * w + ei) * 2 ^ (wsize - (st.nbits + 1)) := by
      rw [hwb, show wsize - st.nbits = (wsize - (st.nbits + 1)) + 1 from by omega]
      exact lor_window w ei _ hei
    have hp2 : (2:ℕ) ^ st.nbits = 2 ^ (st.nbits - 1) * 2 := by
      rw [← pow_succ]
      congr 1
      omega
    by_cases hfl : st.nbits + 1 = wsize
    · have hstep : expStep N mm n wsize w1 st ei
          = { state := 1, nbits := 0, wbits := 0,
              x := mpi_montmul N mm n (sqIter N mm n wsize st.x)
                (wEntry N mm n wsize w1 (2 * w + ei)) } := by
        unfold expStep
        rw [if_neg hne1, if_neg hne2, if_pos hfl, hwarg,
          show wsize - (st.nbits + 1) = 0 from by omega, pow_zero, mul_one]
      rw [hstep]
      obtain ⟨hsq1, hsq2⟩ := sqIter_rep N mm n hN hmm hR hNR wsize st.x
        (a1 ^ vp) hxN hxr
      obtain ⟨hwe1, hwe2⟩ := wEntry_rep N mm n wsize w1 a1 hN hmm hR hNR
        hw1N hw1 (2 * w + ei)
        (by
          have : wsize - 1 = st.nbits := by omega
          rw [this]
          omega)
      have hmul := mont_mul_rep N mm n (sqIter N mm n wsize st.x)
        (wEntry N mm n wsize w1 (2 * w + ei))
        ((a1 ^ vp) ^ 2 ^ wsize) (a1 ^ (2 * w + ei)) hN hmm hR hsq2 hwe2
        (lt_of_lt_of_le hsq1 hNR)
      right; left
      refine ⟨rfl, rfl, rfl,
        mpi_montmul_lt N mm n _ _ hN (le_of_lt hwe1), ?_⟩
      show ((mpi_montmul N mm n (sqIter N mm n wsize st.x)
          (wEntry N mm n wsize w1 (2 * w + ei)) : ℕ) : ZMod N) = _
      rw [hmul, ← pow_mul, ← pow_add]
      have hexp : vp * 2 ^ wsize + (2 * w + ei) = 2 * v + ei := by
        rw [hveq, ← hfl, pow_succ]
        ring
      rw [hexp]
    · have hstep : expStep N mm n wsize w1 st ei
          = { state := 2, nbits := st.nbits + 1,
              wbits := (2 * w + ei) * 2 ^ (wsize - (st.nbits + 1)),
              x := st.x } := by
        unfold expStep
        rw [if_neg hne1, if_neg hne2, if_neg hfl, hwarg]
      rw [hstep]
      right; right
      refine ⟨rfl, ?_, ?_, vp, 2 * w + ei, ?_, ?_, ?_, rfl, hxN, hxr⟩
      · show 1 ≤ st.nbits + 1
        omega
      · show st.nbits + 1 < wsize
        omega
      · show 2 * v + ei = vp * 2 ^ (st.nbits + 1) + (2 * w + ei)
        rw [hveq, pow_succ]
        ring
      · show 2 ^ (st.nbits + 1 - 1) ≤ 2 * w + ei
        rw [Nat.add_sub_cancel]
        omega
      · show 2 * w + ei < 2 ^ (st.nbits + 1)
        rw [pow_succ]
        omega

theorem expScan_inv (N mm n wsize w1 x0 : Nat) (a1 : ZMod N)
    (hN : 0 < N)
    (hmm : ((mm * N : ℕ) : ZMod (2 ^ 64)) = -1)
    (hR : IsUnit ((2 ^ (64 * n) : ℕ) : ZMod N))
    (hNR : N ≤ 2 ^ (64 * n))
    (hws : 1 ≤ wsize)
    (hw1N : w1 < N)
    (hw1 : (w1 : ZMod N) = a1 * ((2 ^ (64 * n) : ℕ) : ZMod N))
    (hx0N : x0 < N)
    (hx0 : (x0 : ZMod N) = 1 * ((2 ^ (64 * n) : ℕ) : ZMod N)) :
    ∀ (bs : List Nat) (st : ExpSt) (v : Nat), (∀ b ∈ bs, b ≤ 1) →
      ((st.state = 0 ∧ st.nbits = 0 ∧ st.wbits = 0 ∧ st.x = x0 ∧ v = 0)
        ∨ (st.state = 1 ∧ st.nbits = 0 ∧ st.wbits = 0 ∧ st.x < N
            ∧ (st.x : ZMod N) = a1 ^ v * ((2 ^ (64 * n) : ℕ) : ZMod N))
        ∨ (st.state = 2 ∧ 1 ≤ st.nbits ∧ st.nbits < wsize
            ∧ ∃ vp w, v = vp * 2 ^ st.nbits + w ∧ 2 ^ (st.nbits - 1) ≤ w
                ∧ w < 2 ^ st.nbits
                ∧ st.wbits = w * 2 ^ (wsize - st.nbits)
                ∧ st.x < N
                ∧ (st.x : ZMod N)
                    = a1 ^ vp * ((2 ^ (64 * n) : ℕ) : ZMod N))) →
      (((bs.foldl (expStep N mm n wsize w1) st).state = 0
          ∧ (bs.foldl (expStep N mm n wsize w1) st).nbits = 0
          ∧ (bs.foldl (expStep N mm n wsize w1) st).wbits = 0
          ∧ (bs.foldl (expStep N mm n wsize w1) st).x = x0
          ∧ bs.foldl (fun v b => 2 * v + b) v = 0)
        ∨ ((bs.foldl (expStep N mm n wsize w1) st).state = 1
          ∧ (bs.foldl (expStep N mm n wsize w1) st).nbits = 0
          ∧ (bs.foldl (expStep N mm n wsize w1) st).wbits = 0
          ∧ (bs.foldl (expStep N mm n wsize w1) st).x < N
          ∧ ((bs.foldl (expStep N mm n wsize w1) st).x : ZMod N)
              = a1 ^ (bs.foldl (fun v b => 2 * v + b) v)
                  * ((2 ^ (64 * n) : ℕ) : ZMod N))
        ∨ ((bs.foldl (expStep N mm n wsize w1) st).state = 2
          ∧ 1 ≤ (bs.foldl (expStep N mm n wsize w1) st).nbits
          ∧ (bs.foldl (expStep N mm n wsize w1) st).nbits < wsize
          ∧ ∃ vp w,
              bs.foldl (fun v b => 2 * v + b) v
                = vp * 2 ^ (bs.foldl (expStep N mm n wsize w1) st).nbits + w
              ∧ 2 ^ ((bs.foldl (expStep N mm n wsize w1) st).nbits - 1) ≤ w
              ∧ w < 2 ^ (bs.foldl (expStep N mm n wsize w1) st).nbits
              ∧ (bs.foldl (expStep N mm n wsize w1) st).wbits
                  = w * 2 ^ (wsize
                      - (bs.foldl (expStep N mm n wsize w1) st).nbits)
              ∧ (bs.foldl (expStep N mm n wsize w1) st).x < N
              ∧ ((bs.foldl (expStep N mm n wsize w1) st).x : ZMod N)
                  = a1 ^ vp * ((2 ^ (64 * n) : ℕ) : ZMod N))) := by
  intro bs
  induction bs with
  | nil =>
    intro st v _ hInv
    simpa using hInv
  | cons b t ih =>
    intro st v hmem hInv
    rw [List.foldl_cons, List.foldl_cons]
    exact ih (expStep N mm n wsize w1 st b) (2 * v + b)
      (fun x hx => hmem x (by simp [hx]))
      (expStep_inv N mm n wsize w1 x0 a1 hN hmm hR hNR hws hw1N hw1 hx0N hx0
        st v b (hmem b (by simp)) hInv)

theorem mpi_montred_spec (N mm n x : Nat) (u : ZMod N) (hN : 0 < N)
    (hmm : ((mm * N : ℕ) : ZMod (2 ^ 64)) = -1)
    (hR : IsUnit ((2 ^ (64 * n) : ℕ) : ZMod N))
    (hNR : N ≤ 2 ^ (64 * n))
    (hxN : x < N)
    (hx : (x : ZMod N) = u * ((2 ^ (64 * n) : ℕ) : ZMod N)) :
    mpi_montred N mm n x < N
      ∧ ((mpi_montred N mm n x : ℕ) : ZMod N) = u := by
  unfold mpi_montred
  refine ⟨mpi_montmul_lt N mm n x 1 hN (by omega), ?_⟩
  have hc := mpi_montmul_congr N mm n x 1 hN hmm (lt_of_lt_of_le hxN hNR)
  rw [hx] at hc
  apply hR.mul_right_cancel
  rw [hc]
  push_cast
  ring

theorem nat_eq_of_cast_eq (a b N : Nat) (ha : a < N) (hb : b < N)
    (h : (a : ZMod N) = (b : ZMod N)) : a = b := by
  have hm : a % N = b % N := (ZMod.natCast_eq_natCast_iff _ _ _).mp h
  rw [Nat.mod_eq_of_lt ha, Nat.mod_eq_of_lt hb] at hm
  exact hm

theorem wsizeOf_pos (e : Nat) : 1 ≤ wsizeOf e := by
  unfold wsizeOf
  split_ifs <;> norm_num

/-- Full evaluation of the exp_mod embedding for odd N > 1: the returned
value is |A|^E mod N, negated against N when A is negative and E odd
(the sign correction X = N + (-X) of the source). -/
theorem exp_mod_eval (A : Int) (E N : Nat) (hN1 : 1 < N) (hodd : N % 2 = 1) :
    ttls_mpi_exp_mod A E N
      = (if A < 0 ∧ E % 2 = 1 then .ok (N - A.natAbs ^ E % N)
         else .ok (A.natAbs ^ E % N)) := by
  haveI : NeZero N := ⟨by omega⟩
  haveI : NeZero ((2:ℕ) ^ 64) := ⟨by positivity⟩
  have hguard : ¬ (N = 0 ∨ N % 2 = 0) := by omega
  have hN : 0 < N := by omega
  simp only [ttls_mpi_exp_mod]
  rw [if_neg hguard]
  set n := usedOf N with hndef
  set mm := mpi_montg_init (N % 2 ^ 64) with hmmdef
  set wsize := wsizeOf (natSize E) with hwsdef
  set RR := 2 ^ (n * 2 * 64) % N with hRRdef
  set a0 := A.natAbs % N with ha0def
  set w1 := mpi_montmul N mm n a0 RR with hw1def
  set x0 := mpi_montred N mm n RR with hx0def
  set bits := mpiBitsMSB (limbsOf (usedOf E) E) with hbitsdef
  set stEnd := bits.foldl (expStep N mm n wsize w1) ⟨0, 0, 0, x0⟩ with hstdef
  set xw := expFin N mm n wsize w1 stEnd.nbits (stEnd.x, stEnd.wbits)
    with hxwdef
  set xf := mpi_montred N mm n xw.1 with hxfdef
  -- mm * N = -1 mod 2^64
  have hmodd : (N % 2 ^ 64) % 2 = 1 := by
    rw [Nat.mod_mod_of_dvd _ (by norm_num : (2:ℕ) ∣ 2 ^ 64)]
    exact hodd
  have hmmz : ((mm * N : ℕ) : ZMod (2 ^ 64)) = -1 := by
    rw [Nat.cast_mul, hmmdef, ← cast_mod64 N, ← Nat.cast_mul]
    exact mpi_montg_init_spec (N % 2 ^ 64) hmodd
  have hR := R_isUnit N n hodd
  have hNR : N ≤ 2 ^ (64 * n) := by
    rw [hndef]
    exact le_of_lt (N_lt_R N)
  have hws : 1 ≤ wsize := by
    rw [hwsdef]
    exact wsizeOf_pos _
  -- RR
  have hRRlt : RR < N := Nat.mod_lt _ hN
  have hRRcast : ((RR : ℕ) : ZMod N)
      = ((2 ^ (64 * n) : ℕ) : ZMod N) * ((2 ^ (64 * n) : ℕ) : ZMod N) := by
    rw [hRRdef, natCast_mod_cast_of_dvd _ _ _ dvd_rfl,
      show n * 2 * 64 = 64 * n + 64 * n from by ring, pow_add, Nat.cast_mul]
  -- a0
  have ha0lt : a0 < N := Nat.mod_lt _ hN
  -- w1
  have hw1N : w1 < N := mpi_montmul_lt N mm n a0 RR hN (le_of_lt hRRlt)
  have hw1rep : (w1 : ZMod N)
      = (a0 : ZMod N) * ((2 ^ (64 * n) : ℕ) : ZMod N) := by
    have hc := mpi_montmul_congr N mm n a0 RR hN hmmz
      (lt_of_lt_of_le ha0lt hNR)
    apply hR.mul_right_cancel
    rw [hw1def, hc, hRRcast]
    ring
  -- x0
  obtain ⟨hx0N, hx0cast⟩ := mpi_montred_spec N mm n RR
    ((2 ^ (64 * n) : ℕ) : ZMod N) hN hmmz hR hNR hRRlt hRRcast
  have hx0rep : (x0 : ZMod N)
      = 1 * ((2 ^ (64 * n) : ℕ) : ZMod N) := by
    rw [one_mul, hx0def]
    exact hx0cast
  -- bit stream value
  have hbitsval : bits.foldl (fun v b => 2 * v + b) 0 = E := by
    rw [hbitsdef, mpiBitsMSB_val _ (limbsOf_mem_lt _ _), limbsOf_val,
      Nat.mod_eq_of_lt (N_lt_R E)]
  have hbits1 : ∀ b ∈ bits, b ≤ 1 := by
    rw [hbitsdef]
    exact mpiBitsMSB_le_one _
  -- scan
  have hscan := expScan_inv N mm n wsize w1 x0 (a0 : ZMod N) hN hmmz hR hNR
    hws hw1N hw1rep hx0N hx0rep bits ⟨0, 0, 0, x0⟩ 0 hbits1
    (Or.inl ⟨rfl, rfl, rfl, rfl, rfl⟩)
  rw [hbitsval] at hscan
  rw [← hstdef] at hscan
  -- final Montgomery value
  have hfin : xw.1 < N
      ∧ ((xw.1 : ℕ) : ZMod N)
          = (a0 : ZMod N) ^ E * ((2 ^ (64 * n) : ℕ) : ZMod N) := by
    rcases hscan with ⟨h0s, h0n, h0w, h0x, h0v⟩ | ⟨h1s, h1n, h1w, h1x, h1r⟩ |
      ⟨h2s, h2n1, h2nw, vp, w, hveq, hwlo, hwhi, hwb, hxN, hxr⟩
    · rw [hxwdef, h0n]
      rw [expFin]
      rw [h0x, h0v]
      exact ⟨hx0N, by rw [pow_zero]; exact hx0rep⟩
    · rw [hxwdef, h1n]
      rw [expFin]
      exact ⟨h1x, h1r⟩
    · have hrep := expFin_rep N mm n wsize w1 (a0 : ZMod N) hN hmmz hR hNR
        hw1N hw1rep stEnd.nbits stEnd.x stEnd.wbits vp w 0
        (le_of_lt h2nw) hwhi (by rw [hwb]; ring) hxN hxr
      rw [hxwdef]
      rw [hveq]
      exact hrep
  -- montred
  obtain ⟨hxfN, hxfcast⟩ := mpi_montred_spec N mm n xw.1
    ((a0 : ZMod N) ^ E) hN hmmz hR hNR hfin.1 hfin.2
  have hxfval : xf = A.natAbs ^ E % N := by
    apply nat_eq_of_cast_eq _ _ N (hxfdef ▸ hxfN) (Nat.mod_lt _ hN)
    rw [hxfdef, hxfcast, ha0def, natCast_mod_cast_of_dvd _ _ _ dvd_rfl,
      natCast_mod_cast_of_dvd _ _ _ dvd_rfl]
    push_cast
    ring
  rw [hxfval]

set_option maxRecDepth 10000 in
/-- C2 counterexample: for A = -3, E = 1, N = 3 the source returns
X = N + (-(3 mod 3)) = 3 = N, so the advertised 0 <= X < N fails (the
congruence X = A^E mod N still holds, as 3 = 0 mod 3). -/
theorem c2_exp_mod_counterexample :
    ttls_mpi_exp_mod (-3) 1 3 = .ok 3 ∧ ¬ ((3:Nat) < 3) := by
  constructor
  · rfl
  · decide

/-- C2 (amended): for every odd N > 1 and E >= 0, ttls_mpi_exp_mod
succeeds and yields X <= N congruent to A^E mod N; when A >= 0 or E is
even X is exactly |A|^E mod N (so 0 <= X < N); when A < 0 and E is odd
the final sign correction X = N - (|A|^E mod N) lands in (0, N], and
X = N (out of the advertised range) exactly when N divides |A|^E. -/
theorem c2_exp_mod_amended (A : Int) (E N : Nat) (hN1 : 1 < N)
    (hodd : N % 2 = 1) :
    ∃ X : Nat, ttls_mpi_exp_mod A E N = .ok X
      ∧ X ≤ N
      ∧ (X : ZMod N) = (A : ZMod N) ^ E
      ∧ (¬ (A < 0 ∧ E % 2 = 1) → X = A.natAbs ^ E % N ∧ X < N)
      ∧ (A < 0 ∧ E % 2 = 1 →
          X = N - A.natAbs ^ E % N ∧ (X = N ↔ A.natAbs ^ E % N = 0)) := by
  haveI : NeZero N := ⟨by omega⟩
  have hN : 0 < N := by omega
  have hev := exp_mod_eval A E N hN1 hodd
  have hr : A.natAbs ^ E % N < N := Nat.mod_lt _ hN
  have hcastr : ((A.natAbs ^ E % N : ℕ) : ZMod N)
      = ((A.natAbs : ℕ) : ZMod N) ^ E := by
    rw [natCast_mod_cast_of_dvd _ _ _ dvd_rfl]
    push_cast
    ring
  by_cases hc : A < 0 ∧ E % 2 = 1
  · have hA : (A : ZMod N) = -((A.natAbs : ℕ) : ZMod N) := by
      have h1 : (A.natAbs : ℤ) = -A := Int.ofNat_natAbs_of_nonpos (by omega)
      have h2 := congrArg (fun z : ℤ => (z : ZMod N)) h1
      simp only [Int.cast_natCast, Int.cast_neg] at h2
      linear_combination h2
    refine ⟨N - A.natAbs ^ E % N, ?_, by omega, ?_, ?_, ?_⟩
    · rw [hev, if_pos hc]
    · rw [Nat.cast_sub (le_of_lt hr), ZMod.natCast_self, hA,
        (Nat.odd_iff.mpr hc.2).neg_pow, hcastr]
      ring
    · intro hnc
      exact (hnc hc).elim
    · intro _
      exact ⟨rfl, by omega⟩
  · refine ⟨A.natAbs ^ E % N, ?_, by omega, ?_, fun _ => ⟨rfl, hr⟩,
      fun h => (hc h).elim⟩
    · rw [hev, if_neg hc]
    · rw [hcastr]
      by_cases hA0 : A < 0
      · have hEeven : E % 2 = 0 := by
          rcases Nat.mod_two_eq_zero_or_one E with h | h
          · exact h
          · exact absurd ⟨hA0, h⟩ hc
        have hA : (A : ZMod N) = -((A.natAbs : ℕ) : ZMod N) := by
          have h1 : (A.natAbs : ℤ) = -A := Int.ofNat_natAbs_of_nonpos (by omega)
          have h2 := congrArg (fun z : ℤ => (z : ZMod N)) h1
          simp only [Int.cast_natCast, Int.cast_neg] at h2
          linear_combination h2
        rw [hA, (Nat.even_iff.mpr hEeven).neg_pow]
      · have h1 : (A.natAbs : ℤ) = A := Int.natAbs_of_nonneg (by omega)
        have h2 := congrArg (fun z : ℤ => (z : ZMod N)) h1
        simp only [Int.cast_natCast] at h2
        rw [h2]

/-- C2 witness. -/
theorem c2_exp_mod_witness :
    1 < 5 ∧ 5 % 2 = 1
      ∧ ∃ X : Nat, ttls_mpi_exp_mod (-2) 3 5 = .ok X
        ∧ X ≤ 5
        ∧ (X : ZMod 5) = ((-2 : ℤ) : ZMod 5) ^ 3
        ∧ (¬ ((-2:ℤ) < 0 ∧ 3 % 2 = 1) → X = (-2:ℤ).natAbs ^ 3 % 5 ∧ X < 5)
        ∧ ((-2:ℤ) < 0 ∧ 3 % 2 = 1 →
            X = 5 - (-2:ℤ).natAbs ^ 3 % 5
              ∧ (X = 5 ↔ (-2:ℤ).natAbs ^ 3 % 5 = 0)) :=
  ⟨by decide, by decide, c2_exp_mod_amended (-2) 3 5 (by decide) (by decide)⟩

/-! ## C4 helpers: shift and ripple arithmetic -/

theorem shr6_eq (c : Nat) : c >>> 6 = c / 64 := by
  rw [Nat.shiftRight_eq_div_pow]

theorem and63_eq (c : Nat) : c &&& 63 = c % 64 := by
  have h := Nat.and_pow_two_sub_one_eq_mod c 6
  norm_num at h
  exact h

theorem size_lower (n : Nat) (h : n ≠ 0) : 2 ^ (Nat.size n - 1) ≤ n := by
  have hpos : 0 < Nat.size n := Nat.size_pos.mpr (Nat.pos_of_ne_zero h)
  exact Nat.lt_size.mp (by omega)

theorem size_half (n : Nat) : Nat.size (n / 2) = Nat.size n - 1 := by
  by_cases h : n = 0
  · subst h; simp
  · rw [size_succ_half n (Nat.pos_of_ne_zero h)]; omega

theorem size_shiftr (v : Nat) : ∀ c : Nat,
    Nat.size (v / 2 ^ c) = Nat.size v - c := by
  intro c
  induction c with
  | zero => simp
  | succ c ih =>
    rw [pow_succ, ← Nat.div_div_eq_div_mul, size_half, ih]
    omega

theorem limbsOf_getD (n a i : Nat) (h : i < n) :
    (limbsOf n a).getD i 0 = a / 2 ^ (64 * i) % 2 ^ 64 := by
  unfold limbsOf
  rw [List.getD_eq_getElem _ 0 (by simpa using h)]
  simp

theorem limbsOf_take (n a k : Nat) :
    (limbsOf n a).take k = limbsOf (min k n) a := by
  unfold limbsOf
  rw [← List.map_take, List.take_range]

theorem limbsOf_top_ne_zero (n a u : Nat) (hu : 1 ≤ u) (hun : u ≤ n)
    (hlo : 2 ^ (64 * (u - 1)) ≤ a) (hhi : a < 2 ^ (64 * u)) :
    (limbsOf n a).getD (u - 1) 0 ≠ 0 := by
  rw [limbsOf_getD n a (u - 1) (by omega)]
  have h1 : 1 ≤ a / 2 ^ (64 * (u - 1)) :=
    (Nat.one_le_div_iff (by positivity)).mpr hlo
  have h2 : a / 2 ^ (64 * (u - 1)) < 2 ^ 64 := by
    rw [Nat.div_lt_iff_lt_mul (by positivity)]
    calc a < 2 ^ (64 * u) := hhi
      _ = 2 ^ 64 * 2 ^ (64 * (u - 1)) := by
          rw [← pow_add]; congr 1; omega
  rw [Nat.mod_eq_of_lt h2]
  omega

theorem limbsOf_mpi_val (s : Int) (w n u : Nat) (hun : u ≤ n)
    (hsz : Nat.size w ≤ 64 * u) :
    mpiVal ⟨s, u, limbsOf n w⟩ = w := by
  unfold mpiVal
  rw [limbsOf_take, Nat.min_eq_left hun, limbsOf_val]
  exact Nat.mod_eq_of_lt (lt_of_lt_of_le (Nat.lt_size_self w)
    (Nat.pow_le_pow_right (by norm_num) hsz))

theorem limbsOf_norm_core (s : Int) (w n u : Nat) (hun : u ≤ n)
    (hu : 1 ≤ u) (hw : w ≠ 0)
    (hsz1 : 64 * (u - 1) < Nat.size w) (hsz2 : Nat.size w ≤ 64 * u) :
    MpiNorm ⟨s, u, limbsOf n w⟩ := by
  refine ⟨hu, fun hgt => ?_⟩
  apply limbsOf_top_ne_zero n w u hu hun
  · calc (2:Nat) ^ (64 * (u - 1)) ≤ 2 ^ (Nat.size w - 1) :=
        Nat.pow_le_pow_right (by norm_num) (by omega)
      _ ≤ w := size_lower w hw
  · exact lt_of_lt_of_le (Nat.lt_size_self w)
      (Nat.pow_le_pow_right (by norm_num) hsz2)

theorem lval_top_ne_zero (l : List Nat) (hb : ∀ d ∈ l, d < 2 ^ 64)
    (hu : 1 ≤ l.length)
    (hlo : 2 ^ (64 * (l.length - 1)) ≤ lVal (2 ^ 64) l) :
    l.getD (l.length - 1) 0 ≠ 0 := by
  have hgd := lVal_getD (2 ^ 64) (by norm_num) l hb (l.length - 1)
  rw [← hgd]
  have hup : lVal (2 ^ 64) l < (2 ^ 64) ^ l.length :=
    lVal_lt (2 ^ 64) (by norm_num) l hb
  have h1 : 1 ≤ lVal (2 ^ 64) l / (2 ^ 64) ^ (l.length - 1) := by
    apply (Nat.one_le_div_iff (by positivity)).mpr
    rw [← pow_mul]
    exact hlo
  have h2 : lVal (2 ^ 64) l / (2 ^ 64) ^ (l.length - 1) < 2 ^ 64 := by
    rw [Nat.div_lt_iff_lt_mul (by positivity)]
    calc lVal (2 ^ 64) l < (2 ^ 64) ^ l.length := hup
      _ = 2 ^ 64 * (2 ^ 64) ^ (l.length - 1) := by
          rw [← pow_succ']
          congr 1
          omega
  rw [Nat.mod_eq_of_lt h2]
  omega

theorem mpi_fixup_norm (s : Int) (p : List Nat) (n : Nat) (h1 : 1 ≤ n)
    (h2 : n ≤ p.length) : MpiNorm ⟨s, mpi_fixup_used p n, p⟩ := by
  unfold MpiNorm mpi_fixup_used
  rw [Nat.min_eq_left h2]
  obtain ⟨a, _, c⟩ := fixupLoop_norm p n h1
  exact ⟨a, c⟩

theorem mpi_top_val (X : TlsMpi) (hu : 1 ≤ X.used)
    (hlen : X.used ≤ X.p.length) (hb : ∀ d ∈ X.p, d < 2 ^ 64) :
    X.p.getD (X.used - 1) 0 = mpiVal X / 2 ^ (64 * (X.used - 1)) := by
  have hbt : ∀ d ∈ X.p.take X.used, d < 2 ^ 64 :=
    fun d hd => hb d (List.mem_of_mem_take hd)
  have h1 := lVal_getD (2 ^ 64) (by norm_num) (X.p.take X.used) hbt
    (X.used - 1)
  rw [getD_take_of_lt _ _ _ _ (by omega : X.used - 1 < X.used)] at h1
  have hdiv : lVal (2 ^ 64) (X.p.take X.used) / (2 ^ 64) ^ (X.used - 1)
      < 2 ^ 64 := by
    rw [Nat.div_lt_iff_lt_mul (by positivity)]
    calc lVal (2 ^ 64) (X.p.take X.used) < 2 ^ (64 * X.used) :=
        mpi_val_lt_used X hlen hb
      _ ≤ 2 ^ 64 * (2 ^ 64) ^ (X.used - 1) := by
          have he : (2:Nat) ^ 64 * (2 ^ 64) ^ (X.used - 1)
              = 2 ^ (64 * X.used) := by
            rw [← pow_succ', ← pow_mul]
            congr 1
            omega
          rw [he]
  rw [← h1, Nat.mod_eq_of_lt hdiv, pow_mul]
  rfl

theorem bitlen_eq_size (X : TlsMpi) (hu : 1 ≤ X.used)
    (hlen : X.used ≤ X.p.length) (hb : ∀ d ∈ X.p, d < 2 ^ 64)
    (htop : 1 < X.used → X.p.getD (X.used - 1) 0 ≠ 0) :
    ttls_mpi_bitlen X = Nat.size (mpiVal X) := by
  have h1 : X.used - 1 < X.p.length := by omega
  by_cases ht : X.p.getD (X.used - 1) 0 = 0
  · have hu1 : X.used = 1 := by
      rcases Nat.lt_or_ge 1 X.used with h | h
      · exact absurd ht (htop h)
      · omega
    have ht0 : X.p.getD 0 0 = 0 := by
      rw [hu1] at ht
      simpa using ht
    have hval : mpiVal X = 0 := by
      unfold mpiVal
      rw [hu1, take_succ_getD X.p 0 (by omega), ht0]
      simp [lVal_append, lVal_cons, lVal_nil]
    unfold ttls_mpi_bitlen
    rw [if_pos (Or.inr ht), hval, Nat.size_zero]
  · have htpb : X.p.getD (X.used - 1) 0 < 2 ^ 64 := by
      rw [List.getD_eq_getElem X.p 0 h1]
      exact hb _ (List.getElem_mem h1)
    have hlow : lVal (2 ^ 64) (X.p.take (X.used - 1))
        < 2 ^ (64 * (X.used - 1)) := by
      have h := lVal_lt (2 ^ 64) (by norm_num) (X.p.take (X.used - 1))
        (fun d hd => hb d (List.mem_of_mem_take hd))
      rwa [List.length_take, Nat.min_eq_left (by omega), ← pow_mul] at h
    have hsp := lVal_take_split X.p (X.used - 1) h1
    rw [show X.used - 1 + 1 = X.used from by omega] at hsp
    have hbl : ttls_mpi_bitlen X
        = (X.used - 1) * BIL + Nat.size (X.p.getD (X.used - 1) 0) := by
      unfold ttls_mpi_bitlen
      simp only [natSize_eq]
      rw [if_neg]
      push_neg
      exact ⟨by omega, ht⟩
    have h2 : X.p.getD (X.used - 1) 0
        < 2 ^ Nat.size (X.p.getD (X.used - 1) 0) := Nat.lt_size_self _
    have hszpos : 1 ≤ Nat.size (X.p.getD (X.used - 1) 0) :=
      Nat.size_pos.mpr (Nat.pos_of_ne_zero ht)
    have hvb : mpiVal X < 2 ^ ttls_mpi_bitlen X := by
      unfold mpiVal
      rw [hsp, hbl]
      unfold BIL
      calc lVal (2 ^ 64) (X.p.take (X.used - 1))
            + 2 ^ (64 * (X.used - 1)) * X.p.getD (X.used - 1) 0
          < 2 ^ (64 * (X.used - 1))
            + 2 ^ (64 * (X.used - 1)) * X.p.getD (X.used - 1) 0 :=
            Nat.add_lt_add_right hlow _
        _ = 2 ^ (64 * (X.used - 1)) * (X.p.getD (X.used - 1) 0 + 1) := by
            ring
        _ ≤ 2 ^ (64 * (X.used - 1))
              * 2 ^ Nat.size (X.p.getD (X.used - 1) 0) :=
            Nat.mul_le_mul (Nat.le_refl _) (by omega)
        _ = 2 ^ ((X.used - 1) * 64 + Nat.size (X.p.getD (X.used - 1) 0)) := by
            rw [← pow_add]
            congr 1
            ring
    have hvlo : 2 ^ (ttls_mpi_bitlen X - 1) ≤ mpiVal X := by
      have hstep : 2 ^ (Nat.size (X.p.getD (X.used - 1) 0) - 1)
          ≤ X.p.getD (X.used - 1) 0 := size_lower _ ht
      have hmul : 2 ^ (64 * (X.used - 1))
            * 2 ^ (Nat.size (X.p.getD (X.used - 1) 0) - 1)
          ≤ 2 ^ (64 * (X.used - 1)) * X.p.getD (X.used - 1) 0 :=
        Nat.mul_le_mul (Nat.le_refl _) hstep
      have hexp : 2 ^ (ttls_mpi_bitlen X - 1)
          = 2 ^ (64 * (X.used - 1))
            * 2 ^ (Nat.size (X.p.getD (X.used - 1) 0) - 1) := by
        rw [hbl, ← pow_add]
        unfold BIL
        congr 1
        omega
      have hle : 2 ^ (64 * (X.used - 1)) * X.p.getD (X.used - 1) 0
          ≤ mpiVal X := by
        unfold mpiVal
        rw [hsp]
        omega
      omega
    have hblpos : 1 ≤ ttls_mpi_bitlen X := by
      rw [hbl]; omega
    apply Nat.le_antisymm
    · have := Nat.lt_size.mpr hvlo
      omega
    · exact Nat.size_le.mpr hvb

theorem carryProp_spec : ∀ (la : List Nat) (c : Nat),
    (∀ d ∈ la, d < 2 ^ 64) → c ≤ 1 →
    lVal (2 ^ 64) (carryProp la c) = lVal (2 ^ 64) la + c
      ∧ (∀ d ∈ carryProp la c, d < 2 ^ 64)
      ∧ ((carryProp la c).length = la.length
         ∨ ((carryProp la c).length = la.length + 1
            ∧ (carryProp la c).getD la.length 0 = 1)) := by
  intro la
  induction la with
  | nil =>
    intro c _ hc
    rcases Nat.le_one_iff_eq_zero_or_eq_one.mp hc with rfl | rfl
    · exact ⟨by simp [carryProp, lVal_nil], by simp [carryProp],
        Or.inl (by simp [carryProp])⟩
    · refine ⟨by simp [carryProp, lVal_cons, lVal_nil], ?_,
        Or.inr ⟨by simp [carryProp], by simp [carryProp]⟩⟩
      intro d hd
      simp [carryProp] at hd
      subst hd
      norm_num
  | cons a as ih =>
    intro c hb hc
    by_cases h0 : c = 0
    · subst h0
      rw [show carryProp (a :: as) 0 = a :: as from by simp [carryProp]]
      exact ⟨by ring, hb, Or.inl rfl⟩
    · simp only [carryProp, if_neg h0]
      have ha : a < 2 ^ 64 := hb a (by simp)
      have hc' : (a + c) / 2 ^ 64 ≤ 1 := by
        have h2 : (a + c) / 2 ^ 64 < 2 := by
          rw [Nat.div_lt_iff_lt_mul (by positivity)]
          omega
        omega
      obtain ⟨ihv, ihb, ihl⟩ := ih ((a + c) / 2 ^ 64)
        (fun d hd => hb d (by simp [hd])) hc'
      refine ⟨?_, ?_, ?_⟩
      · rw [lVal_cons, ihv, lVal_cons]
        have h3 := Nat.div_add_mod (a + c) (2 ^ 64)
        omega
      · intro d hd
        rcases List.mem_cons.mp hd with h | h
        · subst h; exact Nat.mod_lt _ (by positivity)
        · exact ihb d h
      · rcases ihl with h | ⟨h1, h2⟩
        · left
          show ((a + c) % 2 ^ 64 :: carryProp as ((a + c) / 2 ^ 64)).length
            = (a :: as).length
          rw [List.length_cons, List.length_cons, h]
        · right
          constructor
          · show ((a + c) % 2 ^ 64 :: carryProp as ((a + c) / 2 ^ 64)).length
              = (a :: as).length + 1
            rw [List.length_cons, List.length_cons, h1]
          · show ((a + c) % 2 ^ 64 :: carryProp as ((a + c) / 2 ^ 64)).getD
              ((a :: as).length) 0 = 1
            rw [List.length_cons, List.getD_cons_succ]
            exact h2

theorem addLoop_spec : ∀ (lb la : List Nat) (c : Nat),
    (∀ d ∈ la, d < 2 ^ 64) → (∀ d ∈ lb, d < 2 ^ 64) → c ≤ 1 →
    lVal (2 ^ 64) (addLoop la lb c)
        = lVal (2 ^ 64) la + lVal (2 ^ 64) lb + c
      ∧ (∀ d ∈ addLoop la lb c, d < 2 ^ 64)
      ∧ ((addLoop la lb c).length = max la.length lb.length
         ∨ ((addLoop la lb c).length = max la.length lb.length + 1
            ∧ (addLoop la lb c).getD (max la.length lb.length) 0 = 1)) := by
  intro lb
  induction lb with
  | nil =>
    intro la c ha _ hc
    obtain ⟨v, b, l⟩ := carryProp_spec la c ha hc
    simp only [addLoop]
    refine ⟨by rw [v]; simp [lVal_nil], b, ?_⟩
    rcases l with h | ⟨h1, h2⟩
    · left; simpa using h
    · right; exact ⟨by simpa using h1, by simpa using h2⟩
  | cons b bs ih =>
    intro la c ha hbnd hc
    have hhead : la.headD 0 < 2 ^ 64 := by
      cases la with
      | nil => norm_num
      | cons x xs =>
        simp only [List.headD_cons]
        exact ha x (by simp)
    have hb0 : b < 2 ^ 64 := hbnd b (by simp)
    have hc' : (la.headD 0 + b + c) / 2 ^ 64 ≤ 1 := by
      have h2 : (la.headD 0 + b + c) / 2 ^ 64 < 2 := by
        rw [Nat.div_lt_iff_lt_mul (by positivity)]
        omega
      omega
    have hta : ∀ d ∈ la.tail, d < 2 ^ 64 :=
      fun d hd => ha d (List.mem_of_mem_tail hd)
    obtain ⟨ihv, ihb, ihl⟩ := ih la.tail ((la.headD 0 + b + c) / 2 ^ 64) hta
      (fun d hd => hbnd d (by simp [hd])) hc'
    have hval_head : lVal (2 ^ 64) la
        = la.headD 0 + 2 ^ 64 * lVal (2 ^ 64) la.tail := by
      cases la with
      | nil => simp [lVal_nil]
      | cons x xs =>
        simp only [List.headD_cons, List.tail_cons, lVal_cons]
        ring
    have hmax : max la.length (b :: bs).length
        = max la.tail.length bs.length + 1 := by
      rw [List.length_tail]
      simp only [List.length_cons]
      omega
    refine ⟨?_, ?_, ?_⟩
    · simp only [addLoop]
      rw [lVal_cons, ihv, hval_head, lVal_cons]
      obtain ⟨q, hq⟩ : ∃ q, (la.headD 0 + b + c) / 2 ^ 64 = q := ⟨_, rfl⟩
      obtain ⟨r, hr⟩ : ∃ r, (la.headD 0 + b + c) % 2 ^ 64 = r := ⟨_, rfl⟩
      have h3 : 2 ^ 64 * q + r = la.headD 0 + b + c := by
        rw [← hq, ← hr]
        exact Nat.div_add_mod _ _
      rw [hq, hr]
      omega
    · intro d hd
      simp only [addLoop] at hd
      rcases List.mem_cons.mp hd with h | h
      · subst h; exact Nat.mod_lt _ (by positivity)
      · exact ihb d h
    · simp only [addLoop]
      rcases ihl with h | ⟨h1, h2⟩
      · left
        rw [List.length_cons, h, hmax]
      · right
        constructor
        · rw [List.length_cons, h1, hmax]
        · rw [hmax, List.getD_cons_succ]
          exact h2

theorem add_abs_spec (A B : TlsMpi)
    (hA : MpiNorm A) (hAlen : A.used ≤ A.p.length)
    (hAb : ∀ d ∈ A.p, d < 2 ^ 64)
    (hB : MpiNorm B) (hBlen : B.used ≤ B.p.length)
    (hBb : ∀ d ∈ B.p, d < 2 ^ 64) :
    MpiNorm (ttls_mpi_add_abs A B) ∧ (ttls_mpi_add_abs A B).s = 1
      ∧ mpiVal (ttls_mpi_add_abs A B) = mpiVal A + mpiVal B := by
  have hlaLen : (A.p.take A.used).length = A.used := by
    rw [List.length_take]; omega
  have hlbLen : (B.p.take B.used).length = B.used := by
    rw [List.length_take]; omega
  have hlaB : ∀ d ∈ A.p.take A.used, d < 2 ^ 64 :=
    fun d hd => hAb d (List.mem_of_mem_take hd)
  have hlbB : ∀ d ∈ B.p.take B.used, d < 2 ^ 64 :=
    fun d hd => hBb d (List.mem_of_mem_take hd)
  obtain ⟨hv, hbnd, hlen⟩ := addLoop_spec (B.p.take B.used) (A.p.take A.used)
    0 hlaB hlbB (by omega)
  have hvr : lVal (2 ^ 64) (addLoop (A.p.take A.used) (B.p.take B.used) 0)
      = mpiVal A + mpiVal B := by
    rw [hv]
    rfl
  have hAu := hA.1
  have hBu := hB.1
  refine ⟨⟨?_, ?_⟩, rfl, ?_⟩
  · show 1 ≤ (addLoop (A.p.take A.used) (B.p.take B.used) 0).length
    rcases hlen with h | ⟨h1, _⟩ <;> rw [hlaLen, hlbLen] at * <;> omega
  · intro hgt
    rw [hlaLen, hlbLen] at hlen
    set r := addLoop (A.p.take A.used) (B.p.take B.used) 0 with hr
    show r.getD (r.length - 1) 0 ≠ 0
    rcases hlen with h | ⟨h1, h2⟩
    · -- no final carry limb: the longer input's top limb forces
      -- a big value, hence a non-zero top limb of the sum
      apply lval_top_ne_zero r hbnd (by omega)
      rw [h, hvr]
      have hmax1 : 1 < max A.used B.used := by
        rw [← h]
        exact hgt
      rcases Nat.le_total A.used B.used with hab | hab
      · have hBmax : max A.used B.used = B.used := by omega
        rcases mpi_val_lower B hBu hBlen hB.2 with h1 | h1
        · omega
        · rw [hBmax]
          calc (2:Nat) ^ (64 * (B.used - 1)) ≤ mpiVal B := h1
            _ ≤ mpiVal A + mpiVal B := Nat.le_add_left _ _
      · have hAmax : max A.used B.used = A.used := by omega
        rcases mpi_val_lower A hAu hAlen hA.2 with h1 | h1
        · omega
        · rw [hAmax]
          calc (2:Nat) ^ (64 * (A.used - 1)) ≤ mpiVal A := h1
            _ ≤ mpiVal A + mpiVal B := Nat.le_add_right _ _
    · rw [h1, Nat.add_sub_cancel, h2]
      omega
  · show lVal (2 ^ 64)
      ((addLoop (A.p.take A.used) (B.p.take B.used) 0).take
        (addLoop (A.p.take A.used) (B.p.take B.used) 0).length)
      = mpiVal A + mpiVal B
    rw [List.take_length]
    exact hvr

theorem sub_abs_spec (A B : TlsMpi) (hu : 1 ≤ A.used)
    (hlen : A.used ≤ A.p.length) (hb : ∀ d ∈ A.p, d < 2 ^ 64) :
    (ttls_mpi_sub_abs A B = .error () ↔ mpiVal A < mpiVal B)
      ∧ ∀ Y, ttls_mpi_sub_abs A B = .ok Y →
          MpiNorm Y ∧ Y.s = 1 ∧ mpiVal Y = mpiVal A - mpiVal B := by
  by_cases hlt : mpiVal A < mpiVal B
  · unfold ttls_mpi_sub_abs
    rw [if_pos hlt]
    exact ⟨⟨fun _ => hlt, fun _ => rfl⟩, fun Y hY => nomatch hY⟩
  · unfold ttls_mpi_sub_abs
    rw [if_neg hlt]
    refine ⟨⟨(fun h => nomatch h), fun h => absurd h hlt⟩, ?_⟩
    intro Y hY
    injection hY with hY
    subst hY
    have hplen : A.used ≤ (limbsOf A.used (mpiVal A - mpiVal B)).length :=
      le_of_eq (limbsOf_length _ _).symm
    refine ⟨mpi_fixup_norm 1 _ A.used hu hplen, rfl, ?_⟩
    show lVal (2 ^ 64) ((limbsOf A.used (mpiVal A - mpiVal B)).take
      (mpi_fixup_used (limbsOf A.used (mpiVal A - mpiVal B)) A.used))
      = mpiVal A - mpiVal B
    unfold mpi_fixup_used
    rw [Nat.min_eq_left hplen, fixupLoop_val,
      List.take_of_length_le (le_of_eq (limbsOf_length _ _)), limbsOf_val]
    apply Nat.mod_eq_of_lt
    exact lt_of_le_of_lt (Nat.sub_le _ _) (mpi_val_lt_used A hlen hb)

theorem shift_l_spec (X : TlsMpi) (count : Nat) (hn : MpiNorm X)
    (hlen : X.used ≤ X.p.length) (hb : ∀ d ∈ X.p, d < 2 ^ 64) :
    MpiNorm (ttls_mpi_shift_l X count)
      ∧ (ttls_mpi_shift_l X count).s = X.s
      ∧ mpiVal (ttls_mpi_shift_l X count) = mpiVal X * 2 ^ count := by
  obtain ⟨hu, htop⟩ := hn
  have hbl := bitlen_eq_size X hu hlen hb htop
  by_cases h0 : ttls_mpi_bitlen X = 0
  · have hv0 : mpiVal X = 0 := by
      rw [hbl] at h0
      exact Nat.size_eq_zero.mp h0
    unfold ttls_mpi_shift_l
    rw [if_pos h0]
    refine ⟨⟨hu, htop⟩, rfl, ?_⟩
    rw [hv0]
    simp
  · have hv : mpiVal X ≠ 0 := by
      intro hz
      rw [hbl, hz, Nat.size_zero] at h0
      exact h0 rfl
    unfold ttls_mpi_shift_l
    rw [if_neg h0, hbl, shr6_eq]
    have hlo := size_lower _ hv
    have hhi := Nat.lt_size_self (mpiVal X)
    have hszpos : 1 ≤ Nat.size (mpiVal X) :=
      Nat.size_pos.mpr (Nat.pos_of_ne_zero hv)
    have hwlo : 2 ^ (Nat.size (mpiVal X) + count - 1)
        ≤ mpiVal X * 2 ^ count := by
      calc (2:Nat) ^ (Nat.size (mpiVal X) + count - 1)
          = 2 ^ (Nat.size (mpiVal X) - 1) * 2 ^ count := by
            rw [← pow_add]; congr 1; omega
        _ ≤ mpiVal X * 2 ^ count := Nat.mul_le_mul_right _ hlo
    have hwhi : mpiVal X * 2 ^ count < 2 ^ (Nat.size (mpiVal X) + count) := by
      rw [pow_add]
      exact mul_lt_mul_of_pos_right hhi (by positivity)
    have hsw : Nat.size (mpiVal X * 2 ^ count)
        = Nat.size (mpiVal X) + count := by
      apply Nat.le_antisymm
      · exact Nat.size_le.mpr hwhi
      · have := Nat.lt_size.mpr hwlo
        omega
    refine ⟨?_, rfl, ?_⟩
    · exact limbsOf_norm_core X.s (mpiVal X * 2 ^ count) _ _ (le_refl _)
        (by omega) (Nat.mul_ne_zero hv (by positivity))
        (by rw [hsw]; omega) (by rw [hsw]; omega)
    · exact limbsOf_mpi_val X.s (mpiVal X * 2 ^ count) _ _ (le_refl _)
        (by rw [hsw]; omega)

theorem shift_r_spec (X : TlsMpi) (count : Nat) (hn : MpiNorm X)
    (hlen : X.used ≤ X.p.length) (hb : ∀ d ∈ X.p, d < 2 ^ 64) :
    mpiVal (ttls_mpi_shift_r X count) = mpiVal X >>> count
      ∧ ((mpiVal X ≠ 0 → mpiVal X >>> count ≠ 0 ∨ X.used < count >>> 6
            ∨ (count >>> 6 = X.used ∧ 0 < count &&& 63)) →
          MpiNorm (ttls_mpi_shift_r X count))
      ∧ (mpiVal X ≠ 0 → mpiVal X >>> count = 0 → count >>> 6 ≤ X.used →
          ¬ (count >>> 6 = X.used ∧ 0 < count &&& 63) →
          (ttls_mpi_shift_r X count).used = 0
            ∧ ¬ MpiNorm (ttls_mpi_shift_r X count)) := by
  obtain ⟨hu, htop⟩ := hn
  have hsr : mpiVal X >>> count = mpiVal X / 2 ^ count :=
    Nat.shiftRight_eq_div_pow _ _
  by_cases hv0 : mpiVal X = 0
  · have htop0 : X.p.getD (X.used - 1) 0 = 0 := by
      rw [mpi_top_val X hu hlen hb, hv0]
      simp
    unfold ttls_mpi_shift_r
    rw [if_pos (Or.inr htop0)]
    refine ⟨?_, fun _ => ⟨hu, htop⟩, fun hv => absurd hv0 hv⟩
    rw [hsr, hv0]
    simp
  · have htopne : X.p.getD (X.used - 1) 0 ≠ 0 := by
      rw [mpi_top_val X hu hlen hb]
      intro hz
      apply hv0
      have hsmall : mpiVal X < 2 ^ (64 * (X.used - 1)) :=
        (Nat.div_eq_zero_iff (by positivity)).mp hz
      rcases mpi_val_lower X hu hlen htop with h1 | h1
      · rw [h1] at hsmall
        simpa using hsmall
      · omega
    unfold ttls_mpi_shift_r
    rw [if_neg (by push_neg; exact ⟨by omega, htopne⟩), shr6_eq, and63_eq]
    by_cases hg2 : X.used < count / 64 ∨ (count / 64 = X.used ∧ 0 < count % 64)
    · rw [if_pos hg2]
      have hwz : mpiVal X / 2 ^ count = 0 := by
        apply Nat.div_eq_of_lt
        apply lt_of_lt_of_le (mpi_val_lt_used X hlen hb)
        apply Nat.pow_le_pow_right (by norm_num)
        omega
      refine ⟨?_, fun _ => by decide, ?_⟩
      · rw [hsr, hwz]
        decide
      · intro _ _ hle hnot
        exfalso
        rcases hg2 with h | h
        · omega
        · exact hnot h
    · rw [if_neg hg2]
      push_neg at hg2
      obtain ⟨hg2a, hg2b⟩ := hg2
      have hvu : mpiVal X < 2 ^ (64 * X.used) := mpi_val_lt_used X hlen hb
      have hvl : 2 ^ (64 * (X.used - 1)) ≤ mpiVal X := by
        rcases mpi_val_lower X hu hlen htop with h1 | h1
        · rw [h1]
          simpa using Nat.pos_of_ne_zero hv0
        · exact h1
      have hsv1 : 64 * (X.used - 1) < Nat.size (mpiVal X) :=
        Nat.lt_size.mpr hvl
      have hsv2 : Nat.size (mpiVal X) ≤ 64 * X.used := Nat.size_le.mpr hvu
      have hswsz : Nat.size (mpiVal X / 2 ^ count)
          = Nat.size (mpiVal X) - count := size_shiftr _ _
      have htsh : X.p.getD (X.used - 1) 0 >>> (count % 64)
          = mpiVal X / 2 ^ (64 * (X.used - 1) + count % 64) := by
        rw [mpi_top_val X hu hlen hb, Nat.shiftRight_eq_div_pow,
          Nat.div_div_eq_div_mul, ← pow_add]
      have htshz : (X.p.getD (X.used - 1) 0 >>> (count % 64) = 0)
          ↔ Nat.size (mpiVal X) ≤ 64 * (X.used - 1) + count % 64 := by
        rw [htsh, Nat.div_eq_zero_iff (by positivity), ← Nat.size_le]
      by_cases hδ : 0 < count % 64
          ∧ X.p.getD (X.used - 1) 0 >>> (count % 64) = 0
      · rw [if_pos hδ]
        obtain ⟨hδ1, hδ2⟩ := hδ
        rw [htshz] at hδ2
        refine ⟨?_, ?_, ?_⟩
        · rw [hsr]
          exact limbsOf_mpi_val X.s _ _ _ (by omega) (by rw [hswsz]; omega)
        · intro H
          have hw0 : mpiVal X / 2 ^ count ≠ 0 := by
            rcases H hv0 with h | h | h
            · rwa [hsr] at h
            · omega
            · omega
          have hsw1 : 1 ≤ Nat.size (mpiVal X) - count := by
            have hp := Nat.size_pos.mpr (Nat.pos_of_ne_zero hw0)
            rwa [hswsz] at hp
          rw [hsr]
          exact limbsOf_norm_core X.s _ _ _ (by omega) (by omega) hw0
            (by rw [hswsz]; omega) (by rw [hswsz]; omega)
        · intro _ hwz _ _
          rw [hsr] at hwz
          have h00 : Nat.size (mpiVal X / 2 ^ count) = 0 := by
            rw [hwz, Nat.size_zero]
          rw [hswsz] at h00
          constructor
          · show X.used - count / 64 - 1 = 0
            omega
          · intro hNorm
            have h1 : (1:Nat) ≤ X.used - count / 64 - 1 := hNorm.1
            omega
      · rw [if_neg hδ]
        have hδ' : count % 64 = 0
            ∨ 64 * (X.used - 1) + count % 64 < Nat.size (mpiVal X) := by
          by_cases hm : count % 64 = 0
          · exact Or.inl hm
          · right
            by_contra hcon
            push_neg at hcon
            exact hδ ⟨Nat.pos_of_ne_zero hm, htshz.mpr hcon⟩
        refine ⟨?_, ?_, ?_⟩
        · rw [hsr]
          exact limbsOf_mpi_val X.s _ _ _ (le_refl _) (by rw [hswsz]; omega)
        · intro H
          have hw0 : mpiVal X / 2 ^ count ≠ 0 := by
            rcases H hv0 with h | h | h
            · rwa [hsr] at h
            · omega
            · omega
          have hsw1 : 1 ≤ Nat.size (mpiVal X) - count := by
            have hp := Nat.size_pos.mpr (Nat.pos_of_ne_zero hw0)
            rwa [hswsz] at hp
          rw [hsr]
          exact limbsOf_norm_core X.s _ _ _ (le_refl _) (by omega) hw0
            (by rcases hδ' with hm | hm <;> rw [hswsz] <;> omega)
            (by rw [hswsz]; omega)
        · intro _ hwz _ _
          rw [hsr] at hwz
          have h00 : Nat.size (mpiVal X / 2 ^ count) = 0 := by
            rw [hwz, Nat.size_zero]
          rw [hswsz] at h00
          constructor
          · show X.used - count / 64 - 0 = 0
            rcases hδ' with hm | hm <;> omega
          · intro hNorm
            have h1 : (1:Nat) ≤ X.used - count / 64 - 0 := hNorm.1
            rcases hδ' with hm | hm <;> omega

/-! ## C4: normalisation invariants of the MPI writers -/

/-- C4 counterexample: two destination-writing routines violate the
normalisation invariants.  (1) ttls_mpi_fill_random drawing 9 bytes whose
high (9th) byte is zero produces used = 2 with a zero most significant
limb (the source sets X->used = limbs without calling mpi_fixup_used).
(2) ttls_mpi_shift_r on the normalised one-limb MPI holding 1, shifted
right by 1, drops used to 0: the value 1 >> 1 = 0 is shifted out inside
the top limb, the `if (!X->p[X->used - 1]) --X->used;` step decrements
used below 1, and no path re-establishes used >= 1. -/
theorem c4_normalisation_counterexample :
    (¬ MpiNorm (ttls_mpi_fill_random [1, 0, 0, 0, 0, 0, 0, 0, 0] 9)
      ∧ (ttls_mpi_fill_random [1, 0, 0, 0, 0, 0, 0, 0, 0] 9).used = 2
      ∧ (ttls_mpi_fill_random [1, 0, 0, 0, 0, 0, 0, 0, 0] 9).p.getD 1 0 = 0
      ∧ mpiVal (ttls_mpi_fill_random [1, 0, 0, 0, 0, 0, 0, 0, 0] 9) = 1)
    ∧ (MpiNorm ⟨1, 1, [1]⟩
      ∧ mpiVal (⟨1, 1, [1]⟩ : TlsMpi) = 1
      ∧ (ttls_mpi_shift_r ⟨1, 1, [1]⟩ 1).used = 0
      ∧ ¬ MpiNorm (ttls_mpi_shift_r ⟨1, 1, [1]⟩ 1)) :=
  ⟨⟨by decide, by decide, by decide, by decide⟩,
    ⟨by decide, by decide, by decide, by decide⟩⟩

/-- C4 (amended): every MPI writer of bignum.c whose final used
assignment is mpi_fixup_used with a positive count leaves its destination
normalised: this covers ttls_mpi_read_binary directly (first conjunct)
and, through the generic second conjunct, ttls_mpi_sub_abs (call with
n = A->used), ttls_mpi_mul_mpi (n = i + j), ttls_mpi_div_mpi /
ttls_mpi_mod_mpi and __mpi_montmul.  ttls_mpi_add_abs normalises
structurally: its ripple loops either keep the longer operand's limb
count (and then a non-zero top limb is forced by the operands' top
limbs) or append a final carry limb equal to 1.  ttls_mpi_shift_l
normalises, with used = BITS_TO_LIMBS(bitlen + count) and value
shifted exactly.  The exceptions are: ttls_mpi_fill_random, which
zero-fills the trailing fractional bytes of the high limb (so the value
is exactly the little-endian value of the drawn bytes) but sets used to
the full limb count WITHOUT fixing it up, so its destination is
normalised iff there is a single limb or the drawn high limb is
non-zero; and ttls_mpi_shift_r, which normalises except when a non-zero
value is entirely shifted out while count <= 64 * used (escaping the
lset(X, 0) guard): then used becomes 0, violating used >= 1. -/
theorem c4_normalisation_amended :
    (∀ bs : List Nat, bs ≠ [] →
      MpiNorm (ttls_mpi_read_binary bs) ∧ (ttls_mpi_read_binary bs).s = 1)
    ∧ (∀ (s : Int) (p : List Nat) (n : Nat), 1 ≤ n → n ≤ p.length →
        MpiNorm ⟨s, mpi_fixup_used p n, p⟩)
    ∧ (∀ A B : TlsMpi,
        MpiNorm A → A.used ≤ A.p.length → (∀ d ∈ A.p, d < 2 ^ 64) →
        MpiNorm B → B.used ≤ B.p.length → (∀ d ∈ B.p, d < 2 ^ 64) →
        MpiNorm (ttls_mpi_add_abs A B) ∧ (ttls_mpi_add_abs A B).s = 1
          ∧ mpiVal (ttls_mpi_add_abs A B) = mpiVal A + mpiVal B)
    ∧ (∀ A B : TlsMpi, 1 ≤ A.used → A.used ≤ A.p.length →
        (∀ d ∈ A.p, d < 2 ^ 64) →
        (ttls_mpi_sub_abs A B = .error () ↔ mpiVal A < mpiVal B)
          ∧ ∀ Y, ttls_mpi_sub_abs A B = .ok Y →
              MpiNorm Y ∧ Y.s = 1 ∧ mpiVal Y = mpiVal A - mpiVal B)
    ∧ (∀ (X : TlsMpi) (count : Nat), MpiNorm X → X.used ≤ X.p.length →
        (∀ d ∈ X.p, d < 2 ^ 64) →
        MpiNorm (ttls_mpi_shift_l X count)
          ∧ (ttls_mpi_shift_l X count).s = X.s
          ∧ mpiVal (ttls_mpi_shift_l X count) = mpiVal X * 2 ^ count)
    ∧ (∀ (X : TlsMpi) (count : Nat), MpiNorm X → X.used ≤ X.p.length →
        (∀ d ∈ X.p, d < 2 ^ 64) →
        mpiVal (ttls_mpi_shift_r X count) = mpiVal X >>> count
          ∧ ((mpiVal X ≠ 0 → mpiVal X >>> count ≠ 0 ∨ X.used < count >>> 6
                ∨ (count >>> 6 = X.used ∧ 0 < count &&& 63)) →
              MpiNorm (ttls_mpi_shift_r X count))
          ∧ (mpiVal X ≠ 0 → mpiVal X >>> count = 0 →
              count >>> 6 ≤ X.used →
              ¬ (count >>> 6 = X.used ∧ 0 < count &&& 63) →
              (ttls_mpi_shift_r X count).used = 0
                ∧ ¬ MpiNorm (ttls_mpi_shift_r X count)))
    ∧ (∀ (rnd : List Nat) (size : Nat), rnd.length = size → 0 < size →
      (ttls_mpi_fill_random rnd size).used = (size + 7) / 8
        ∧ (ttls_mpi_fill_random rnd size).s = 1
        ∧ mpiVal (ttls_mpi_fill_random rnd size) = lVal 256 rnd
        ∧ (MpiNorm (ttls_mpi_fill_random rnd size)
            ↔ ((size + 7) / 8 = 1
               ∨ (ttls_mpi_fill_random rnd size).p.getD
                   ((size + 7) / 8 - 1) 0 ≠ 0))) := by
  refine ⟨?_, fun s p n h1 h2 => mpi_fixup_norm s p n h1 h2,
    fun A B h1 h2 h3 h4 h5 h6 => add_abs_spec A B h1 h2 h3 h4 h5 h6,
    fun A B h1 h2 h3 => sub_abs_spec A B h1 h2 h3,
    fun X count h1 h2 h3 => shift_l_spec X count h1 h2 h3,
    fun X count h1 h2 h3 => shift_r_spec X count h1 h2 h3, ?_⟩
  · intro bs hbs
    have hlen : bs.length ≠ 0 := fun h => hbs (List.length_eq_zero.mp h)
    simp only [ttls_mpi_read_binary, mpi_fixup_used, MpiNorm, CIL]
    rw [leChunkN_length, Nat.min_self]
    obtain ⟨h1, _, h3⟩ := fixupLoop_norm
      (leChunkN ((bs.length + 8 - 1) / 8) bs.reverse)
      ((bs.length + 8 - 1) / 8) (by omega)
    exact ⟨⟨h1, h3⟩, trivial⟩
  · intro rnd size hrnd hpos
    simp only [ttls_mpi_fill_random, mpiVal, MpiNorm, CIL]
    have hL : (size + 7) / 8 = (size + 8 - 1) / 8 := by omega
    rw [hL]
    have hlimbs : 1 ≤ (size + 8 - 1) / 8 := by omega
    refine ⟨rfl, trivial, ?_, ?_⟩
    · rw [List.take_of_length_le (le_of_eq (leChunkN_length _ _)),
        leChunkN_val,
        List.take_of_length_le
          (by simp [hrnd]; omega :
            (rnd ++ List.replicate ((size + 8 - 1) / 8 * 8 - size) 0).length
              ≤ 8 * ((size + 8 - 1) / 8)),
        lVal_append, lVal_replicate_zero]
      ring
    · constructor
      · rintro ⟨ha, hb⟩
        by_cases h1 : (size + 8 - 1) / 8 = 1
        · exact Or.inl h1
        · exact Or.inr (hb (by omega))
      · rintro (h | h)
        · exact ⟨by omega, fun hgt => by omega⟩
        · exact ⟨by omega, fun hgt => h⟩

/-- C4 witness: the amended statement instantiated on concrete MPIs for
each covered routine. -/
theorem c4_normalisation_witness :
    (MpiNorm (ttls_mpi_read_binary [7]) ∧ (ttls_mpi_read_binary [7]).s = 1)
    ∧ MpiNorm ⟨1, mpi_fixup_used [5] 1, [5]⟩
    ∧ (MpiNorm (ttls_mpi_add_abs ⟨1, 1, [2]⟩ ⟨1, 1, [3]⟩)
        ∧ (ttls_mpi_add_abs ⟨1, 1, [2]⟩ ⟨1, 1, [3]⟩).s = 1
        ∧ mpiVal (ttls_mpi_add_abs ⟨1, 1, [2]⟩ ⟨1, 1, [3]⟩)
            = mpiVal ⟨1, 1, [2]⟩ + mpiVal ⟨1, 1, [3]⟩)
    ∧ ((ttls_mpi_sub_abs ⟨1, 1, [5]⟩ ⟨1, 1, [3]⟩ = .error ()
          ↔ mpiVal ⟨1, 1, [5]⟩ < mpiVal ⟨1, 1, [3]⟩)
        ∧ ∀ Y, ttls_mpi_sub_abs ⟨1, 1, [5]⟩ ⟨1, 1, [3]⟩ = .ok Y →
            MpiNorm Y ∧ Y.s = 1
              ∧ mpiVal Y = mpiVal ⟨1, 1, [5]⟩ - mpiVal ⟨1, 1, [3]⟩)
    ∧ (MpiNorm (ttls_mpi_shift_l ⟨1, 1, [1]⟩ 1)
        ∧ (ttls_mpi_shift_l ⟨1, 1, [1]⟩ 1).s = (⟨1, 1, [1]⟩ : TlsMpi).s
        ∧ mpiVal (ttls_mpi_shift_l ⟨1, 1, [1]⟩ 1)
            = mpiVal ⟨1, 1, [1]⟩ * 2 ^ 1)
    ∧ (mpiVal (ttls_mpi_shift_r ⟨1, 1, [4]⟩ 1) = mpiVal ⟨1, 1, [4]⟩ >>> 1
        ∧ ((mpiVal (⟨1, 1, [4]⟩ : TlsMpi) ≠ 0 →
              mpiVal (⟨1, 1, [4]⟩ : TlsMpi) >>> 1 ≠ 0
                ∨ (⟨1, 1, [4]⟩ : TlsMpi).used < 1 >>> 6
                ∨ (1 >>> 6 = (⟨1, 1, [4]⟩ : TlsMpi).used ∧ 0 < 1 &&& 63)) →
            MpiNorm (ttls_mpi_shift_r ⟨1, 1, [4]⟩ 1))
        ∧ (mpiVal (⟨1, 1, [4]⟩ : TlsMpi) ≠ 0 →
            mpiVal (⟨1, 1, [4]⟩ : TlsMpi) >>> 1 = 0 →
            1 >>> 6 ≤ (⟨1, 1, [4]⟩ : TlsMpi).used →
            ¬ (1 >>> 6 = (⟨1, 1, [4]⟩ : TlsMpi).used ∧ 0 < 1 &&& 63) →
            (ttls_mpi_shift_r ⟨1, 1, [4]⟩ 1).used = 0
              ∧ ¬ MpiNorm (ttls_mpi_shift_r ⟨1, 1, [4]⟩ 1)))
    ∧ ((ttls_mpi_fill_random [5] 1).used = (1 + 7) / 8
        ∧ (ttls_mpi_fill_random [5] 1).s = 1
        ∧ mpiVal (ttls_mpi_fill_random [5] 1) = lVal 256 [5]
        ∧ (MpiNorm (ttls_mpi_fill_random [5] 1)
            ↔ ((1 + 7) / 8 = 1
               ∨ (ttls_mpi_fill_random [5] 1).p.getD ((1 + 7) / 8 - 1) 0
                 ≠ 0))) :=
  ⟨c4_normalisation_amended.1 [7] (by decide),
    c4_normalisation_amended.2.1 1 [5] 1 (by decide) (by decide),
    c4_normalisation_amended.2.2.1 ⟨1, 1, [2]⟩ ⟨1, 1, [3]⟩ (by decide)
      (by decide) (by decide) (by decide) (by decide) (by decide),
    c4_normalisation_amended.2.2.2.1 ⟨1, 1, [5]⟩ ⟨1, 1, [3]⟩ (by decide)
      (by decide) (by decide),
    c4_normalisation_amended.2.2.2.2.1 ⟨1, 1, [1]⟩ 1 (by decide)
      (by decide) (by decide),
    c4_normalisation_amended.2.2.2.2.2.1 ⟨1, 1, [4]⟩ 1 (by decide)
      (by decide) (by decide),
    c4_normalisation_amended.2.2.2.2.2.2 [5] 1 (by decide) (by decide)⟩
